import Mathlib

/-!
# hconf: binding of an HCL document to typed program state

A shallow embedding of `hconf.go`, `edit.go` and `types.go`.

* The destination struct that Go reaches through `reflect` is a list of fields, each
  with its struct tags and its current value.  A `reflect.Value` that refers to a field
  is the index of that field.
* The document is the tree that `hcl.ParseBytes` returns (`ast.File`).
* Functions of the Go standard library and of `hashicorp/hcl` whose source is not part
  of the repository are the fields of `Lib`; every function of the repository takes a
  `Lib` and calls them through it.
* A Go function that mutates the destination and returns an `error` is a function to a
  pair: the destination afterwards, and the error (`none` for `nil`).
-/

set_option autoImplicit false

namespace Hconf

/-! ## Positions, tokens and the document tree (`hcl/token`, `hcl/ast`) -/

/-- Source position `token.Pos`. -/
structure Pos where
  filename : String
  offset : Nat
  line : Nat
  column : Nat
  deriving DecidableEq, Repr

/-- The zero value `token.Pos{}`. -/
def Pos.zero : Pos := ⟨"", 0, 0, 0⟩

/-- Token kinds, `token.Type`. -/
inductive TokenType where
  | ILLEGAL | EOF | COMMENT | IDENT | NUMBER | FLOAT | BOOL | STRING | HEREDOC
  | LBRACK | LBRACE | COMMA | PERIOD | RBRACK | RBRACE | ASSIGN | ADD | SUB
  deriving DecidableEq, Repr

/-- A lexical token, `token.Token`. -/
structure Token where
  type : TokenType
  pos : Pos
  text : String
  json : Bool
  deriving DecidableEq, Repr

/-- One label of an item, `ast.ObjectKey`. -/
structure ObjectKey where
  token : Token
  deriving DecidableEq, Repr

/-- Position of a label, `(*ast.ObjectKey).Pos`. -/
def ObjectKey.pos (k : ObjectKey) : Pos := k.token.pos

/-- An item `ast.ObjectItem` over a node type `N`: its labels, the position of `=`, its value.
Comment groups, which the repository never reads or writes, are left out. -/
structure ObjectItemOf (N : Type) where
  keys : List ObjectKey
  assign : Pos
  val : N

/-- A value node `ast.Node`: `*ast.LiteralType`, `*ast.ListType` or `*ast.ObjectType`
(the `ObjectList` of an object type is its list of items). -/
inductive Node where
  | literal (tok : Token)
  | list (lbrack : Pos) (elems : List Node)
  | object (lbrace : Pos) (items : List (ObjectItemOf Node))

/-- An item of the document. -/
abbrev ObjectItem := ObjectItemOf Node

/-- Position of a node, `Node.Pos()`. -/
def Node.pos : Node → Pos
  | .literal tok => tok.pos
  | .list lbrack _ => lbrack
  | .object lbrace _ => lbrace

/-- Position of an item, `(*ast.ObjectItem).Pos`: that of its first label, the zero position
when it has none. -/
def ObjectItemOf.pos {N : Type} (o : ObjectItemOf N) : Pos :=
  match o.keys with
  | [] => Pos.zero
  | k :: _ => k.pos

/-- The node of a parsed file, `ast.File.Node`: the parser produces an `*ast.ObjectList`;
any other node is kept apart because the code tests for it. -/
inductive FileNode where
  | objectList (items : List ObjectItem)
  | other (n : Node)

/-- A parsed file, `ast.File`. -/
structure File where
  node : FileNode

/-! ## Errors -/

/-- The message of an error, one constructor for each format string of the repository,
with the arguments that are formatted into it. -/
inductive Msg where
  | expectedFlatKeys (sectionName : String)
  | unknownSectionKey (sectionName key : String)
  | expectedStringType (t : TokenType)
  | missingRootObjects
  | unknownKey (key : String)
  | unknownSection (key : String)
  | unknownSectionType (typeOfSection : String)
  | expectedSectionWhenOrKey
  | outMustBePointer
  | setUnknownSection (sectionName : String)
  | setUnknownKey (key sectionName : String)
  | setBoolFromString (key sectionName v : String)
  | mustBeListOfStrings (sectionName key : String)
  | failedToSetFromString (key sectionName : String)
  | notKnownType (key sectionName : String)
  | unknownKind (name kind : String)
  | unknownType (name : String)
  | unknownTypeForString (name : String)
  | unknownEntryType (name : String) (i : Nat)
  | unknownEntry (name : String) (i : Nat)
  | unknownTypeForStringSlice (name : String)
  | invalidSet (key sectionName : String)
  | strconvSyntax (fn text : String)
  | library (what : String)
  deriving DecidableEq, Repr

/-- A Go `error` value as the repository produces it: a `*parser.PosError`, any other error
(`errors.New`, `fmt.Errorf`, a `strconv` error), or a run-time panic that ends the call. -/
inductive Err where
  | posError (pos : Pos) (err : Msg)
  | plain (err : Msg)
  | runtimePanic
  deriving DecidableEq, Repr

/-! ## Library functions outside the repository -/

/-- The functions of the Go standard library and of `hashicorp/hcl` that the repository calls.
`none` stands for a panic (`unquote`, `heredoc`, `filePos`) or for a returned error. -/
structure Lib where
  /-- Go `strconv.Quote` -/
  quote : String → String
  /-- The result of `Token.Value()` on a `STRING` token, from its `JSON` flag and its text -/
  unquote : Bool → String → Option String
  /-- The result of `Token.Value()` on a `HEREDOC` token, from its text -/
  heredoc : String → Option String
  /-- Go `strconv.ParseInt(s, 0, 0)` -/
  parseInt : String → Option Int
  /-- Go `fmt.Sprintf` with the verb `%d` -/
  formatInt : Int → String
  /-- Go `strconv.ParseFloat(s, 64)`, as the bit pattern of the result -/
  parseFloat : String → Option Nat
  /-- Go `json.Unmarshal` into a `[]string` -/
  unmarshalStrings : String → Option (List String)
  /-- The parser `hcl.ParseBytes` -/
  parseBytes : String → Except Err File
  /-- The position `tree.Pos()` of a parsed file -/
  filePos : File → Option Pos
  /-- The printer `printer.Fprint` -/
  fprint : File → Except Err String

/-- Go `strconv.ParseBool`. -/
def parseBool (s : String) : Option Bool :=
  if s = "1" ∨ s = "t" ∨ s = "T" ∨ s = "TRUE" ∨ s = "true" ∨ s = "True" then some true
  else if s = "0" ∨ s = "f" ∨ s = "F" ∨ s = "FALSE" ∨ s = "false" ∨ s = "False" then some false
  else none

/-- Go `fmt.Sprintf` with the verb `%t`. -/
def formatBool (b : Bool) : String := if b then "true" else "false"

/-! ## Value holders (`types.go`) -/

/-- The common layout of `String`, `StringSlice`, `Int64` and `Bool`. -/
structure Holder (α : Type) where
  source : Pos
  value : α
  isset : Bool
  deriving DecidableEq, Repr

namespace Holder

variable {α : Type}

/-- The method `SetSource`. -/
def SetSource (s : Holder α) (p : Pos) : Holder α := { s with source := p }

/-- The method `Source`. -/
def Source (s : Holder α) : Pos := s.source

/-- The method `SetValue`. -/
def SetValue (s : Holder α) (v : α) : Holder α := { s with value := v, isset := true }

/-- The method `Value`. -/
def Value (s : Holder α) : α := s.value

/-- The method `IsSet`. -/
def IsSet (s : Holder α) : Bool := s.isset

/-- The zero value of a holder type. -/
def zero (z : α) : Holder α := ⟨Pos.zero, z, false⟩

end Holder

/-! ## The destination (`reflect`) -/

/-- A Go value held in a field that carries a value tag, by `reflect.Kind`; the four holder
types of `types.go` are the struct kinds that have a setter.  A pointer type is given by the
zero value of its element type.  `plainStruct` is a struct value without any setter and
without bound fields: the code never reads or writes its content. -/
inductive GoValue where
  | bool (v : Bool)
  | float64 (bits : Nat)
  | int (v : Int)
  | int64 (v : Int)
  | string (v : String)
  | strings (v : List String)
  | nilPtr (elemZero : GoValue)
  | ptr (elemZero : GoValue) (target : GoValue)
  | holderString (h : Holder String)
  | holderInt64 (h : Holder Int)
  | holderBool (h : Holder Bool)
  | holderStrings (h : Holder (List String))
  | plainStruct
  deriving DecidableEq, Repr

/-- A struct field as `reflect` shows it: its name, whether it can be set (`CanSet`, an
exported field), the values of its `hsection` and `hconf` tags (`""` when the tag is absent),
and its current value. -/
structure FieldOf (V : Type) where
  name : String
  exported : Bool
  hsection : String
  hconf : String
  val : V
  deriving DecidableEq, Repr

/-- A field of a section struct. -/
abbrev SField := FieldOf GoValue

/-- The value of a field of the destination struct: a value as above, or a struct with fields
of its own (what a section tag is put on). -/
inductive TopValue where
  | leaf (v : GoValue)
  | struct (fields : List SField)
  deriving DecidableEq, Repr

/-- A field of the destination struct. -/
abbrev TField := FieldOf TopValue

/-- The `interface{}` argument `out` / `input`: a pointer to a struct, or a value that is not
a pointer. -/
inductive Target where
  | ptrStruct (s : List TField)
  | notPtr
  deriving DecidableEq, Repr

/-- Index of the first field that satisfies `p`.  The Go code fills a map from tag to field
in the order of a map iteration; with tags unique within a struct, as the code expects, the
map holds exactly this field. -/
def bindIdx {V : Type} (p : FieldOf V → Bool) : List (FieldOf V) → Option Nat
  | [] => none
  | f :: fs => if p f then some 0 else (bindIdx p fs).map (· + 1)

/-- Value of field `i`. -/
def valAt {V : Type} : List (FieldOf V) → Nat → Option V
  | [], _ => none
  | f :: _, 0 => some f.val
  | _ :: fs, i + 1 => valAt fs i

/-- Store `v` in field `i` (`reflect.Value.Set` through the reference to the field). -/
def setVal {V : Type} : List (FieldOf V) → Nat → V → List (FieldOf V)
  | [], _, _ => []
  | f :: fs, 0, v => { f with val := v } :: fs
  | f :: fs, i + 1, v => f :: setVal fs i v

/-- The fields of a value seen as a section struct, `out.Type().NumField()` and `out.Field(i)`
in `sectionFields`: `none` when the value is not of struct kind (reflect panics).  A holder or
a plain struct has no field that can be set and carries a tag. -/
def TopValue.structFields : TopValue → Option (List SField)
  | .struct fs => some fs
  | .leaf (.holderString _) => some []
  | .leaf (.holderInt64 _) => some []
  | .leaf (.holderBool _) => some []
  | .leaf (.holderStrings _) => some []
  | .leaf .plainStruct => some []
  | .leaf _ => none

/-- Write the fields of a section struct back. -/
def TopValue.withFields : TopValue → List SField → TopValue
  | .struct _, fs => .struct fs
  | .leaf v, _ => .leaf v

/-- The map `valueFields` of `(*HC).sectionFields`: value tag to field. -/
def sectionFields (out : List SField) : String → Option Nat :=
  fun tag => if tag = "" then none else bindIdx (fun f => f.exported && f.hconf == tag) out

/-- The maps `sectionFields` and `valueFields` of `(*HC).fields`. -/
def fields (s : List TField) : (String → Option Nat) × (String → Option Nat) :=
  (fun tag => if tag = "" then none else bindIdx (fun f => f.exported && f.hsection == tag) s,
   fun tag => if tag = "" then none
     else bindIdx (fun f => f.exported && f.hsection == "" && f.hconf == tag) s)

/-! ## Decoding (`hconf.go`) -/

/-- The string that `Token.Value()` returns on a `STRING` or `HEREDOC` token, the only tokens
the repository calls it on; `none` when the call panics. -/
def Token.Value (L : Lib) (t : Token) : Option String :=
  match t.type with
  | .STRING => L.unquote t.json t.text
  | .HEREDOC => L.heredoc t.text
  | _ => none

/-- Function `getKeyAsString`. -/
def getKeyAsString (L : Lib) (objkey : ObjectKey) : Except Err String :=
  match objkey.token.type with
  | .NUMBER => .ok objkey.token.text
  | .IDENT => .ok objkey.token.text
  | .STRING | .HEREDOC =>
    match objkey.token.Value L with
    | some key => .ok key
    | none => .error .runtimePanic
  | t => .error (.posError objkey.pos (.expectedStringType t))

/-- Method `(*HC).decodeBool`; the decoded value is returned instead of stored in `result`. -/
def decodeBool (L : Lib) (name : String) (node : Node) : Except Err Bool :=
  match node with
  | .literal tok =>
    if tok.type = .BOOL ∨ tok.type = .STRING then
      match parseBool tok.text with
      | none => .error (.plain (.strconvSyntax "ParseBool" tok.text))
      | some v => .ok v
    else if tok.type = .STRING then
      match tok.Value L with
      | none => .error .runtimePanic
      | some s =>
        match parseBool s with
        | none => .error (.plain (.strconvSyntax "ParseBool" s))
        | some v => .ok v
    else .error (.posError node.pos (.unknownType name))
  | _ => .error (.posError node.pos (.unknownType name))

/-- Method `(*HC).decodeFloat`. -/
def decodeFloat (L : Lib) (name : String) (node : Node) : Except Err Nat :=
  match node with
  | .literal tok =>
    if tok.type = .FLOAT then
      match L.parseFloat tok.text with
      | none => .error (.plain (.strconvSyntax "ParseFloat" tok.text))
      | some v => .ok v
    else .error (.posError node.pos (.unknownType name))
  | _ => .error (.posError node.pos (.unknownType name))

/-- Method `(*HC).decodeInt`, up to the store into `result`. -/
def decodeInt (L : Lib) (name : String) (node : Node) : Except Err Int :=
  match node with
  | .literal tok =>
    match tok.type with
    | .NUMBER =>
      match L.parseInt tok.text with
      | none => .error (.plain (.strconvSyntax "ParseInt" tok.text))
      | some v => .ok v
    | .STRING =>
      match tok.Value L with
      | none => .error .runtimePanic
      | some s =>
        match L.parseInt s with
        | none => .error (.plain (.strconvSyntax "ParseInt" s))
        | some v => .ok v
    | _ => .error (.posError node.pos (.unknownType name))
  | _ => .error (.posError node.pos (.unknownType name))

/-- Method `(*HC).decodeString`. -/
def decodeString (L : Lib) (name : String) (node : Node) : Except Err String :=
  match node with
  | .literal tok =>
    match tok.type with
    | .NUMBER => .ok tok.text
    | .STRING | .HEREDOC =>
      match tok.Value L with
      | none => .error .runtimePanic
      | some s => .ok s
    | _ => .error (.posError node.pos (.unknownTypeForString name))
  | _ => .error (.posError node.pos (.unknownTypeForString name))

/-- The loop of `(*HC).decodeStringSlice` over the entries of the list, from index `i` on;
`pos` is the position of the list node. -/
def decodeEntries (L : Lib) (name : String) (pos : Pos) : Nat → List Node → Except Err (List String)
  | _, [] => .ok []
  | i, .literal lit :: rest =>
    match lit.type with
    | .STRING | .HEREDOC =>
      match lit.Value L with
      | none => .error .runtimePanic
      | some s =>
        match decodeEntries L name pos (i + 1) rest with
        | .error e => .error e
        | .ok rv => .ok (s :: rv)
    | _ => .error (.posError pos (.unknownEntryType name i))
  | i, _ :: _ => .error (.posError pos (.unknownEntry name i))

/-- Method `(*HC).decodeStringSlice`. -/
def decodeStringSlice (L : Lib) (name : String) (node : Node) : Except Err (List String) :=
  match node with
  | .list _ elems => decodeEntries L name node.pos 0 elems
  | _ => .error (.posError node.pos (.unknownTypeForStringSlice name))

/-- Method `(*HC).decodeInto`, with `(*HC).decodePtr` as its pointer case: the new value of the
field, or the error; on an error the field is not written.  Storing the `int64` that
`decodeInt` produces into a field of kind `Int` makes `reflect.Value.Set` panic. -/
def decodeInto (L : Lib) (name : String) (node : Node) : GoValue → Except Err GoValue
  | .bool _ =>
    match decodeBool L name node with
    | .error e => .error e
    | .ok v => .ok (.bool v)
  | .float64 _ =>
    match decodeFloat L name node with
    | .error e => .error e
    | .ok v => .ok (.float64 v)
  | .int _ =>
    match decodeInt L name node with
    | .error e => .error e
    | .ok _ => .error .runtimePanic
  | .nilPtr elemZero =>
    match decodeInto L name node elemZero with
    | .error e => .error e
    | .ok val => .ok (.ptr elemZero val)
  | .ptr elemZero _ =>
    match decodeInto L name node elemZero with
    | .error e => .error e
    | .ok val => .ok (.ptr elemZero val)
  | .string _ =>
    match decodeString L name node with
    | .error e => .error e
    | .ok v => .ok (.string v)
  | .holderString ss =>
    match decodeString L name node with
    | .error e => .error e
    | .ok v => .ok (.holderString ((ss.SetValue v).SetSource node.pos))
  | .holderInt64 is =>
    match decodeInt L name node with
    | .error e => .error e
    | .ok i => .ok (.holderInt64 ((is.SetValue i).SetSource node.pos))
  | .holderBool bs =>
    match decodeBool L name node with
    | .error e => .error e
    | .ok b => .ok (.holderBool ((bs.SetValue b).SetSource node.pos))
  | .holderStrings bs =>
    match decodeStringSlice L name node with
    | .error e => .error e
    | .ok out => .ok (.holderStrings ((bs.SetValue out).SetSource node.pos))
  | .plainStruct => .ok .plainStruct
  | .int64 _ => .error (.posError node.pos (.unknownKind name "int64"))
  | .strings _ => .error (.posError node.pos (.unknownKind name "slice"))

/-- Method `(*HC).decodePtr`: decode into a new element, then point to it. -/
def decodePtr (L : Lib) (name : String) (node : Node) (elemZero : GoValue) : Except Err GoValue :=
  match decodeInto L name node elemZero with
  | .error e => .error e
  | .ok val => .ok (.ptr elemZero val)

/-- One round of the loop of `(*HC).handleSection`, for the item `item` of the section block:
`out` are the fields of the section struct, `valueFields` the map built before the loop. -/
def sectionItem (L : Lib) (sectionName : String) (valueFields : String → Option Nat)
    (out : List SField) (item : ObjectItem) : List SField × Option Err :=
  match item.keys with
  | [k] =>
    match getKeyAsString L k with
    | .error e => (out, some e)
    | .ok key =>
      match valueFields key with
      | none => (out, some (.posError k.pos (.unknownSectionKey sectionName key)))
      | some i =>
        match valAt out i with
        | none => (out, some .runtimePanic)
        | some v =>
          match decodeInto L key item.val v with
          | .error e => (out, some e)
          | .ok v' => (setVal out i v', none)
  | _ => (out, some (.posError item.pos (.expectedFlatKeys sectionName)))

/-- The loop of `(*HC).handleSection` over the items of the section block; it ends at the
first error. -/
def sectionItems (L : Lib) (sectionName : String) (valueFields : String → Option Nat) :
    List SField → List ObjectItem → List SField × Option Err
  | out, [] => (out, none)
  | out, item :: rest =>
    match sectionItem L sectionName valueFields out item with
    | (out', none) => sectionItems L sectionName valueFields out' rest
    | (out', some e) => (out', some e)

/-- Method `(*HC).handleSection`: `out` is the field that the section tag binds, `node` the
section item.  `node.Keys[1]` and the type assertion `node.Val.(*ast.ObjectType)` panic when
the item has fewer than two labels or its value is not a block. -/
def handleSection (L : Lib) (out : TopValue) (node : ObjectItem) : TopValue × Option Err :=
  match node.keys with
  | _ :: k1 :: _ =>
    match getKeyAsString L k1 with
    | .error e => (out, some e)
    | .ok sectionName =>
      match out.structFields with
      | none => (out, some .runtimePanic)
      | some fs =>
        match node.val with
        | .object _ items =>
          let r := sectionItems L sectionName (sectionFields fs) fs items
          (out.withFields r.1, r.2)
        | _ => (out, some .runtimePanic)
  | _ => (out, some .runtimePanic)

/-- Method `(*HC).handleWhen`: nothing is done with the block. -/
def handleWhen (out : List TField) (_node : ObjectItem) : List TField × Option Err :=
  (out, none)

/-- One round of the loop of `(*HC).decode`, for the item `item` of the root, with the two
maps that `(*HC).fields` built before the loop. -/
def decodeItem (L : Lib) (sectionFields valueFields : String → Option Nat)
    (out : List TField) (item : ObjectItem) : List TField × Option Err :=
  match item.keys with
  | [k] =>
    match valueFields k.token.text with
    | none => (out, some (.posError k.pos (.unknownKey k.token.text)))
    | some i =>
      match valAt out i with
      | some (.leaf v) =>
        match decodeInto L k.token.text item.val v with
        | .error e => (out, some e)
        | .ok v' => (setVal out i (.leaf v'), none)
      | some (.struct _) => (out, none)
      | none => (out, some .runtimePanic)
  | [k0, k1] =>
    if k0.token.text = "section" then
      match getKeyAsString L k1 with
      | .error e => (out, some e)
      | .ok key =>
        match sectionFields key with
        | none => (out, some (.posError k1.pos (.unknownSection key)))
        | some i =>
          match valAt out i with
          | none => (out, some .runtimePanic)
          | some sectionValue =>
            let r := handleSection L sectionValue item
            (setVal out i r.1, r.2)
    else if k0.token.text = "when" then handleWhen out item
    else (out, some (.posError item.pos (.unknownSectionType k0.token.text)))
  | _ => (out, some (.posError item.pos .expectedSectionWhenOrKey))

/-- The loop of `(*HC).decode` over the items of the root; it ends at the first error. -/
def decodeItems (L : Lib) (sectionFields valueFields : String → Option Nat) :
    List TField → List ObjectItem → List TField × Option Err
  | out, [] => (out, none)
  | out, item :: rest =>
    match decodeItem L sectionFields valueFields out item with
    | (out', none) => decodeItems L sectionFields valueFields out' rest
    | (out', some e) => (out', some e)

/-- Method `(*HC).decode`. -/
def decode (L : Lib) (out : Target) (_filename : String) (data : String) : Target × Option Err :=
  match L.parseBytes data with
  | .error e => (out, some e)
  | .ok tree =>
    match out with
    | .notPtr => (out, some (.plain .outMustBePointer))
    | .ptrStruct s =>
      match tree.node with
      | .objectList items =>
        let r := decodeItems L (fields s).1 (fields s).2 s items
        (.ptrStruct r.1, r.2)
      | .other _ =>
        match L.filePos tree with
        | none => (out, some .runtimePanic)
        | some pos => (out, some (.posError pos .missingRootObjects))

/-- The filename patch of `Decode` and `EditAndSave`: a `*parser.PosError` without a filename
gets `filename`. -/
def fillFilename (filename : String) : Err → Err
  | .posError pos err =>
    if pos.filename = "" then .posError { pos with filename := filename } err
    else .posError pos err
  | e => e

/-- Method `(*HC).Decode`. -/
def Decode (L : Lib) (out : Target) (filename : String) (data : String) : Target × Option Err :=
  match decode L out filename data with
  | (out', some err) => (out', some (fillFilename filename err))
  | (out', none) => (out', none)

/-! ## The accessors `Set` and `Get` (`hconf.go`) -/

/-- A dynamic value passed as `value interface{}`, by its dynamic type. -/
inductive Dyn where
  | string (v : String)
  | int32 (v : Int)
  | int64 (v : Int)
  | bool (v : Bool)
  | strings (v : List String)
  | other (typeName : String)
  deriving DecidableEq, Repr

/-- The type switch of `(*HC).Set` on `value`, applied to the field `vif` that the key binds:
the new value of the field, or the error. -/
def setValue (L : Lib) (sect key : String) (value : Dyn) (vif : GoValue) : Except Err GoValue :=
  match value with
  | .string v =>
    match vif with
    | .holderString ss => .ok (.holderString (ss.SetValue v))
    | .holderBool bs =>
      if v = "true" then .ok (.holderBool (bs.SetValue true))
      else if v = "false" then .ok (.holderBool (bs.SetValue false))
      else .error (.plain (.setBoolFromString key sect v))
    | .holderStrings bs =>
      match L.unmarshalStrings v with
      | none => .error (.plain (.mustBeListOfStrings sect key))
      | some x => .ok (.holderStrings (bs.SetValue x))
    | _ => .error (.plain (.failedToSetFromString key sect))
  | .int32 v =>
    match vif with
    | .holderInt64 is => .ok (.holderInt64 (is.SetValue v))
    | _ => .error (.plain (.notKnownType key sect))
  | .int64 v =>
    match vif with
    | .holderInt64 is => .ok (.holderInt64 (is.SetValue v))
    | _ => .error (.plain (.notKnownType key sect))
  | .bool v =>
    match vif with
    | .holderBool bs => .ok (.holderBool (bs.SetValue v))
    | _ => .error (.plain (.notKnownType key sect))
  | .strings v =>
    match vif with
    | .holderStrings bs => .ok (.holderStrings (bs.SetValue v))
    | _ => .error (.plain (.notKnownType key sect))
  | .other _ => .error (.plain (.notKnownType key sect))

/-- Method `(*HC).Set`; `sect` is the Go parameter `section`. -/
def Set (L : Lib) (input : Target) (sect key : String) (value : Dyn) : Target × Option Err :=
  match input with
  | .notPtr => (input, some (.plain .outMustBePointer))
  | .ptrStruct s =>
    match (fields s).1 sect with
    | none => (input, some (.plain (.setUnknownSection sect)))
    | some i =>
      match valAt s i with
      | none => (input, some .runtimePanic)
      | some sectionValue =>
        match sectionValue.structFields with
        | none => (input, some .runtimePanic)
        | some fs =>
          match sectionFields fs key with
          | none => (input, some (.plain (.setUnknownKey key sect)))
          | some j =>
            match valAt fs j with
            | none => (input, some .runtimePanic)
            | some v =>
              match setValue L sect key value v with
              | .error e => (input, some e)
              | .ok v' => (.ptrStruct (setVal s i (sectionValue.withFields (setVal fs j v'))), none)

/-- The reference `v.Addr().Interface()` that `Get` returns: the field of the destination that
the section tag binds and, in it, the field that the key binds. -/
structure Ref where
  sectionField : Nat
  valueField : Nat
  deriving DecidableEq, Repr

/-- The method `Source` of a value that has it (`sourceGetter`). -/
def GoValue.Source : GoValue → Option Pos
  | .holderString h => some h.Source
  | .holderInt64 h => some h.Source
  | .holderBool h => some h.Source
  | .holderStrings h => some h.Source
  | _ => none

/-- Method `(*HC).Get`: the reference, the value it points to, and the position. -/
def Get (input : Target) (sect key : String) : Except Err (Ref × GoValue × Pos) :=
  match input with
  | .notPtr => .error (.plain .outMustBePointer)
  | .ptrStruct s =>
    match (fields s).1 sect with
    | none => .error (.plain (.setUnknownSection sect))
    | some i =>
      match valAt s i with
      | none => .error .runtimePanic
      | some sectionValue =>
        match sectionValue.structFields with
        | none => .error .runtimePanic
        | some fs =>
          match sectionFields fs key with
          | none => .error (.plain (.setUnknownKey key sect))
          | some j =>
            match valAt fs j with
            | none => .error .runtimePanic
            | some vif =>
              match vif.Source with
              | some pos => .ok (⟨i, j⟩, vif, pos)
              | none => .ok (⟨i, j⟩, vif, Pos.zero)

/-! ## The editor (`edit.go`) -/

/-- The node `setNode` that `editAndSave` builds from `value`; `none` in the default case of
the type switch. -/
def buildSetNode (L : Lib) (value : Dyn) : Option Node :=
  match value with
  | .string v => some (.literal ⟨.STRING, Pos.zero, L.quote v, false⟩)
  | .int32 v => some (.literal ⟨.NUMBER, Pos.zero, L.formatInt v, false⟩)
  | .int64 v => some (.literal ⟨.NUMBER, Pos.zero, L.formatInt v, false⟩)
  | .bool v => some (.literal ⟨.BOOL, Pos.zero, formatBool v, false⟩)
  | .strings v =>
    some (.list Pos.zero (v.map fun ent => .literal ⟨.STRING, Pos.zero, L.quote ent, false⟩))
  | .other _ => none

/-- The item `setObjItem` of `editAndSave`: `key = setNode`. -/
def buildSetObjItem (key : String) (setNode : Node) : ObjectItem :=
  { keys := [⟨⟨.IDENT, Pos.zero, key, false⟩⟩],
    assign := { Pos.zero with line := 1 },
    val := setNode }

/-- The item `setSection` of `editAndSave`: a section block named `sect` that holds
`setObjItem`. -/
def buildSetSection (L : Lib) (sect : String) (setObjItem : ObjectItem) : ObjectItem :=
  { keys := [⟨⟨.IDENT, Pos.zero, "section", false⟩⟩, ⟨⟨.STRING, Pos.zero, L.quote sect, false⟩⟩],
    assign := Pos.zero,
    val := .object Pos.zero [setObjItem] }

/-- The inner loop of `editAndSave` over the items of one section block: the items afterwards
and `keyFound`. -/
def editItems (L : Lib) (sectionName key : String) (setNode : Node) :
    List ObjectItem → Except Err (List ObjectItem × Bool)
  | [] => .ok ([], false)
  | item :: rest =>
    match item.keys with
    | [k] =>
      match getKeyAsString L k with
      | .error e => .error e
      | .ok keyName =>
        if keyName = key then .ok ({ item with val := setNode } :: rest, true)
        else
          match editItems L sectionName key setNode rest with
          | .error e => .error e
          | .ok (rest', keyFound) => .ok (item :: rest', keyFound)
    | _ => .error (.posError item.pos (.expectedFlatKeys sectionName))

/-- One round of the outer loop of `editAndSave` for an item the loop leaves as it is. -/
def keepItem (item : ObjectItem) (r : Except Err (List ObjectItem × Bool)) :
    Except Err (List ObjectItem × Bool) :=
  match r with
  | .error e => .error e
  | .ok (rest', sectionFound) => .ok (item :: rest', sectionFound)

/-- The outer loop of `editAndSave` over the items of the root: the items afterwards and
`sectionFound`. -/
def editSections (L : Lib) (sect key : String) (setNode : Node) (setObjItem : ObjectItem) :
    List ObjectItem → Except Err (List ObjectItem × Bool)
  | [] => .ok ([], false)
  | item :: rest =>
    match item.keys with
    | [k0, k1] =>
      if k0.token.text = "section" then
        match getKeyAsString L k1 with
        | .error e => .error e
        | .ok sectionName =>
          if sectionName ≠ sect then
            keepItem item (editSections L sect key setNode setObjItem rest)
          else
            match item.val with
            | .object lbrace items =>
              match editItems L sectionName key setNode items with
              | .error e => .error e
              | .ok (items', keyFound) =>
                match editSections L sect key setNode setObjItem rest with
                | .error e => .error e
                | .ok (rest', _) =>
                  .ok ({ item with
                          val := .object lbrace (if keyFound then items' else items' ++ [setObjItem]) }
                        :: rest', true)
            | _ => .error .runtimePanic
      else keepItem item (editSections L sect key setNode setObjItem rest)
    | _ => keepItem item (editSections L sect key setNode setObjItem rest)

/-- The edit of the tree in `editAndSave`, from the type switch on `value` to `root.Add`:
the items of the root afterwards.  `treePos` is `tree.Pos()`. -/
def editTree (L : Lib) (treePos : Option Pos) (root : List ObjectItem) (sect key : String)
    (value : Dyn) : Except Err (List ObjectItem) :=
  match buildSetNode L value with
  | none =>
    match treePos with
    | none => .error .runtimePanic
    | some pos => .error (.posError pos (.invalidSet key sect))
  | some setNode =>
    match editSections L sect key setNode (buildSetObjItem key setNode) root with
    | .error e => .error e
    | .ok (root', sectionFound) =>
      if sectionFound then .ok root'
      else .ok (root' ++ [buildSetSection L sect (buildSetObjItem key setNode)])

/-- What `ioutil.ReadFile` returned: the content, an error for which `os.IsNotExist` holds, or
another error. -/
inductive ReadResult where
  | data (bytes : String)
  | notExist
  | failed (err : Msg)
  deriving DecidableEq, Repr

/-- Method `(*HC).editAndSave`, given what reading `filename` returned: the bytes handed to
`ioutil.WriteFile`, or the error returned before the write. -/
def editAndSave (L : Lib) (read : ReadResult) (sect key : String) (value : Dyn) :
    Except Err String :=
  match read with
  | .failed err => .error (.plain err)
  | _ =>
    match L.parseBytes (match read with | .data bytes => bytes | _ => "") with
    | .error e => .error e
    | .ok tree =>
      match tree.node with
      | .other _ =>
        match L.filePos tree with
        | none => .error .runtimePanic
        | some pos => .error (.posError pos .missingRootObjects)
      | .objectList root =>
        match editTree L (L.filePos tree) root sect key value with
        | .error e => .error e
        | .ok root' => L.fprint ⟨.objectList root'⟩

/-- Method `(*HC).EditAndSave`. -/
def EditAndSave (L : Lib) (filename : String) (read : ReadResult) (sect key : String)
    (value : Dyn) : Except Err String :=
  match editAndSave L read sect key value with
  | .error err => .error (fillFilename filename err)
  | .ok bytes => .ok bytes

/-! ## Predicates (`predicate.go`) -/

/-- The struct `Config`; it has no field. -/
inductive Config where
  | mk
  deriving DecidableEq, Repr

/-- The struct `HC`: its field `c` is a pointer to a `Config`, `none` when nil. -/
structure HC where
  c : Option Config
  deriving DecidableEq, Repr

/-- The type `hcpredicate`, `func(*HC) bool`; no predicate of the repository reads what its
argument points to. -/
abbrev hcpredicate := HC → Bool

/-- A value passed as the mapper `m interface{}` of a comparison, by its dynamic type: one of
the function types `toInt`, `toFloat64` and `toString`, or a value of another type, given by
the name that `%T` prints.  A `float64` is given by its bit pattern. -/
inductive Mapper where
  | toInt (f : HC → Int)
  | toFloat64 (f : HC → Nat)
  | toString (f : HC → String)
  | other (typeName : String)

/-- A value passed as the constant `value interface{}` of a comparison, by its dynamic type. -/
inductive Const where
  | int (v : Int)
  | float64 (bits : Nat)
  | string (v : String)
  | other (typeName : String)
  deriving DecidableEq, Repr

/-- What `%T` prints for a constant. -/
def Const.typeName : Const → String
  | .int _ => "int"
  | .float64 _ => "float64"
  | .string _ => "string"
  | .other typeName => typeName

/-- The errors that `eq` and `neq` return, one constructor for each format string, with the
type name that is formatted into it. -/
inductive PredErr where
  | eqUnsupported (typeName : String)
  | expectedInt (typeName : String)
  | expectedFloat64 (typeName : String)
  | expectedString (typeName : String)
  deriving DecidableEq, Repr

/-- The bit pattern is a NaN: exponent all ones, mantissa not zero. -/
def float64IsNaN (bits : Nat) : Bool :=
  (bits / 2 ^ 52) % 2 ^ 11 == 2047 && bits % 2 ^ 52 != 0

/-- Go `==` on two `float64` values given by their bit patterns: a NaN equals nothing, the two
zeros are equal, any other two values are equal when their bits are. -/
def float64Equal (a b : Nat) : Bool :=
  !float64IsNaN a && !float64IsNaN b && (a == b || (a % 2 ^ 63 == 0 && b % 2 ^ 63 == 0))

/-- Function `not`. -/
def not (p : hcpredicate) : hcpredicate :=
  fun c => !p c

/-- Function `intEQ`. -/
def intEQ (m : HC → Int) (val : Const) : Except PredErr hcpredicate :=
  match val with
  | .int value => .ok fun c => m c == value
  | v => .error (.expectedInt v.typeName)

/-- Function `float64EQ`. -/
def float64EQ (m : HC → Nat) (val : Const) : Except PredErr hcpredicate :=
  match val with
  | .float64 value => .ok fun c => float64Equal (m c) value
  | v => .error (.expectedFloat64 v.typeName)

/-- Function `stringEQ`. -/
def stringEQ (m : HC → String) (val : Const) : Except PredErr hcpredicate :=
  match val with
  | .string value => .ok fun c => m c == value
  | v => .error (.expectedString v.typeName)

/-- Function `eq`. -/
def eq (m : Mapper) (value : Const) : Except PredErr hcpredicate :=
  match m with
  | .toInt mapper => intEQ mapper value
  | .toFloat64 mapper => float64EQ mapper value
  | .toString mapper => stringEQ mapper value
  | .other typeName => .error (.eqUnsupported typeName)

/-- Function `neq`. -/
def neq (m : Mapper) (value : Const) : Except PredErr hcpredicate :=
  match eq m value with
  | .error err => .error err
  | .ok p => .ok (not p)

/-- Function `localExec`, registered as `local_Exec`: the mapper that returns `x`. -/
def localExec (x : String) : HC → String :=
  fun _ => x

/-! ## Reading a document and a destination -/

/-- The item is a section block that the decoder and the editor read as the section `sect`:
two labels, the first with the text `section`, the second a key that is `sect`. -/
def sectionNamed (L : Lib) (sect : String) (item : ObjectItem) : Bool :=
  match item.keys with
  | [k0, k1] =>
    k0.token.text == "section" &&
      (match getKeyAsString L k1 with
       | .ok sectionName => sectionName == sect
       | .error _ => false)
  | _ => false

/-- The item has one label, and that label read by `getKeyAsString` is `key`. -/
def keyNamed (L : Lib) (key : String) (item : ObjectItem) : Bool :=
  match item.keys with
  | [k] =>
    (match getKeyAsString L k with
     | .ok keyName => keyName == key
     | .error _ => false)
  | _ => false

/-- The items of the block of an item; none when its value is not a block. -/
def nestedItems (item : ObjectItem) : List ObjectItem :=
  match item.val with
  | .object _ items => items
  | _ => []

/-- The value node of the last item labelled `key` in a list of section items. -/
def lastNodeIn (L : Lib) (key : String) : List ObjectItem → Option Node
  | [] => none
  | item :: rest =>
    match lastNodeIn L key rest with
    | some n => some n
    | none => if keyNamed L key item then some item.val else none

/-- The value node of the last item labelled `key` in the sections named `sect` of a document,
in document order; `none` when the pair `sect`/`key` does not occur in the document. -/
def lastNode (L : Lib) (sect key : String) : List ObjectItem → Option Node
  | [] => none
  | item :: rest =>
    match lastNode L sect key rest with
    | some n => some n
    | none => if sectionNamed L sect item then lastNodeIn L key (nestedItems item) else none

/-- The pair `sect`/`key` occurs in the document: some section block named `sect` has an item
labelled `key`. -/
def occurs (L : Lib) (sect key : String) (root : List ObjectItem) : Bool :=
  root.any fun item => sectionNamed L sect item && (nestedItems item).any (keyNamed L key)

/-- The value of the field bound to `sect`/`key`, resolved as `Get` resolves it. -/
def fieldAt (s : List TField) (sect key : String) : Option GoValue :=
  match Get (.ptrStruct s) sect key with
  | .ok r => some r.2.1
  | .error _ => none

/-- The method `IsSet` of a holder. -/
def GoValue.IsSet : GoValue → Option Bool
  | .holderString h => some h.IsSet
  | .holderInt64 h => some h.IsSet
  | .holderBool h => some h.IsSet
  | .holderStrings h => some h.IsSet
  | _ => none

/-- The value is one of the four holders of `types.go`. -/
def GoValue.isHolder (v : GoValue) : Bool := v.IsSet.isSome

/-- The zero value of the Go type of a value. -/
def GoValue.zeroOf : GoValue → GoValue
  | .bool _ => .bool false
  | .float64 _ => .float64 0
  | .int _ => .int 0
  | .int64 _ => .int64 0
  | .string _ => .string ""
  | .strings _ => .strings []
  | .nilPtr elemZero => .nilPtr elemZero
  | .ptr elemZero _ => .nilPtr elemZero
  | .holderString _ => .holderString (Holder.zero "")
  | .holderInt64 _ => .holderInt64 (Holder.zero 0)
  | .holderBool _ => .holderBool (Holder.zero false)
  | .holderStrings _ => .holderStrings (Holder.zero [])
  | .plainStruct => .plainStruct

/-- The zero value of the type of a field of the destination. -/
def TopValue.zeroOf : TopValue → TopValue
  | .leaf v => .leaf v.zeroOf
  | .struct fs => .struct (fs.map fun f => { f with val := f.val.zeroOf })

/-- The destination as Go allocates it (`&myConf{}`): every field holds the zero value of its
type. -/
def zeroStruct (s : List TField) : List TField :=
  s.map fun f => { f with val := f.val.zeroOf }

/-- The value of the field of the destination itself that the value tag `key` binds. -/
def topFieldAt (s : List TField) (key : String) : Option GoValue :=
  match (fields s).2 key with
  | none => none
  | some i =>
    match valAt s i with
    | some (.leaf v) => some v
    | _ => none

/-- The item is a top-level key whose label has the token text `key`. -/
def topKeyNamed (key : String) (item : ObjectItem) : Bool :=
  match item.keys with
  | [k] => k.token.text == key
  | _ => false

/-- The value node of the last top-level key `key` of a document. -/
def lastTopNode (key : String) : List ObjectItem → Option Node
  | [] => none
  | item :: rest =>
    match lastTopNode key rest with
    | some n => some n
    | none => if topKeyNamed key item then some item.val else none

/-! ## Reading the claims on the editor and on `Set` -/

/-- The holder type that takes a value of the dynamic type of `value` as it is: `String` for a
string, `Int64` for an `int32` or `int64`, `Bool` for a bool, `StringSlice` for a `[]string`. -/
def Dyn.fits (value : Dyn) (v : GoValue) : Bool :=
  match value, v with
  | .string _, .holderString _ => true
  | .int32 _, .holderInt64 _ => true
  | .int64 _, .holderInt64 _ => true
  | .bool _, .holderBool _ => true
  | .strings _, .holderStrings _ => true
  | _, _ => false

/-- The holder `v` is set and its `Value()` is the value `value` (an `int32` widened). -/
def Dyn.storedIn (value : Dyn) (v : GoValue) : Bool :=
  match value, v with
  | .string x, .holderString h => h.IsSet && h.Value == x
  | .int32 x, .holderInt64 h => h.IsSet && h.Value == x
  | .int64 x, .holderInt64 h => h.IsSet && h.Value == x
  | .bool x, .holderBool h => h.IsSet && h.Value == x
  | .strings x, .holderStrings h => h.IsSet && h.Value == x
  | _, _ => false

/-- The library reads back what it wrote for `value`: `Token.Value()` unquotes what
`strconv.Quote` quoted, `strconv.ParseInt` parses what `%d` printed. -/
def Lib.readsBack (L : Lib) (value : Dyn) : Prop :=
  match value with
  | .string v => L.unquote false (L.quote v) = some v
  | .int32 v => L.parseInt (L.formatInt v) = some v
  | .int64 v => L.parseInt (L.formatInt v) = some v
  | .bool _ => True
  | .strings v => ∀ ent ∈ v, L.unquote false (L.quote ent) = some ent
  | .other _ => True

/-- The number of items labelled `key` in the block of an item. -/
def keyCount (L : Lib) (key : String) (item : ObjectItem) : Nat :=
  ((nestedItems item).filter (keyNamed L key)).length

/-- The block of a section after an edit, in the words of the spec: the value of the first
item labelled `key` replaced by `setNode`, the item keeping its labels and its place; when no
item is labelled `key`, the item `setObjItem` appended at the end. -/
def replaceOrAppend (L : Lib) (key : String) (setNode : Node) (setObjItem : ObjectItem) :
    List ObjectItem → List ObjectItem
  | [] => [setObjItem]
  | item :: rest =>
    if keyNamed L key item then { item with val := setNode } :: rest
    else item :: replaceOrAppend L key setNode setObjItem rest

/-- The items of the root after an edit that found a section named `sect`: the block of every
section named `sect` is edited by `replaceOrAppend`, every other item is kept. -/
def editEvery (L : Lib) (sect key : String) (setNode : Node) (setObjItem : ObjectItem)
    (root : List ObjectItem) : List ObjectItem :=
  root.map fun item =>
    if sectionNamed L sect item then
      match item.val with
      | .object lbrace items =>
        { item with val := .object lbrace (replaceOrAppend L key setNode setObjItem items) }
      | _ => item
    else item

/-- The cases in which the claim on `Set` lets the call succeed, for a value and the field
that the key binds: a string on a `String` holder; a string that is exactly `true` or `false`
on a `Bool` holder; a string that `json.Unmarshal` reads as a list of strings on a
`StringSlice` holder; an `int32` or `int64` on an `Int64` holder; a bool on a `Bool` holder;
a `[]string` on a `StringSlice` holder. -/
def Dyn.accepted (L : Lib) (value : Dyn) (v : GoValue) : Bool :=
  match value, v with
  | .string _, .holderString _ => true
  | .string x, .holderBool _ => x == "true" || x == "false"
  | .string x, .holderStrings _ => (L.unmarshalStrings x).isSome
  | .int32 _, .holderInt64 _ => true
  | .int64 _, .holderInt64 _ => true
  | .bool _, .holderBool _ => true
  | .strings _, .holderStrings _ => true
  | _, _ => false

/-- The item is a top-level `when` block: two labels, the first one written `when`. -/
def isWhen (item : ObjectItem) : Bool :=
  match item.keys with
  | [k0, _] => k0.token.text == "when"
  | _ => false

/-- The document with all top-level `when` items removed. -/
def withoutWhen (root : List ObjectItem) : List ObjectItem :=
  root.filter fun item => !isWhen item

/-- The source position that `Get` returns for `sect`/`key`; `none` when `Get` fails. -/
def sourceAt (s : List TField) (sect key : String) : Option Pos :=
  match Get (.ptrStruct s) sect key with
  | .ok r => some r.2.2
  | .error _ => none

/-! ## A library instance and the data of `hconf_test.go`, for evaluation -/

/-- Escape the characters of a string the way `strconv.Quote` does for printable ASCII: a
backslash before `"` and before `\`. -/
def demoEscape : List Char → List Char
  | [] => []
  | c :: cs =>
    if c = Char.ofNat 34 ∨ c = Char.ofNat 92 then Char.ofNat 92 :: c :: demoEscape cs
    else c :: demoEscape cs

/-- Quote a string of printable ASCII as `strconv.Quote` does. -/
def demoQuote (s : String) : String :=
  String.mk (Char.ofNat 34 :: (demoEscape s.data ++ [Char.ofNat 34]))

/-- Read the characters after the opening quote up to the closing quote, undoing the two
escapes of `demoEscape`. -/
def demoUnescape : List Char → Option (List Char)
  | [] => none
  | [c] => if c = Char.ofNat 34 then some [] else none
  | c :: d :: cs =>
    if c = Char.ofNat 92 then
      if d = Char.ofNat 34 ∨ d = Char.ofNat 92 then (demoUnescape cs).map (d :: ·) else none
    else if c = Char.ofNat 34 then none
    else (demoUnescape (d :: cs)).map (c :: ·)

/-- Unquote a double-quoted string of printable ASCII without `$`, as `Token.Value()` does. -/
def demoUnquote (s : String) : Option String :=
  match s.data with
  | c :: cs => if c = Char.ofNat 34 then (demoUnescape cs).map String.mk else none
  | [] => some ""

/-- The number written by a list of decimal digits, after the digits read so far. -/
def demoDigits : List Char → Nat → Option Nat
  | [], acc => some acc
  | c :: cs, acc => if c.isDigit then demoDigits cs (acc * 10 + (c.toNat - 48)) else none

/-- Parse a decimal integer without leading zero that fits 64 bits, as `strconv.ParseInt`
with base 0 does. -/
def demoParseInt (s : String) : Option Int :=
  let inRange (i : Int) : Option Int :=
    if -9223372036854775808 ≤ i ∧ i ≤ 9223372036854775807 then some i else none
  match s.data with
  | [] => none
  | [c] => (demoDigits [c] 0).map Int.ofNat
  | c :: d :: cs =>
    if c = Char.ofNat 45 then
      if d = Char.ofNat 48 then none
      else (demoDigits (d :: cs) 0).bind fun n => inRange (-(Int.ofNat n))
    else if c = Char.ofNat 48 then none
    else (demoDigits (c :: d :: cs) 0).bind fun n => inRange (Int.ofNat n)

/-- A library instance for evaluating the definitions on concrete data: quoting and integers
as above, the parser given by a table from file content to parsed tree; floats, heredocs,
JSON and the printer are not provided. -/
def demoLib (docs : List (String × List ObjectItem)) : Lib where
  quote := demoQuote
  unquote := fun _ text => demoUnquote text
  heredoc := fun _ => none
  parseInt := demoParseInt
  formatInt := fun i => toString i
  parseFloat := fun _ => none
  unmarshalStrings := fun _ => none
  parseBytes := fun data =>
    match docs.lookup data with
    | some root => .ok ⟨.objectList root⟩
    | none => .error (.plain (.library "parse"))
  filePos := fun tree =>
    match tree.node with
    | .objectList (item :: _) => some item.pos
    | .objectList [] => none
    | .other n => some n.pos
  fprint := fun _ => .error (.plain (.library "print"))

/-- A token at a position of an unnamed file. -/
def tokenAt (type : TokenType) (offset line column : Nat) (text : String) : Token :=
  ⟨type, ⟨"", offset, line, column⟩, text, false⟩

/-- The item `key = val` with its label at a position. -/
def keyItem (offset line column : Nat) (key : String) (assignColumn : Nat) (val : Node) :
    ObjectItem :=
  { keys := [⟨tokenAt .IDENT offset line column key⟩],
    assign := ⟨"", offset + (assignColumn - column), line, assignColumn⟩,
    val := val }

/-- The struct `foo` of `hconf_test.go`, zero-initialised. -/
def fooZero : List SField :=
  [⟨"Screensize", true, "", "screensize", .holderString (Holder.zero "")⟩,
   ⟨"LikesCats", true, "", "likes_cats", .holderBool (Holder.zero false)⟩,
   ⟨"LikesDogs", true, "", "likes_dogs", .holderBool (Holder.zero false)⟩,
   ⟨"Friends", true, "", "friends", .holderStrings (Holder.zero [])⟩]

/-- The struct `&myConf{}` of `hconf_test.go`. -/
def myConf : List TField :=
  [⟨"Version", true, "", "version", .leaf (.string "")⟩,
   ⟨"Foo", true, "foo", "", .struct fooZero⟩,
   ⟨"Bar", true, "bar", "", .struct fooZero⟩]

/-- The text `conf` of `hconf_test.go`. -/
def confText : String :=
  "\nsection \"foo\" \x7b\n    screensize = \"hello world\"\n\tlikes_cats = true\n\tlikes_dogs = false\n\tfriends = [\"alice\", \"bob\"]\n\x7d\n"

/-- The section block of `conf`. -/
def confFoo : ObjectItem :=
  { keys := [⟨tokenAt .IDENT 1 2 1 "section"⟩, ⟨tokenAt .STRING 9 2 9 "\"foo\""⟩],
    assign := Pos.zero,
    val := .object ⟨"", 15, 2, 15⟩
      [keyItem 21 3 5 "screensize" 16 (.literal (tokenAt .STRING 34 3 18 "\"hello world\"")),
       keyItem 49 4 2 "likes_cats" 13 (.literal (tokenAt .BOOL 62 4 15 "true")),
       keyItem 68 5 2 "likes_dogs" 13 (.literal (tokenAt .BOOL 81 5 15 "false")),
       keyItem 88 6 2 "friends" 10 (.list ⟨"", 98, 6, 12⟩
         [.literal (tokenAt .STRING 99 6 13 "\"alice\""),
          .literal (tokenAt .STRING 108 6 22 "\"bob\"")])] }

/-- The tree of `conf`. -/
def conf : List ObjectItem := [confFoo]

/-- The text `conf2` of `hconf_test.go`. -/
def conf2Text : String :=
  "\nsection \"foo\" \x7b\n\tlikes_cats = true\n\x7d\n"

/-- The tree of `conf2`. -/
def conf2 : List ObjectItem :=
  [{ keys := [⟨tokenAt .IDENT 1 2 1 "section"⟩, ⟨tokenAt .STRING 9 2 9 "\"foo\""⟩],
     assign := Pos.zero,
     val := .object ⟨"", 15, 2, 15⟩
       [keyItem 18 3 2 "likes_cats" 13 (.literal (tokenAt .BOOL 31 3 15 "true"))] }]

/-- A document whose section `foo` assigns `screensize` twice. -/
def dupKeyDoc : List ObjectItem :=
  [{ keys := [⟨tokenAt .IDENT 0 1 1 "section"⟩, ⟨tokenAt .STRING 8 1 9 "\"foo\""⟩],
     assign := Pos.zero,
     val := .object ⟨"", 14, 1, 15⟩
       [keyItem 18 2 3 "screensize" 14 (.literal (tokenAt .STRING 31 2 16 "\"a\"")),
        keyItem 37 3 3 "screensize" 14 (.literal (tokenAt .STRING 50 3 16 "\"b\""))] }]

/-- A document with two sections named `foo`. -/
def dupSectionDoc : List ObjectItem :=
  [{ keys := [⟨tokenAt .IDENT 0 1 1 "section"⟩, ⟨tokenAt .STRING 8 1 9 "\"foo\""⟩],
     assign := Pos.zero,
     val := .object ⟨"", 14, 1, 15⟩
       [keyItem 18 2 3 "screensize" 14 (.literal (tokenAt .STRING 31 2 16 "\"a\""))] },
   { keys := [⟨tokenAt .IDENT 37 4 1 "section"⟩, ⟨tokenAt .STRING 45 4 9 "\"foo\""⟩],
     assign := Pos.zero,
     val := .object ⟨"", 51, 4, 15⟩
       [keyItem 55 5 3 "screensize" 14 (.literal (tokenAt .STRING 68 5 16 "\"b\""))] }]

/-- The token text of the value of an item, when the value is a literal. -/
def valueText (item : ObjectItem) : Option String :=
  match item.val with
  | .literal tok => some tok.text
  | _ => none

/-- The library instance that parses the two documents of `hconf_test.go`. -/
def testLib : Lib := demoLib [(confText, conf), (conf2Text, conf2)]

/-- The struct `foo` after `conf` was decoded into it. -/
def fooDecoded : List SField :=
  [⟨"Screensize", true, "", "screensize", .holderString ⟨⟨"", 34, 3, 18⟩, "hello world", true⟩⟩,
   ⟨"LikesCats", true, "", "likes_cats", .holderBool ⟨⟨"", 62, 4, 15⟩, true, true⟩⟩,
   ⟨"LikesDogs", true, "", "likes_dogs", .holderBool ⟨⟨"", 81, 5, 15⟩, false, true⟩⟩,
   ⟨"Friends", true, "", "friends", .holderStrings ⟨⟨"", 98, 6, 12⟩, ["alice", "bob"], true⟩⟩]

/-- The struct `myConf` after `conf` was decoded into it. -/
def myConfDecoded : List TField :=
  [⟨"Version", true, "", "version", .leaf (.string "")⟩,
   ⟨"Foo", true, "foo", "", .struct fooDecoded⟩,
   ⟨"Bar", true, "bar", "", .struct fooZero⟩]

/-- The struct `myConf` after `Set(c, "foo", "screensize", "sunset")` on `myConfDecoded`. -/
def myConfSunset : List TField :=
  [⟨"Version", true, "", "version", .leaf (.string "")⟩,
   ⟨"Foo", true, "foo", "", .struct
     [⟨"Screensize", true, "", "screensize", .holderString ⟨⟨"", 34, 3, 18⟩, "sunset", true⟩⟩,
      ⟨"LikesCats", true, "", "likes_cats", .holderBool ⟨⟨"", 62, 4, 15⟩, true, true⟩⟩,
      ⟨"LikesDogs", true, "", "likes_dogs", .holderBool ⟨⟨"", 81, 5, 15⟩, false, true⟩⟩,
      ⟨"Friends", true, "", "friends", .holderStrings ⟨⟨"", 98, 6, 12⟩, ["alice", "bob"], true⟩⟩]⟩,
   ⟨"Bar", true, "bar", "", .struct fooZero⟩]

/-! ## Further documents and destinations, for evaluation -/

/-- The text of a document with a section that the destination `myConf` does not bind. -/
def unknownSectionDocText : String :=
  "section \"nope\" \x7b\n\x7d\n"

/-- The tree of a document with a section that the destination `myConf` does not bind. -/
def unknownSectionDoc : List ObjectItem :=
  [{ keys := [⟨tokenAt .IDENT 0 1 1 "section"⟩, ⟨tokenAt .STRING 8 1 9 "\"nope\""⟩],
     assign := Pos.zero,
     val := .object ⟨"", 15, 1, 16⟩
       [] }]

/-- The text of a document whose section `foo` holds the unbound key `bogus` between two
bound keys. -/
def partialDocText : String :=
  "section \"foo\" \x7b\n  likes_cats = true\n  bogus = 1\n  likes_dogs = true\n\x7d\n"

/-- The item `likes_cats = true` of `partialDoc`. -/
def partialCats : ObjectItem :=
  { keys := [⟨tokenAt .IDENT 18 2 3 "likes_cats"⟩],
    assign := ⟨"", 29, 2, 14⟩,
    val := .literal (tokenAt .BOOL 31 2 16 "true") }

/-- The item `bogus = 1` of `partialDoc`. -/
def partialBogus : ObjectItem :=
  { keys := [⟨tokenAt .IDENT 38 3 3 "bogus"⟩],
    assign := ⟨"", 44, 3, 9⟩,
    val := .literal (tokenAt .NUMBER 46 3 11 "1") }

/-- The item `likes_dogs = true` of `partialDoc`. -/
def partialDogs : ObjectItem :=
  { keys := [⟨tokenAt .IDENT 50 4 3 "likes_dogs"⟩],
    assign := ⟨"", 61, 4, 14⟩,
    val := .literal (tokenAt .BOOL 63 4 16 "true") }

/-- The section block of `partialDoc`. -/
def partialFoo : ObjectItem :=
  { keys := [⟨tokenAt .IDENT 0 1 1 "section"⟩, ⟨tokenAt .STRING 8 1 9 "\"foo\""⟩],
    assign := Pos.zero,
    val := .object ⟨"", 14, 1, 15⟩ [partialCats, partialBogus, partialDogs] }

/-- The tree of `partialDoc`. -/
def partialDoc : List ObjectItem := [partialFoo]

/-- The text of the document `partialDoc` cut just before the key `bogus`. -/
def partialDocCutText : String :=
  "section \"foo\" \x7b\n  likes_cats = true\n\x7d\n"

/-- The tree of the document `partialDoc` cut just before the key `bogus`. -/
def partialDocCut : List ObjectItem :=
  [{ partialFoo with val := .object ⟨"", 14, 1, 15⟩ [partialCats] }]

/-- The text of a document that assigns the string literal `"true"` to the `Bool` holder
`likes_cats`. -/
def stringBoolDocText : String :=
  "section \"foo\" \x7b\n  likes_cats = \"true\"\n\x7d\n"

/-- The tree of a document that assigns the string literal `"true"` to the `Bool` holder
`likes_cats`. -/
def stringBoolDoc : List ObjectItem :=
  [{ keys := [⟨tokenAt .IDENT 0 1 1 "section"⟩, ⟨tokenAt .STRING 8 1 9 "\"foo\""⟩],
     assign := Pos.zero,
     val := .object ⟨"", 14, 1, 15⟩
       [{ keys := [⟨tokenAt .IDENT 18 2 3 "likes_cats"⟩],
           assign := ⟨"", 29, 2, 14⟩,
           val := .literal (tokenAt .STRING 31 2 16 "\"true\"") }] }]

/-- The text of a document that assigns a number to the plain `int64` field `limit`. -/
def limitDocText : String :=
  "limit = 5\n"

/-- The tree of a document that assigns a number to the plain `int64` field `limit`. -/
def limitDoc : List ObjectItem :=
  [{ keys := [⟨tokenAt .IDENT 0 1 1 "limit"⟩],
     assign := ⟨"", 6, 1, 7⟩,
     val := .literal (tokenAt .NUMBER 8 1 9 "5") }]

/-- The text of a document that assigns a list of strings to the plain `[]string` field
`names`. -/
def namesDocText : String :=
  "names = [\"a\", \"b\"]\n"

/-- The tree of a document that assigns a list of strings to the plain `[]string` field
`names`. -/
def namesDoc : List ObjectItem :=
  [{ keys := [⟨tokenAt .IDENT 0 1 1 "names"⟩],
     assign := ⟨"", 6, 1, 7⟩,
     val := .list ⟨"", 8, 1, 9⟩ [.literal (tokenAt .STRING 9 1 10 "\"a\""), .literal (tokenAt .STRING 14 1 15 "\"b\"")] }]

/-- The text of a document that assigns a string to the plain struct field `inner`. -/
def innerDocText : String :=
  "inner = \"x\"\n"

/-- The tree of a document that assigns a string to the plain struct field `inner`. -/
def innerDoc : List ObjectItem :=
  [{ keys := [⟨tokenAt .IDENT 0 1 1 "inner"⟩],
     assign := ⟨"", 6, 1, 7⟩,
     val := .literal (tokenAt .STRING 8 1 9 "\"x\"") }]

/-- The text of a document that assigns a number beyond 64 bits to the `Int64` holder `count`. -/
def bigCountDocText : String :=
  "count = 99999999999999999999\n"

/-- The tree of a document that assigns a number beyond 64 bits to the `Int64` holder `count`. -/
def bigCountDoc : List ObjectItem :=
  [{ keys := [⟨tokenAt .IDENT 0 1 1 "count"⟩],
     assign := ⟨"", 6, 1, 7⟩,
     val := .literal (tokenAt .NUMBER 8 1 9 "99999999999999999999") }]

/-- The text of a document whose section name is the bare identifier `foo`. -/
def bareSectionDocText : String :=
  "section foo \x7b\n  likes_cats = true\n\x7d\n"

/-- The item of a document whose section name is the bare identifier `foo`. -/
def bareSectionFoo : ObjectItem :=
  { keys := [⟨tokenAt .IDENT 0 1 1 "section"⟩, ⟨tokenAt .IDENT 8 1 9 "foo"⟩],
    assign := Pos.zero,
    val := .object ⟨"", 12, 1, 13⟩
      [{ keys := [⟨tokenAt .IDENT 16 2 3 "likes_cats"⟩],
          assign := ⟨"", 27, 2, 14⟩,
          val := .literal (tokenAt .BOOL 29 2 16 "true") }] }

/-- The tree of a document whose section name is the bare identifier `foo`. -/
def bareSectionDoc : List ObjectItem :=
  [bareSectionFoo]

/-- The text of a document with a `when` block that holds an unbound key, before the section
`foo`. -/
def whenDocText : String :=
  "when \"x\" \x7b\n  bogus = 1\n\x7d\nsection \"foo\" \x7b\n  likes_cats = true\n\x7d\n"

/-- The tree of a document with a `when` block that holds an unbound key, before the section
`foo`. -/
def whenDoc : List ObjectItem :=
  [{ keys := [⟨tokenAt .IDENT 0 1 1 "when"⟩, ⟨tokenAt .STRING 5 1 6 "\"x\""⟩],
     assign := Pos.zero,
     val := .object ⟨"", 9, 1, 10⟩
       [{ keys := [⟨tokenAt .IDENT 13 2 3 "bogus"⟩],
           assign := ⟨"", 19, 2, 9⟩,
           val := .literal (tokenAt .NUMBER 21 2 11 "1") }] },
   { keys := [⟨tokenAt .IDENT 25 4 1 "section"⟩, ⟨tokenAt .STRING 33 4 9 "\"foo\""⟩],
     assign := Pos.zero,
     val := .object ⟨"", 39, 4, 15⟩
       [{ keys := [⟨tokenAt .IDENT 43 5 3 "likes_cats"⟩],
           assign := ⟨"", 54, 5, 14⟩,
           val := .literal (tokenAt .BOOL 56 5 16 "true") }] }]

/-- The text of the document `whenDoc` with the `when` block blanked out. -/
def whenDocBlankText : String :=
  "          \n           \n \nsection \"foo\" \x7b\n  likes_cats = true\n\x7d\n"

/-- The tree of the document `whenDoc` with the `when` block blanked out. -/
def whenDocBlank : List ObjectItem :=
  [{ keys := [⟨tokenAt .IDENT 25 4 1 "section"⟩, ⟨tokenAt .STRING 33 4 9 "\"foo\""⟩],
     assign := Pos.zero,
     val := .object ⟨"", 39, 4, 15⟩
       [{ keys := [⟨tokenAt .IDENT 43 5 3 "likes_cats"⟩],
           assign := ⟨"", 54, 5, 14⟩,
           val := .literal (tokenAt .BOOL 56 5 16 "true") }] }]

/-- The destination `&extraConf{}` for a struct with an `Int64` holder, a plain `int64`, a
plain `[]string` and a plain struct field, each with a value tag:
`Count Int64`, `Limit int64`, `Names []string`, `Inner inner`. -/
def extraConf : List TField :=
  [⟨"Count", true, "", "count", .leaf (.holderInt64 (Holder.zero 0))⟩,
   ⟨"Limit", true, "", "limit", .leaf (.int64 0)⟩,
   ⟨"Names", true, "", "names", .leaf (.strings [])⟩,
   ⟨"Inner", true, "", "inner", .struct [⟨"X", true, "", "", .int 0⟩]⟩]

/-- The library instance that parses the documents above. -/
def caseLib : Lib :=
  demoLib [(unknownSectionDocText, unknownSectionDoc), (partialDocText, partialDoc),
    (partialDocCutText, partialDocCut), (stringBoolDocText, stringBoolDoc),
    (limitDocText, limitDoc), (namesDocText, namesDoc), (innerDocText, innerDoc),
    (bigCountDocText, bigCountDoc), (bareSectionDocText, bareSectionDoc),
    (whenDocText, whenDoc), (whenDocBlankText, whenDocBlank), (conf2Text, conf2)]

/-- The struct `myConf` after the first item of the section `foo` of `partialDoc` was
decoded into it. -/
def myConfPartial : List TField :=
  [⟨"Version", true, "", "version", .leaf (.string "")⟩,
   ⟨"Foo", true, "foo", "", .struct
     [⟨"Screensize", true, "", "screensize", .holderString (Holder.zero "")⟩,
      ⟨"LikesCats", true, "", "likes_cats", .holderBool ⟨⟨"", 31, 2, 16⟩, true, true⟩⟩,
      ⟨"LikesDogs", true, "", "likes_dogs", .holderBool (Holder.zero false)⟩,
      ⟨"Friends", true, "", "friends", .holderStrings (Holder.zero [])⟩]⟩,
   ⟨"Bar", true, "bar", "", .struct fooZero⟩]

/-! ## Documents with repeated sections and quoted keys, and a printer, for evaluation -/

/-- The text of a document with two sections named `foo`: the first assigns `screensize` and
`likes_cats`, the second `screensize` only. -/
def twoFooDocText : String :=
  "section \"foo\" \x7b\n  screensize = \"a\"\n  likes_cats = true\n\x7d\nsection \"foo\" \x7b\n  screensize = \"b\"\n\x7d\n"

/-- The first section `foo` of `twoFooDoc`. -/
def twoFooFirst : ObjectItem :=
  { keys := [⟨tokenAt .IDENT 0 1 1 "section"⟩, ⟨tokenAt .STRING 8 1 9 "\"foo\""⟩],
    assign := Pos.zero,
    val := .object ⟨"", 14, 1, 15⟩
      [{ keys := [⟨tokenAt .IDENT 18 2 3 "screensize"⟩],
          assign := ⟨"", 29, 2, 14⟩,
          val := .literal (tokenAt .STRING 31 2 16 "\"a\"") },
        { keys := [⟨tokenAt .IDENT 37 3 3 "likes_cats"⟩],
          assign := ⟨"", 48, 3, 14⟩,
          val := .literal (tokenAt .BOOL 50 3 16 "true") }] }

/-- The second section `foo` of `twoFooDoc`. -/
def twoFooSecond : ObjectItem :=
  { keys := [⟨tokenAt .IDENT 57 5 1 "section"⟩, ⟨tokenAt .STRING 65 5 9 "\"foo\""⟩],
    assign := Pos.zero,
    val := .object ⟨"", 71, 5, 15⟩
      [{ keys := [⟨tokenAt .IDENT 75 6 3 "screensize"⟩],
          assign := ⟨"", 86, 6, 14⟩,
          val := .literal (tokenAt .STRING 88 6 16 "\"b\"") }] }

/-- The tree of a document with two sections named `foo`. -/
def twoFooDoc : List ObjectItem :=
  [twoFooFirst, twoFooSecond]

/-- The struct `myConf` after `twoFooDoc` was decoded into it. -/
def myConfTwoFoo : List TField :=
  [⟨"Version", true, "", "version", .leaf (.string "")⟩,
   ⟨"Foo", true, "foo", "", .struct
     [⟨"Screensize", true, "", "screensize", .holderString ⟨⟨"", 88, 6, 16⟩, "b", true⟩⟩,
      ⟨"LikesCats", true, "", "likes_cats", .holderBool ⟨⟨"", 50, 3, 16⟩, true, true⟩⟩,
      ⟨"LikesDogs", true, "", "likes_dogs", .holderBool (Holder.zero false)⟩,
      ⟨"Friends", true, "", "friends", .holderStrings (Holder.zero [])⟩]⟩,
   ⟨"Bar", true, "bar", "", .struct fooZero⟩]

/-- The text of a document whose section `foo` holds the key `likes_cats` written as a quoted
string. -/
def quotedKeyDocText : String :=
  "section \"foo\" \x7b\n  \"likes_cats\" = true\n\x7d\n"

/-- The item of `quotedKeyDoc` whose key is written as a quoted string. -/
def quotedKeyItem : ObjectItem :=
  { keys := [⟨tokenAt .STRING 18 2 3 "\"likes_cats\""⟩],
    assign := ⟨"", 31, 2, 16⟩,
    val := .literal (tokenAt .BOOL 33 2 18 "true") }

/-- The tree of a document whose section `foo` holds the key `likes_cats` written as a quoted
string. -/
def quotedKeyDoc : List ObjectItem :=
  [{ keys := [⟨tokenAt .IDENT 0 1 1 "section"⟩, ⟨tokenAt .STRING 8 1 9 "\"foo\""⟩],
     assign := Pos.zero,
     val := .object ⟨"", 14, 1, 15⟩ [quotedKeyItem] }]

/-- The text of a document whose top-level key `version` is written as a quoted string. -/
def quotedTopDocText : String :=
  "\"version\" = \"1\"\n"

/-- The item of `quotedTopDoc`. -/
def quotedTopItem : ObjectItem :=
  { keys := [⟨tokenAt .STRING 0 1 1 "\"version\""⟩],
    assign := ⟨"", 10, 1, 11⟩,
    val := .literal (tokenAt .STRING 12 1 13 "\"1\"") }

/-- The tree of a document whose top-level key `version` is written as a quoted string. -/
def quotedTopDoc : List ObjectItem :=
  [quotedTopItem]

/-- The text of a document with the top-level key `version`. -/
def plainTopDocText : String :=
  "version = \"1\"\n"

/-- The tree of a document with the top-level key `version`. -/
def plainTopDoc : List ObjectItem :=
  [{ keys := [⟨tokenAt .IDENT 0 1 1 "version"⟩],
     assign := ⟨"", 8, 1, 9⟩,
     val := .literal (tokenAt .STRING 10 1 11 "\"1\"") }]

/-- The text of a literal or of a list of literals, for `demoFprint`. -/
def demoShowNode : Node → Option String
  | .literal tok => some tok.text
  | .list _ elems =>
    (elems.mapM fun (e : Node) =>
      match e with
      | .literal tok => some tok.text
      | _ => none).map fun texts => "[" ++ ", ".intercalate texts ++ "]"
  | .object _ _ => none

/-- The line `key = value` of an item with one label, after `indent`. -/
def demoShowLeaf (indent : String) (item : ObjectItem) : Option String :=
  match item.keys with
  | [k] => (demoShowNode item.val).map fun v => indent ++ k.token.text ++ " = " ++ v ++ "\n"
  | _ => none

/-- The lines of a top-level item: a key with its value, or a block of keys with values. -/
def demoShowItem (item : ObjectItem) : Option String :=
  match item.val with
  | .object _ items =>
    (items.mapM (demoShowLeaf "  ")).map fun lines =>
      " ".intercalate (item.keys.map fun k => k.token.text) ++ " \x7b\n" ++
        String.join lines ++ "\x7d\n"
  | _ => demoShowLeaf "" item

/-- A printer for documents of top-level keys and blocks of keys, one item on a line; it
stands in for `printer.Fprint`, whose layout it does not claim to reproduce. -/
def demoFprint (tree : File) : Except Err String :=
  match tree.node with
  | .objectList items =>
    match items.mapM demoShowItem with
    | some lines => .ok (String.join lines)
    | none => .error (.plain (.library "print"))
  | .other _ => .error (.plain (.library "print"))

/-- The library instance that parses the empty document and the documents above, with the
printer `demoFprint`. -/
def printLib : Lib :=
  { demoLib [("", []), (twoFooDocText, twoFooDoc), (quotedKeyDocText, quotedKeyDoc),
      (quotedTopDocText, quotedTopDoc), (plainTopDocText, plainTopDoc), (confText, conf)] with
    fprint := demoFprint }

/-- Read the characters after the opening quote up to the closing quote as `Token.Value()`
of `hashicorp/hcl` does on a string with an interpolation: what stands between `${` and the
matching closing brace is copied as it is, `depth` counting the braces that are open, and the
string is refused when it ends before they are closed. -/
def interpUnescape : List Char → Nat → Option (List Char)
  | [], _ => none
  | c :: cs, depth + 1 =>
    (interpUnescape cs
      (if c = Char.ofNat 123 then depth + 2 else if c = Char.ofNat 125 then depth
       else depth + 1)).map (c :: ·)
  | [c], 0 => if c = Char.ofNat 34 then some [] else none
  | c :: d :: cs, 0 =>
    if c = Char.ofNat 36 ∧ d = Char.ofNat 123 then (interpUnescape cs 1).map (c :: d :: ·)
    else if c = Char.ofNat 92 then
      if d = Char.ofNat 34 ∨ d = Char.ofNat 92 then (interpUnescape cs 0).map (d :: ·) else none
    else if c = Char.ofNat 34 then none
    else (interpUnescape (d :: cs) 0).map (c :: ·)

/-- Unquote a double-quoted string of printable ASCII as `Token.Value()` does, interpolations
included. -/
def interpUnquote (s : String) : Option String :=
  match s.data with
  | c :: cs => if c = Char.ofNat 34 then (interpUnescape cs 0).map String.mk else none
  | [] => some ""

/-- The library instance `printLib` with `interpUnquote` for `Token.Value()`. -/
def interpLib : Lib :=
  { printLib with unquote := fun _ text => interpUnquote text }

/-! ## Fields: lookup and update -/

section FieldLemmas

variable {V : Type}

theorem bindIdx_setVal (p : FieldOf V → Bool) (hp : ∀ f v, p { f with val := v } = p f)
    (fs : List (FieldOf V)) (i : Nat) (v : V) : bindIdx p (setVal fs i v) = bindIdx p fs := by
  induction fs generalizing i with
  | nil => rfl
  | cons f fs ih =>
    cases i with
    | zero => simp [setVal, bindIdx, hp]
    | succ i => simp [setVal, bindIdx, ih]

theorem bindIdx_some_valAt (p : FieldOf V → Bool) (fs : List (FieldOf V)) (i : Nat)
    (h : bindIdx p fs = some i) : ∃ f, fs[i]? = some f ∧ p f = true ∧ valAt fs i = some f.val := by
  induction fs generalizing i with
  | nil => simp [bindIdx] at h
  | cons f fs ih =>
    by_cases hf : p f = true
    · simp [bindIdx, hf] at h
      subst h
      exact ⟨f, by simp, hf, rfl⟩
    · simp [bindIdx, hf] at h
      obtain ⟨a, ha, rfl⟩ := h
      obtain ⟨g, hg1, hg2, hg3⟩ := ih a ha
      exact ⟨g, by simpa using hg1, hg2, by simpa [valAt] using hg3⟩

theorem valAt_setVal_ne (fs : List (FieldOf V)) (i j : Nat) (v : V) (h : i ≠ j) :
    valAt (setVal fs i v) j = valAt fs j := by
  induction fs generalizing i j with
  | nil => rfl
  | cons f fs ih =>
    cases i with
    | zero =>
      cases j with
      | zero => exact absurd rfl h
      | succ j => rfl
    | succ i =>
      cases j with
      | zero => rfl
      | succ j => simpa [setVal, valAt] using ih i j (by omega)

theorem valAt_setVal_same (fs : List (FieldOf V)) (i : Nat) (v w : V) (h : valAt fs i = some w) :
    valAt (setVal fs i v) i = some v := by
  induction fs generalizing i with
  | nil => simp [valAt] at h
  | cons f fs ih =>
    cases i with
    | zero => rfl
    | succ i => simpa [setVal, valAt] using ih i (by simpa [valAt] using h)

theorem setVal_same (fs : List (FieldOf V)) (i : Nat) (v : V) (h : valAt fs i = some v) :
    setVal fs i v = fs := by
  induction fs generalizing i with
  | nil => rfl
  | cons f fs ih =>
    cases i with
    | zero =>
      simp [valAt] at h
      subst h
      rfl
    | succ i => simp [setVal, ih i (by simpa [valAt] using h)]

end FieldLemmas

theorem sectionFields_setVal (fs : List SField) (i : Nat) (v : GoValue) :
    sectionFields (setVal fs i v) = sectionFields fs := by
  funext tag
  simp only [sectionFields]
  split
  · rfl
  · exact bindIdx_setVal _ (by intros; rfl) _ _ _

theorem fields_setVal (s : List TField) (i : Nat) (v : TopValue) :
    fields (setVal s i v) = fields s := by
  simp only [fields]
  congr 1 <;> funext tag <;> split
  · rfl
  · exact bindIdx_setVal _ (by intros; rfl) _ _ _
  · rfl
  · exact bindIdx_setVal _ (by intros; rfl) _ _ _

/-- Two value tags bound to the same field of a section struct are the same tag. -/
theorem sectionFields_inj (fs : List SField) (key key' : String) (j : Nat)
    (h : sectionFields fs key = some j) (h' : sectionFields fs key' = some j) : key = key' := by
  simp only [sectionFields] at h h'
  split at h
  · simp at h
  split at h'
  · simp at h'
  obtain ⟨f, hf, hp, _⟩ := bindIdx_some_valAt _ _ _ h
  obtain ⟨g, hg, hq, _⟩ := bindIdx_some_valAt _ _ _ h'
  rw [hf] at hg
  cases hg
  simp at hp hq
  rw [← hp.2, ← hq.2]

/-- Two section tags bound to the same field of the destination are the same tag. -/
theorem fields_section_inj (s : List TField) (sect sect' : String) (i : Nat)
    (h : (fields s).1 sect = some i) (h' : (fields s).1 sect' = some i) : sect = sect' := by
  simp only [fields] at h h'
  split at h
  · simp at h
  split at h'
  · simp at h'
  obtain ⟨f, hf, hp, _⟩ := bindIdx_some_valAt _ _ _ h
  obtain ⟨g, hg, hq, _⟩ := bindIdx_some_valAt _ _ _ h'
  rw [hf] at hg
  cases hg
  simp at hp hq
  rw [← hp.2, ← hq.2]

/-! ## Decoding a section block -/

theorem sectionItem_ok (L : Lib) (sn : String) (vf : String → Option Nat) (out out' : List SField)
    (item : ObjectItem) (h : sectionItem L sn vf out item = (out', none)) :
    ∃ k key i v v', item.keys = [k] ∧ getKeyAsString L k = .ok key ∧ vf key = some i ∧
      valAt out i = some v ∧ decodeInto L key item.val v = .ok v' ∧ out' = setVal out i v' := by
  unfold sectionItem at h
  split at h
  · rename_i k hk
    split at h
    · simp at h
    · rename_i key hkey
      split at h
      · simp at h
      · rename_i i hi
        split at h
        · simp at h
        · rename_i v hv
          split at h
          · simp at h
          · rename_i v' hv'
            simp at h
            exact ⟨k, key, i, v, v', hk, hkey, hi, hv, hv', h.symm⟩
  · simp at h

theorem sectionItem_err (L : Lib) (sn : String) (vf : String → Option Nat) (out out' : List SField)
    (item : ObjectItem) (e : Err) (h : sectionItem L sn vf out item = (out', some e)) :
    out' = out := by
  unfold sectionItem at h
  repeat' split at h
  all_goals simp at h
  all_goals exact h.1.symm

theorem sectionItems_fields (L : Lib) (sn : String) (vf : String → Option Nat)
    (items : List ObjectItem) (out out' : List SField) (e : Option Err)
    (h : sectionItems L sn vf out items = (out', e)) : sectionFields out' = sectionFields out := by
  induction items generalizing out with
  | nil =>
    simp [sectionItems] at h
    rw [← h.1]
  | cons item rest ih =>
    simp only [sectionItems] at h
    split at h
    · rename_i out1 h1
      obtain ⟨k, key, i, v, v', -, -, -, -, -, rfl⟩ := sectionItem_ok _ _ _ _ _ _ h1
      rw [ih _ h, sectionFields_setVal]
    · rename_i out1 e1 h1
      simp at h
      rw [← h.1, sectionItem_err _ _ _ _ _ _ _ h1]

/-- Frame of the section loop: a field that no item of the block is bound to keeps its value,
whether the loop ends with an error or not. -/
theorem sectionItems_frame (L : Lib) (sn key : String) (j : Nat) (vf : String → Option Nat)
    (items : List ObjectItem) (out out' : List SField) (e : Option Err)
    (h : sectionItems L sn vf out items = (out', e)) (hvf : sectionFields out = vf)
    (hj : vf key = some j) (hlast : lastNodeIn L key items = none) :
    valAt out' j = valAt out j := by
  induction items generalizing out with
  | nil =>
    simp [sectionItems] at h
    rw [← h.1]
  | cons item rest ih =>
    simp only [lastNodeIn] at hlast
    split at hlast
    · simp at hlast
    rename_i hrest
    simp at hlast
    simp only [sectionItems] at h
    split at h
    · rename_i out1 h1
      obtain ⟨k, key', i, v, v', hk, hkey, hi, hv, hdec, rfl⟩ := sectionItem_ok _ _ _ _ _ _ h1
      have hne : i ≠ j := by
        rintro rfl
        rw [← hvf] at hi hj
        have := sectionFields_inj _ _ _ _ hi hj
        subst this
        simp [keyNamed, hk, hkey] at hlast
      rw [ih (setVal out i v') h (by rw [sectionFields_setVal]; exact hvf) hrest]
      exact valAt_setVal_ne _ _ _ _ hne
    · rename_i out1 e1 h1
      simp at h
      rw [← h.1, sectionItem_err _ _ _ _ _ _ _ h1]

theorem decodeInto_zeroOf (L : Lib) (name : String) (node : Node) (v v' : GoValue)
    (h : decodeInto L name node v = .ok v') : v'.zeroOf = v.zeroOf := by
  cases v <;> simp only [decodeInto] at h
  case plainStruct => cases h; rfl
  case int64 => cases h
  case strings => cases h
  all_goals
    split at h
    · cases h
    · first
      | cases h; rfl
      | cases h

/-- The result of `decodeInto` depends on the type of the field only, not on the value the
field holds. -/
theorem decodeInto_congr (L : Lib) (name : String) (node : Node) (v w : GoValue)
    (h : v.zeroOf = w.zeroOf) : decodeInto L name node v = decodeInto L name node w := by
  cases v <;> cases w <;> simp [GoValue.zeroOf] at h <;>
    simp [decodeInto, h, Holder.SetValue, Holder.SetSource]

theorem valAt_setVal_type (fs : List SField) (i j : Nat) (v v' : GoValue)
    (hv : valAt fs i = some v) (hz : v'.zeroOf = v.zeroOf) :
    (valAt (setVal fs i v') j).map GoValue.zeroOf = (valAt fs j).map GoValue.zeroOf := by
  by_cases hij : i = j
  · subst hij
    rw [valAt_setVal_same _ _ _ _ hv, hv]
    simp [hz]
  · rw [valAt_setVal_ne _ _ _ _ hij]

/-- The section loop keeps the type of every field. -/
theorem sectionItems_type (L : Lib) (sn : String) (vf : String → Option Nat) (j : Nat)
    (items : List ObjectItem) (out out' : List SField) (e : Option Err)
    (h : sectionItems L sn vf out items = (out', e)) :
    (valAt out' j).map GoValue.zeroOf = (valAt out j).map GoValue.zeroOf := by
  induction items generalizing out with
  | nil =>
    simp [sectionItems] at h
    rw [← h.1]
  | cons item rest ih =>
    simp only [sectionItems] at h
    split at h
    · rename_i out1 h1
      obtain ⟨k, key', i, v, v', -, -, -, hv, hdec, rfl⟩ := sectionItem_ok _ _ _ _ _ _ h1
      rw [ih _ h]
      exact valAt_setVal_type _ _ _ _ _ hv (decodeInto_zeroOf _ _ _ _ _ hdec)
    · rename_i out1 e1 h1
      simp at h
      rw [← h.1, sectionItem_err _ _ _ _ _ _ _ h1]

/-- Last assignment in a section block: when the loop ends without error and the block has an
item labelled `key`, the field bound to `key` holds what `decodeInto` makes of the value node
of the last such item. -/
theorem sectionItems_last (L : Lib) (sn key : String) (node : Node) (vf : String → Option Nat)
    (items : List ObjectItem) (out out' : List SField)
    (h : sectionItems L sn vf out items = (out', none)) (hvf : sectionFields out = vf)
    (hlast : lastNodeIn L key items = some node) :
    ∃ j v0 v', vf key = some j ∧ valAt out j = some v0 ∧ decodeInto L key node v0 = .ok v' ∧
      valAt out' j = some v' := by
  induction items generalizing out with
  | nil => simp [lastNodeIn] at hlast
  | cons item rest ih =>
    simp only [sectionItems] at h
    split at h
    swap
    · simp at h
    rename_i out1 h1
    obtain ⟨k, key', i, v, v', hk, hkey, hi, hv, hdec, rfl⟩ := sectionItem_ok _ _ _ _ _ _ h1
    have hvf' : sectionFields (setVal out i v') = vf := by rw [sectionFields_setVal]; exact hvf
    simp only [lastNodeIn] at hlast
    split at hlast
    · rename_i n hn
      cases hlast
      obtain ⟨j, v1, w, hj, hv1, hd, hw⟩ := ih (setVal out i v') h hvf' hn
      have ht := valAt_setVal_type out i j v v' hv (decodeInto_zeroOf _ _ _ _ _ hdec)
      rw [hv1] at ht
      cases hv0 : valAt out j with
      | none => simp [hv0] at ht
      | some v0 =>
        simp [hv0] at ht
        exact ⟨j, v0, w, hj, hv0, by rw [← decodeInto_congr L key _ v1 v0 ht]; exact hd, hw⟩
    · rename_i hn
      split at hlast
      swap
      · simp at hlast
      rename_i hnamed
      cases hlast
      simp [keyNamed, hk, hkey] at hnamed
      subst hnamed
      refine ⟨i, v, v', hi, hv, hdec, ?_⟩
      rw [sectionItems_frame L sn key' i vf rest (setVal out i v') out' none h hvf' hi hn]
      exact valAt_setVal_same _ _ _ _ hv

theorem sectionItems_nil_out (L : Lib) (sn : String) (vf : String → Option Nat)
    (items : List ObjectItem) (out' : List SField) (e : Option Err)
    (h : sectionItems L sn vf [] items = (out', e)) : out' = [] := by
  cases items with
  | nil =>
    simp [sectionItems] at h
    exact h.1
  | cons item rest =>
    simp only [sectionItems] at h
    split at h
    · rename_i out1 h1
      obtain ⟨k, key, i, v, v', -, -, -, hv, -, -⟩ := sectionItem_ok _ _ _ _ _ _ h1
      simp [valAt] at hv
    · rename_i out1 e1 h1
      simp at h
      rw [← h.1, sectionItem_err _ _ _ _ _ _ _ h1]

theorem handleSection_eq (L : Lib) (tv : TopValue) (item : ObjectItem) (k0 k1 : ObjectKey)
    (name : String) (hk : item.keys = [k0, k1]) (hname : getKeyAsString L k1 = .ok name) :
    handleSection L tv item =
      match tv.structFields with
      | none => (tv, some .runtimePanic)
      | some fs =>
        match item.val with
        | .object _ items =>
          (tv.withFields (sectionItems L name (sectionFields fs) fs items).1,
            (sectionItems L name (sectionFields fs) fs items).2)
        | _ => (tv, some .runtimePanic) := by
  simp only [handleSection, hk, hname]

/-- The fields of a section value after `handleSection` wrote them back. -/
theorem structFields_withFields (L : Lib) (sn : String) (vf : String → Option Nat)
    (tv : TopValue) (fs fs' : List SField) (items : List ObjectItem) (e : Option Err)
    (hfs : tv.structFields = some fs) (h : sectionItems L sn vf fs items = (fs', e)) :
    (tv.withFields fs').structFields = some fs' := by
  cases tv with
  | struct fs0 => rfl
  | leaf v =>
    cases v <;> simp [TopValue.structFields] at hfs <;> subst hfs <;>
      rw [sectionItems_nil_out _ _ _ _ _ _ h] <;> rfl

theorem fieldAt_eq (s : List TField) (sect key : String) :
    fieldAt s sect key =
      ((fields s).1 sect).bind fun i => (valAt s i).bind fun tv =>
        tv.structFields.bind fun fs => (sectionFields fs key).bind fun j => valAt fs j := by
  simp only [fieldAt, Get]
  cases h1 : (fields s).1 sect with
  | none => simp
  | some i =>
    dsimp only [Option.bind]
    cases h2 : valAt s i with
    | none => simp
    | some tv =>
      dsimp only
      cases h3 : tv.structFields with
      | none => simp
      | some fs =>
        dsimp only
        cases h4 : sectionFields fs key with
        | none => simp
        | some j =>
          dsimp only
          cases h5 : valAt fs j with
          | none => simp
          | some v =>
            dsimp only
            cases h6 : v.Source <;> rfl

theorem fieldAt_some (s : List TField) (sect key : String) (i j : Nat) (tv : TopValue)
    (fs : List SField) (hi : (fields s).1 sect = some i) (htv : valAt s i = some tv)
    (hfs : tv.structFields = some fs) (hj : sectionFields fs key = some j) :
    fieldAt s sect key = valAt fs j := by
  simp [fieldAt_eq, hi, htv, hfs, hj]

/-- A field that holds a plain value binds no section key. -/
theorem leaf_no_key (v : GoValue) (key : String) :
    ((TopValue.leaf v).structFields.bind fun fs =>
      (sectionFields fs key).bind fun j => valAt fs j) = none := by
  cases v <;> simp [TopValue.structFields, sectionFields, bindIdx]

theorem decodeItem_section (L : Lib) (sf vf : String → Option Nat) (out : List TField)
    (item : ObjectItem) (k0 k1 : ObjectKey) (name : String) (hk : item.keys = [k0, k1])
    (h0 : k0.token.text = "section") (hname : getKeyAsString L k1 = .ok name) :
    decodeItem L sf vf out item =
      match sf name with
      | none => (out, some (.posError k1.pos (.unknownSection name)))
      | some i =>
        match valAt out i with
        | none => (out, some .runtimePanic)
        | some tv => (setVal out i (handleSection L tv item).1, (handleSection L tv item).2) := by
  simp only [decodeItem, hk, h0, hname, if_true]

/-- What one round of the document loop does to the destination. -/
theorem decodeItem_cases (L : Lib) (sf vf : String → Option Nat) (out out' : List TField)
    (item : ObjectItem) (e : Option Err) (h : decodeItem L sf vf out item = (out', e)) :
    out' = out ∨
    (∃ k i v v', item.keys = [k] ∧ vf k.token.text = some i ∧ valAt out i = some (.leaf v) ∧
      decodeInto L k.token.text item.val v = .ok v' ∧ out' = setVal out i (.leaf v') ∧ e = none) ∨
    (∃ k0 k1 name i tv, item.keys = [k0, k1] ∧ k0.token.text = "section" ∧
      getKeyAsString L k1 = .ok name ∧ sf name = some i ∧ valAt out i = some tv ∧
      out' = setVal out i (handleSection L tv item).1 ∧ e = (handleSection L tv item).2) := by
  unfold decodeItem at h
  split at h
  · rename_i k hk
    split at h
    · simp at h; exact Or.inl h.1.symm
    · rename_i i hi
      split at h
      · rename_i v hv
        split at h
        · simp at h; exact Or.inl h.1.symm
        · rename_i v' hv'
          simp at h
          exact Or.inr (Or.inl ⟨k, i, v, v', hk, hi, hv, hv', h.1.symm, h.2.symm⟩)
      · simp at h; exact Or.inl h.1.symm
      · simp at h; exact Or.inl h.1.symm
  · rename_i k0 k1 hk
    split at h
    · rename_i h0
      split at h
      · simp at h; exact Or.inl h.1.symm
      · rename_i name hname
        split at h
        · simp at h; exact Or.inl h.1.symm
        · rename_i i hi
          split at h
          · simp at h; exact Or.inl h.1.symm
          · rename_i tv htv
            simp at h
            exact Or.inr (Or.inr ⟨k0, k1, name, i, tv, hk, h0, hname, hi, htv, h.1.symm, h.2.symm⟩)
    · split at h
      · simp [handleWhen] at h; exact Or.inl h.1.symm
      · simp at h; exact Or.inl h.1.symm
  · simp at h; exact Or.inl h.1.symm

theorem decodeItem_fields (L : Lib) (sf vf : String → Option Nat) (out out' : List TField)
    (item : ObjectItem) (e : Option Err) (h : decodeItem L sf vf out item = (out', e)) :
    fields out' = fields out := by
  rcases decodeItem_cases L sf vf out out' item e h with h | ⟨k, i, v, v', -, -, -, -, h, -⟩ |
    ⟨k0, k1, name, i, tv, -, -, -, -, -, h, -⟩
  · rw [h]
  · rw [h, fields_setVal]
  · rw [h, fields_setVal]

/-! ## Decoding a document: frame and last assignment -/

/-- The value bound to `sect`/`key` is read through field `i` only when `sect` is bound to
field `i`. -/
theorem fieldAt_setVal_ne (s : List TField) (sect key : String) (i : Nat) (tv : TopValue)
    (h : (fields s).1 sect ≠ some i) : fieldAt (setVal s i tv) sect key = fieldAt s sect key := by
  simp only [fieldAt_eq, fields_setVal]
  cases h1 : (fields s).1 sect with
  | none => rfl
  | some i0 =>
    have hne : i ≠ i0 := by
      rintro rfl
      exact h h1
    simp only [Option.bind, valAt_setVal_ne _ _ _ _ hne]

theorem handleSection_frame (L : Lib) (s : List TField) (sect key : String) (i : Nat)
    (tv : TopValue) (item : ObjectItem) (k0 k1 : ObjectKey)
    (hk : item.keys = [k0, k1]) (hname : getKeyAsString L k1 = .ok sect)
    (hi : (fields s).1 sect = some i) (htv : valAt s i = some tv)
    (hlast : lastNodeIn L key (nestedItems item) = none) :
    fieldAt (setVal s i (handleSection L tv item).1) sect key = fieldAt s sect key := by
  rw [handleSection_eq L tv item k0 k1 sect hk hname]
  cases hfs : tv.structFields with
  | none =>
    dsimp only
    rw [setVal_same _ _ _ htv]
  | some fs =>
    dsimp only
    cases hval : item.val with
    | literal tok =>
      dsimp only
      rw [setVal_same _ _ _ htv]
    | list lb elems =>
      dsimp only
      rw [setVal_same _ _ _ htv]
    | object lb items =>
      dsimp only
      have hnested : nestedItems item = items := by simp [nestedItems, hval]
      rw [hnested] at hlast
      generalize hr : sectionItems L sect (sectionFields fs) fs items = r
      obtain ⟨fs', e⟩ := r
      have hsf := sectionItems_fields _ _ _ _ _ _ _ hr
      have hst := structFields_withFields _ _ _ _ _ _ _ _ hfs hr
      simp only [fieldAt_eq, fields_setVal, hi, Option.bind, htv,
        valAt_setVal_same _ _ _ _ htv, hst, hfs, hsf]
      cases hj : sectionFields fs key with
      | none => rfl
      | some j =>
        dsimp only
        exact sectionItems_frame L sect key j _ items fs fs' e hr rfl hj hlast

/-- One round of the document loop leaves the value bound to `sect`/`key` as it is, unless the
item is a section named `sect` with an item labelled `key`. -/
theorem decodeItem_frame (L : Lib) (sect key : String) (s s1 : List TField)
    (item : ObjectItem) (e : Option Err)
    (h : decodeItem L (fields s).1 (fields s).2 s item = (s1, e))
    (hlast : sectionNamed L sect item = true → lastNodeIn L key (nestedItems item) = none) :
    fieldAt s1 sect key = fieldAt s sect key := by
  rcases decodeItem_cases L _ _ s s1 item e h with h | ⟨k, i, v, v', -, -, hv, -, h, -⟩ |
    ⟨k0, k1, name, i, tv, hk, h0, hname, hi, htv, h, -⟩
  · rw [h]
  · subst h
    by_cases hi : (fields s).1 sect = some i
    · simp only [fieldAt_eq, fields_setVal, hi, Option.bind, hv,
        valAt_setVal_same _ _ _ _ hv]
      have h1 := leaf_no_key v key
      have h2 := leaf_no_key v' key
      simp only [Option.bind] at h1 h2
      rw [h1, h2]
    · exact fieldAt_setVal_ne _ _ _ _ _ hi
  · subst h
    by_cases hi' : (fields s).1 sect = some i
    · have hs := fields_section_inj s _ _ _ hi hi'
      subst hs
      have hn : sectionNamed L name item = true := by
        simp [sectionNamed, hk, h0, hname]
      exact handleSection_frame L s name key i tv item k0 k1 hk hname hi htv (hlast hn)
    · exact fieldAt_setVal_ne _ _ _ _ _ hi'

/-- The document loop keeps the maps from tags to fields. -/
theorem decodeItems_fields (L : Lib) (sf vf : String → Option Nat) (root : List ObjectItem)
    (s s' : List TField) (e : Option Err) (h : decodeItems L sf vf s root = (s', e)) :
    fields s' = fields s := by
  induction root generalizing s with
  | nil =>
    simp [decodeItems] at h
    rw [← h.1]
  | cons item rest ih =>
    simp only [decodeItems] at h
    split at h
    · rename_i s1 h1
      rw [ih _ h, decodeItem_fields _ _ _ _ _ _ _ h1]
    · rename_i s1 e1 h1
      simp at h
      rw [← h.1, decodeItem_fields _ _ _ _ _ _ _ h1]

/-- Frame of the document loop: a value whose `sect`/`key` pair does not occur in the
document is the same after the loop, whether the loop ends with an error or not. -/
theorem decodeItems_frame (L : Lib) (sect key : String) (root : List ObjectItem)
    (s0 s s' : List TField) (e : Option Err) (hs : fields s = fields s0)
    (h : decodeItems L (fields s0).1 (fields s0).2 s root = (s', e))
    (hlast : lastNode L sect key root = none) :
    fieldAt s' sect key = fieldAt s sect key := by
  induction root generalizing s with
  | nil =>
    simp [decodeItems] at h
    rw [← h.1]
  | cons item rest ih =>
    simp only [lastNode] at hlast
    split at hlast
    · simp at hlast
    rename_i hrest
    have hitem : sectionNamed L sect item = true → lastNodeIn L key (nestedItems item) = none := by
      intro hn
      simpa [hn] using hlast
    simp only [decodeItems] at h
    split at h
    · rename_i s1 h1
      rw [← hs] at h1
      rw [ih s1 (by rw [decodeItem_fields _ _ _ _ _ _ _ h1, hs]) h hrest]
      exact decodeItem_frame L sect key s s1 item none h1 hitem
    · rename_i s1 e1 h1
      simp at h
      rw [← hs] at h1
      rw [← h.1]
      exact decodeItem_frame L sect key s s1 item _ h1 hitem

theorem handleSection_type (L : Lib) (s : List TField) (sect key : String) (i : Nat)
    (tv : TopValue) (item : ObjectItem) (k0 k1 : ObjectKey)
    (hk : item.keys = [k0, k1]) (hname : getKeyAsString L k1 = .ok sect)
    (hi : (fields s).1 sect = some i) (htv : valAt s i = some tv) :
    (fieldAt (setVal s i (handleSection L tv item).1) sect key).map GoValue.zeroOf =
      (fieldAt s sect key).map GoValue.zeroOf := by
  rw [handleSection_eq L tv item k0 k1 sect hk hname]
  cases hfs : tv.structFields with
  | none =>
    dsimp only
    rw [setVal_same _ _ _ htv]
  | some fs =>
    dsimp only
    cases hval : item.val with
    | literal tok =>
      dsimp only
      rw [setVal_same _ _ _ htv]
    | list lb elems =>
      dsimp only
      rw [setVal_same _ _ _ htv]
    | object lb items =>
      dsimp only
      generalize hr : sectionItems L sect (sectionFields fs) fs items = r
      obtain ⟨fs', e⟩ := r
      have hsf := sectionItems_fields _ _ _ _ _ _ _ hr
      have hst := structFields_withFields _ _ _ _ _ _ _ _ hfs hr
      simp only [fieldAt_eq, fields_setVal, hi, Option.bind, htv,
        valAt_setVal_same _ _ _ _ htv, hst, hfs, hsf]
      cases hj : sectionFields fs key with
      | none => rfl
      | some j =>
        dsimp only
        exact sectionItems_type L sect _ j items fs fs' e hr

/-- One round of the document loop keeps the type of the value bound to `sect`/`key`. -/
theorem decodeItem_type (L : Lib) (sect key : String) (s s1 : List TField)
    (item : ObjectItem) (e : Option Err)
    (h : decodeItem L (fields s).1 (fields s).2 s item = (s1, e)) :
    (fieldAt s1 sect key).map GoValue.zeroOf = (fieldAt s sect key).map GoValue.zeroOf := by
  rcases decodeItem_cases L _ _ s s1 item e h with h | ⟨k, i, v, v', -, -, hv, -, h, -⟩ |
    ⟨k0, k1, name, i, tv, hk, h0, hname, hi, htv, h, -⟩
  · rw [h]
  · subst h
    by_cases hi : (fields s).1 sect = some i
    · simp only [fieldAt_eq, fields_setVal, hi, Option.bind, hv,
        valAt_setVal_same _ _ _ _ hv]
      have h1 := leaf_no_key v key
      have h2 := leaf_no_key v' key
      simp only [Option.bind] at h1 h2
      rw [h1, h2]
    · rw [fieldAt_setVal_ne _ _ _ _ _ hi]
  · subst h
    by_cases hi' : (fields s).1 sect = some i
    · have hs := fields_section_inj s _ _ _ hi hi'
      subst hs
      exact handleSection_type L s name key i tv item k0 k1 hk hname hi htv
    · rw [fieldAt_setVal_ne _ _ _ _ _ hi']

theorem handleSection_ok (L : Lib) (tv tv' : TopValue) (item : ObjectItem) (k0 k1 : ObjectKey)
    (name : String) (hk : item.keys = [k0, k1]) (hname : getKeyAsString L k1 = .ok name)
    (h : handleSection L tv item = (tv', none)) :
    ∃ fs lb items fs', tv.structFields = some fs ∧ item.val = .object lb items ∧
      sectionItems L name (sectionFields fs) fs items = (fs', none) ∧
      tv' = tv.withFields fs' ∧ tv'.structFields = some fs' := by
  rw [handleSection_eq L tv item k0 k1 name hk hname] at h
  cases hfs : tv.structFields with
  | none => simp [hfs] at h
  | some fs =>
    cases hval : item.val with
    | literal tok => simp [hfs, hval] at h
    | list lb elems => simp [hfs, hval] at h
    | object lb items =>
      simp only [hfs, hval] at h
      generalize hr : sectionItems L name (sectionFields fs) fs items = r at h
      obtain ⟨fs', e⟩ := r
      simp at h
      obtain ⟨h1, h2⟩ := h
      subst h2
      exact ⟨fs, lb, items, fs', rfl, rfl, hr, h1.symm,
        by rw [← h1]; exact structFields_withFields _ _ _ _ _ _ _ _ hfs hr⟩

/-- Last assignment in a document: when the loop ends without error and the pair
`sect`/`key` occurs in the document, the field bound to it holds what `decodeInto` makes of
the value node of the last item that assigns it. -/
theorem decodeItems_last (L : Lib) (sect key : String) (node : Node) (root : List ObjectItem)
    (s0 s s' : List TField) (hs : fields s = fields s0)
    (h : decodeItems L (fields s0).1 (fields s0).2 s root = (s', none))
    (hlast : lastNode L sect key root = some node) :
    ∃ v0 v', fieldAt s sect key = some v0 ∧ decodeInto L key node v0 = .ok v' ∧
      fieldAt s' sect key = some v' := by
  induction root generalizing s with
  | nil => simp [lastNode] at hlast
  | cons item rest ih =>
    simp only [decodeItems] at h
    split at h
    swap
    · simp at h
    rename_i s1 h1
    rw [← hs] at h1
    have hs1 : fields s1 = fields s0 := by rw [decodeItem_fields _ _ _ _ _ _ _ h1, hs]
    simp only [lastNode] at hlast
    split at hlast
    · rename_i n hn
      cases hlast
      obtain ⟨v1, w, hv1, hd, hw⟩ := ih s1 hs1 h hn
      have ht := decodeItem_type L sect key s s1 item none h1
      rw [hv1] at ht
      cases hv0 : fieldAt s sect key with
      | none => simp [hv0] at ht
      | some v0 =>
        simp [hv0] at ht
        exact ⟨v0, w, rfl, by rw [← decodeInto_congr L key _ v1 v0 ht]; exact hd, hw⟩
    · rename_i hn
      split at hlast
      swap
      · simp at hlast
      rename_i hnamed
      have hfr := decodeItems_frame L sect key rest s0 s1 s' none hs1 h hn
      rw [hfr]
      simp only [sectionNamed] at hnamed
      split at hnamed
      swap
      · simp at hnamed
      rename_i k0 k1 hk
      simp only [Bool.and_eq_true, beq_iff_eq] at hnamed
      obtain ⟨h0, hname⟩ := hnamed
      split at hname
      swap
      · simp at hname
      rename_i name hname'
      simp at hname
      subst hname
      rw [decodeItem_section L _ _ s item k0 k1 name hk h0 hname'] at h1
      cases hi : (fields s).1 name with
      | none => simp [hi] at h1
      | some i =>
        cases htv : valAt s i with
        | none => simp [hi, htv] at h1
        | some tv =>
          simp only [hi, htv] at h1
          generalize hr : handleSection L tv item = r at h1
          obtain ⟨tv', e⟩ := r
          simp at h1
          obtain ⟨h1a, h1b⟩ := h1
          subst h1a h1b
          obtain ⟨fs, lb, items, fs', hfs, hval, hsec, -, hst⟩ :=
            handleSection_ok L tv tv' item k0 k1 name hk hname' hr
          have hnested : nestedItems item = items := by simp [nestedItems, hval]
          rw [hnested] at hlast
          obtain ⟨j, v0, v', hj, hv0, hd, hv'⟩ :=
            sectionItems_last L name key node _ items fs fs' hsec rfl hlast
          refine ⟨v0, v', ?_, hd, ?_⟩
          · rw [fieldAt_some s name key i j tv fs hi htv hfs hj, hv0]
          · have hsf := sectionItems_fields _ _ _ _ _ _ _ hsec
            rw [fieldAt_some (setVal s i tv') name key i j tv' fs' (by rw [fields_setVal]; exact hi)
              (valAt_setVal_same _ _ _ _ htv) hst (by rw [hsf]; exact hj), hv']

/-! ## The entry point `Decode` -/

/-- On a document that parses to a list of items, `Decode` is the document loop, with the
filename filled in the error. -/
theorem Decode_eq (L : Lib) (s : List TField) (filename data : String) (root : List ObjectItem)
    (hparse : L.parseBytes data = .ok ⟨.objectList root⟩) :
    Decode L (.ptrStruct s) filename data =
      (.ptrStruct (decodeItems L (fields s).1 (fields s).2 s root).1,
        (decodeItems L (fields s).1 (fields s).2 s root).2.map (fillFilename filename)) := by
  simp only [Decode, decode, hparse]
  generalize decodeItems L (fields s).1 (fields s).2 s root = r
  obtain ⟨s', e⟩ := r
  cases e <;> rfl

theorem Decode_ok (L : Lib) (s s' : List TField) (filename data : String)
    (root : List ObjectItem) (hparse : L.parseBytes data = .ok ⟨.objectList root⟩)
    (hdec : Decode L (.ptrStruct s) filename data = (.ptrStruct s', none)) :
    decodeItems L (fields s).1 (fields s).2 s root = (s', none) := by
  rw [Decode_eq L s filename data root hparse] at hdec
  generalize decodeItems L (fields s).1 (fields s).2 s root = r at hdec
  obtain ⟨s1, e⟩ := r
  cases e with
  | none =>
    simp at hdec
    rw [hdec]
  | some e => simp at hdec

theorem lastNodeIn_none_iff (L : Lib) (key : String) (items : List ObjectItem) :
    lastNodeIn L key items = none ↔ items.any (keyNamed L key) = false := by
  induction items with
  | nil => simp [lastNodeIn]
  | cons item rest ih =>
    simp only [lastNodeIn, List.any_cons, Bool.or_eq_false_iff]
    cases h : lastNodeIn L key rest with
    | some n =>
      have : ¬ (rest.any (keyNamed L key) = false) := fun hc => by
        rw [← ih, h] at hc
        cases hc
      simp [this]
    | none =>
      rw [h] at ih
      cases hn : keyNamed L key item <;> simp [ih.mp rfl]

/-- The pair `sect`/`key` occurs in the document exactly when it has a last assignment. -/
theorem lastNode_none_iff (L : Lib) (sect key : String) (root : List ObjectItem) :
    lastNode L sect key root = none ↔ occurs L sect key root = false := by
  induction root with
  | nil => simp [lastNode, occurs]
  | cons item rest ih =>
    simp only [occurs, List.any_cons, Bool.or_eq_false_iff] at ih ⊢
    simp only [lastNode]
    cases h : lastNode L sect key rest with
    | some n =>
      have : ¬ ((rest.any fun item =>
          sectionNamed L sect item && (nestedItems item).any (keyNamed L key)) = false) :=
        fun hc => by
          rw [← ih, h] at hc
          cases hc
      simp [this]
    | none =>
      rw [h] at ih
      simp only [ih.mp rfl, and_true]
      cases hn : sectionNamed L sect item
      · simp
      · simp [lastNodeIn_none_iff]

theorem lastNode_some_of_occurs (L : Lib) (sect key : String) (root : List ObjectItem)
    (h : occurs L sect key root = true) : ∃ node, lastNode L sect key root = some node := by
  cases hl : lastNode L sect key root with
  | some node => exact ⟨node, rfl⟩
  | none =>
    rw [lastNode_none_iff] at hl
    rw [hl] at h
    cases h

/-- A holder that `decodeInto` has written is set, whatever the value. -/
theorem decodeInto_isSet (L : Lib) (name : String) (node : Node) (v v' : GoValue)
    (h : decodeInto L name node v = .ok v') (hv : v.isHolder = true) :
    v'.isHolder = true ∧ v'.IsSet = some true := by
  cases v <;> simp [GoValue.isHolder, GoValue.IsSet] at hv <;> simp only [decodeInto] at h <;>
    split at h <;> cases h <;> exact ⟨rfl, rfl⟩

/-! ## Top-level keys -/

/-- No field is bound both by a section tag and by a value tag. -/
theorem fields_disjoint (s : List TField) (a b : String) (i : Nat)
    (h : (fields s).1 a = some i) (h' : (fields s).2 b = some i) : False := by
  simp only [fields] at h h'
  split at h
  · simp at h
  split at h'
  · simp at h'
  rename_i ha hb
  obtain ⟨f, hf, hp, _⟩ := bindIdx_some_valAt _ _ _ h
  obtain ⟨g, hg, hq, _⟩ := bindIdx_some_valAt _ _ _ h'
  rw [hf] at hg
  cases hg
  simp at hp hq
  exact ha (by rw [← hp.2, hq.1.2])

/-- Two value tags bound to the same field of the destination are the same tag. -/
theorem fields_value_inj (s : List TField) (a b : String) (i : Nat)
    (h : (fields s).2 a = some i) (h' : (fields s).2 b = some i) : a = b := by
  simp only [fields] at h h'
  split at h
  · simp at h
  split at h'
  · simp at h'
  obtain ⟨f, hf, hp, _⟩ := bindIdx_some_valAt _ _ _ h
  obtain ⟨g, hg, hq, _⟩ := bindIdx_some_valAt _ _ _ h'
  rw [hf] at hg
  cases hg
  simp at hp hq
  rw [← hp.2, ← hq.2]

theorem topFieldAt_setVal_ne (s : List TField) (key : String) (i : Nat) (tv : TopValue)
    (h : (fields s).2 key ≠ some i) : topFieldAt (setVal s i tv) key = topFieldAt s key := by
  simp only [topFieldAt, fields_setVal]
  cases h1 : (fields s).2 key with
  | none => rfl
  | some i0 =>
    have hne : i ≠ i0 := by
      rintro rfl
      exact h h1
    simp only [valAt_setVal_ne _ _ _ _ hne]

/-- One round of the document loop keeps the type of the value bound to a top-level key, and
keeps the value itself unless the item is that key. -/
theorem decodeItem_top (L : Lib) (key : String) (s s1 : List TField)
    (item : ObjectItem) (e : Option Err)
    (h : decodeItem L (fields s).1 (fields s).2 s item = (s1, e)) :
    (topFieldAt s1 key).map GoValue.zeroOf = (topFieldAt s key).map GoValue.zeroOf ∧
      (topKeyNamed key item = false → topFieldAt s1 key = topFieldAt s key) := by
  rcases decodeItem_cases L _ _ s s1 item e h with h | ⟨k, i, v, v', hk, hi, hv, hd, h, -⟩ |
    ⟨k0, k1, name, i, tv, hk, h0, hname, hi, htv, h, -⟩
  · rw [h]
    exact ⟨rfl, fun _ => rfl⟩
  · subst h
    by_cases hi' : (fields s).2 key = some i
    · have hkey := fields_value_inj s _ _ _ hi hi'
      simp only [topFieldAt, fields_setVal, hi', valAt_setVal_same _ _ _ _ hv, hv]
      refine ⟨by simp [decodeInto_zeroOf _ _ _ _ _ hd], fun hn => ?_⟩
      simp [topKeyNamed, hk, hkey] at hn
    · rw [topFieldAt_setVal_ne _ _ _ _ hi']
      exact ⟨rfl, fun _ => rfl⟩
  · subst h
    have hi' : (fields s).2 key ≠ some i := fun hc => fields_disjoint s _ _ _ hi hc
    rw [topFieldAt_setVal_ne _ _ _ _ hi']
    exact ⟨rfl, fun _ => rfl⟩

theorem decodeItems_top_frame (L : Lib) (key : String) (root : List ObjectItem)
    (s0 s s' : List TField) (e : Option Err) (hs : fields s = fields s0)
    (h : decodeItems L (fields s0).1 (fields s0).2 s root = (s', e))
    (hlast : lastTopNode key root = none) :
    topFieldAt s' key = topFieldAt s key := by
  induction root generalizing s with
  | nil =>
    simp [decodeItems] at h
    rw [← h.1]
  | cons item rest ih =>
    simp only [lastTopNode] at hlast
    split at hlast
    · simp at hlast
    rename_i hrest
    simp at hlast
    simp only [decodeItems] at h
    split at h
    · rename_i s1 h1
      rw [← hs] at h1
      rw [ih s1 (by rw [decodeItem_fields _ _ _ _ _ _ _ h1, hs]) h hrest]
      exact (decodeItem_top L key s s1 item none h1).2 hlast
    · rename_i s1 e1 h1
      simp at h
      rw [← hs] at h1
      rw [← h.1]
      exact (decodeItem_top L key s s1 item _ h1).2 hlast

/-- Last assignment of a top-level key that binds a value: the field holds what `decodeInto`
makes of the value node of the last item with that key. -/
theorem decodeItems_top_last (L : Lib) (key : String) (node : Node) (root : List ObjectItem)
    (s0 s s' : List TField) (v0 : GoValue) (hs : fields s = fields s0)
    (h : decodeItems L (fields s0).1 (fields s0).2 s root = (s', none))
    (hv0 : topFieldAt s key = some v0) (hlast : lastTopNode key root = some node) :
    ∃ v', decodeInto L key node v0 = .ok v' ∧ topFieldAt s' key = some v' := by
  induction root generalizing s v0 with
  | nil => simp [lastTopNode] at hlast
  | cons item rest ih =>
    simp only [decodeItems] at h
    split at h
    swap
    · simp at h
    rename_i s1 h1
    rw [← hs] at h1
    have hs1 : fields s1 = fields s0 := by rw [decodeItem_fields _ _ _ _ _ _ _ h1, hs]
    have ht := (decodeItem_top L key s s1 item none h1).1
    simp only [lastTopNode] at hlast
    split at hlast
    · rename_i n hn
      cases hlast
      rw [hv0] at ht
      cases hv1 : topFieldAt s1 key with
      | none => simp [hv1] at ht
      | some v1 =>
        simp [hv1] at ht
        obtain ⟨w, hd, hw⟩ := ih s1 v1 hs1 h hv1 hn
        exact ⟨w, by rw [← decodeInto_congr L key _ v1 v0 ht]; exact hd, hw⟩
    · rename_i hn
      split at hlast
      swap
      · simp at hlast
      rename_i hnamed
      cases hlast
      rw [decodeItems_top_frame L key rest s0 s1 s' none hs1 h hn]
      simp only [topKeyNamed] at hnamed
      split at hnamed
      swap
      · simp at hnamed
      rename_i k hk
      simp at hnamed
      subst hnamed
      simp only [topFieldAt] at hv0
      split at hv0
      · simp at hv0
      rename_i i hi
      split at hv0
      swap
      · simp at hv0
      rename_i v hv
      cases hv0
      simp only [decodeItem, hk, hi, hv] at h1
      split at h1
      · simp at h1
      rename_i v' hd
      simp at h1
      subst h1
      exact ⟨v', hd, by simp [topFieldAt, fields_setVal, hi, valAt_setVal_same _ _ _ _ hv]⟩

theorem lastTopNode_some_of_any (key : String) (root : List ObjectItem)
    (h : root.any (topKeyNamed key) = true) : ∃ node, lastTopNode key root = some node := by
  induction root with
  | nil => simp at h
  | cons item rest ih =>
    simp only [lastTopNode]
    cases hl : lastTopNode key rest with
    | some n => exact ⟨n, rfl⟩
    | none =>
      simp only [List.any_cons, Bool.or_eq_true] at h
      rcases h with h | h
      · exact ⟨item.val, by simp [h]⟩
      · obtain ⟨n, hn⟩ := ih h
        rw [hl] at hn
        cases hn

/-! ## Zero-initialised destinations -/

theorem valAt_map_val {V : Type} (g : V → V) (fs : List (FieldOf V)) (i : Nat) :
    valAt (fs.map fun f => { f with val := g f.val }) i = (valAt fs i).map g := by
  induction fs generalizing i with
  | nil => rfl
  | cons f fs ih =>
    cases i with
    | zero => rfl
    | succ i => simpa [valAt] using ih i

/-- In a zero-initialised destination every value bound to a section key is the zero value
of its type. -/
theorem fieldAt_zeroStruct (s : List TField) (sect key : String) (v : GoValue)
    (hz : zeroStruct s = s) (h : fieldAt s sect key = some v) : v = v.zeroOf := by
  rw [fieldAt_eq] at h
  cases h1 : (fields s).1 sect with
  | none => simp [h1] at h
  | some i =>
    cases h2 : valAt s i with
    | none => simp [h1, h2] at h
    | some tv =>
      have htv : tv = tv.zeroOf := by
        have := valAt_map_val TopValue.zeroOf s i
        rw [show (s.map fun f => { f with val := f.val.zeroOf }) = s from hz, h2] at this
        simpa using this
      cases tv with
      | leaf w =>
        have := leaf_no_key w key
        simp [h1, h2, this] at h
      | struct fs =>
        simp only [TopValue.zeroOf, TopValue.struct.injEq] at htv
        simp only [h1, h2, Option.bind, TopValue.structFields] at h
        cases h4 : sectionFields fs key with
        | none => simp [h4] at h
        | some j =>
          simp only [h4] at h
          have := valAt_map_val GoValue.zeroOf fs j
          rw [← htv, h] at this
          simpa using this

/-- A holder that is the zero value of its type is not set. -/
theorem zero_holder_not_set (v : GoValue) (hv : v.isHolder = true) (hz : v = v.zeroOf) :
    v.IsSet = some false := by
  cases v <;> simp [GoValue.isHolder, GoValue.IsSet] at hv <;> rw [hz] <;> rfl

/-! ## Literals -/

/-- The entries of a list of string literals decode to their unquoted texts, in order. -/
theorem decodeEntries_strings (L : Lib) (name : String) (pos : Pos) (toks : List Token)
    (i : Nat) (out : List String) (hty : ∀ t ∈ toks, t.type = .STRING)
    (h : decodeEntries L name pos i (toks.map Node.literal) = .ok out) :
    toks.map (Token.Value L) = out.map some := by
  induction toks generalizing i out with
  | nil =>
    simp [decodeEntries] at h
    subst h
    rfl
  | cons t ts ih =>
    have ht : t.type = .STRING := hty t (List.mem_cons_self _ _)
    simp only [List.map_cons, decodeEntries, ht] at h
    split at h
    · cases h
    rename_i str hstr
    split at h
    · cases h
    rename_i rv hrv
    cases h
    simp [hstr, ih (i + 1) rv (fun t' ht' => hty t' (List.mem_cons_of_mem _ ht')) hrv]

/-! ## Claims on `Decode` -/

/-- C1. On a document that `Decode` accepts, every holder that an item of the document
assigns is set afterwards, whatever value was assigned: a holder bound to a `sect`/`key`
pair that occurs in the document, and a holder bound to a top-level key that occurs in it.
In particular `decodeInto` of the literal `false` into a `Bool` holder gives a holder with
`Value() == false` and `IsSet() == true`. -/
theorem decode_assigned_isSet (L : Lib) (s s' : List TField) (filename data : String)
    (root : List ObjectItem) (hparse : L.parseBytes data = .ok ⟨.objectList root⟩)
    (hdec : Decode L (.ptrStruct s) filename data = (.ptrStruct s', none)) :
    (∀ sect key, occurs L sect key root = true →
      ∃ v0 v', fieldAt s sect key = some v0 ∧ fieldAt s' sect key = some v' ∧
        (v0.isHolder = true → v'.isHolder = true ∧ v'.IsSet = some true)) ∧
    (∀ key v0, root.any (topKeyNamed key) = true → topFieldAt s key = some v0 →
      v0.isHolder = true →
      ∃ v', topFieldAt s' key = some v' ∧ v'.isHolder = true ∧ v'.IsSet = some true) ∧
    (∀ (name : String) (pos : Pos) (json : Bool) (bs : Holder Bool),
      ∃ bs', decodeInto L name (.literal ⟨.BOOL, pos, "false", json⟩) (.holderBool bs) =
          .ok (.holderBool bs') ∧ bs'.Value = false ∧ bs'.IsSet = true) := by
  have hloop := Decode_ok L s s' filename data root hparse hdec
  refine ⟨?_, ?_, ?_⟩
  · intro sect key hocc
    obtain ⟨node, hnode⟩ := lastNode_some_of_occurs L sect key root hocc
    obtain ⟨v0, v', h0, hd, h'⟩ := decodeItems_last L sect key node root s s s' rfl hloop hnode
    exact ⟨v0, v', h0, h', fun hv => decodeInto_isSet L key node v0 v' hd hv⟩
  · intro key v0 hany h0 hv
    obtain ⟨node, hnode⟩ := lastTopNode_some_of_any key root hany
    obtain ⟨v', hd, h'⟩ := decodeItems_top_last L key node root s s s' v0 rfl hloop h0 hnode
    exact ⟨v', h', decodeInto_isSet L key node v0 v' hd hv⟩
  · intro name pos json bs
    exact ⟨⟨pos, false, true⟩, by
      simp [decodeInto, decodeBool, parseBool, Holder.SetValue, Holder.SetSource, Node.pos], rfl, rfl⟩

/-- Witness of C1: the document `conf` of `hconf_test.go` decoded into `&myConf{}`. -/
theorem decode_assigned_isSet_witness :
    Decode testLib (.ptrStruct myConf) "foo.conf" confText = (.ptrStruct myConfDecoded, none) ∧
    occurs testLib "foo" "likes_dogs" conf = true ∧
    ∃ v0 v', fieldAt myConf "foo" "likes_dogs" = some v0 ∧
      fieldAt myConfDecoded "foo" "likes_dogs" = some v' ∧
      (v0.isHolder = true → v'.isHolder = true ∧ v'.IsSet = some true) :=
  ⟨by decide, by decide,
    (decode_assigned_isSet testLib myConf myConfDecoded "foo.conf" confText conf
      (by rfl) (by decide)).1 "foo" "likes_dogs" (by decide)⟩

/-- C2. Whatever `Decode` returns on a document, a value whose `sect`/`key` pair does not
occur in the document is what it was before; so in a destination that was zero-initialised
every such holder has `IsSet() == false` and is the zero value of its type (zero source,
zero value).  The pair `bar`/`key` of a second section of the same shape is such a pair when
only `foo` is present. -/
theorem decode_unmentioned_zero (L : Lib) (s s' : List TField) (filename data : String)
    (root : List ObjectItem) (e : Option Err)
    (hparse : L.parseBytes data = .ok ⟨.objectList root⟩)
    (hdec : Decode L (.ptrStruct s) filename data = (.ptrStruct s', e))
    (sect key : String) (hocc : occurs L sect key root = false) :
    fieldAt s' sect key = fieldAt s sect key ∧
    (zeroStruct s = s → ∀ v, fieldAt s' sect key = some v → v.isHolder = true →
      v.IsSet = some false ∧ v = v.zeroOf) := by
  have hfr : fieldAt s' sect key = fieldAt s sect key := by
    rw [Decode_eq L s filename data root hparse] at hdec
    generalize hr : decodeItems L (fields s).1 (fields s).2 s root = r at hdec
    obtain ⟨s1, e1⟩ := r
    simp at hdec
    obtain ⟨h1, -⟩ := hdec
    subst h1
    exact decodeItems_frame L sect key root s s s1 e1 rfl hr
      ((lastNode_none_iff L sect key root).mpr hocc)
  refine ⟨hfr, fun hz v hv hh => ?_⟩
  rw [hfr] at hv
  have hzero := fieldAt_zeroStruct s sect key v hz hv
  exact ⟨zero_holder_not_set v hh hzero, hzero⟩

/-- Witness of C2: after `conf` is decoded into `&myConf{}`, the holder `Bar.LikesCats` is
not set. -/
theorem decode_unmentioned_zero_witness :
    fieldAt myConfDecoded "bar" "likes_cats" = some (.holderBool (Holder.zero false)) ∧
    ∀ v, fieldAt myConfDecoded "bar" "likes_cats" = some v → v.isHolder = true →
      v.IsSet = some false ∧ v = v.zeroOf :=
  ⟨by decide,
    (decode_unmentioned_zero testLib myConf myConfDecoded "foo.conf" confText conf none
      (by rfl) (by decide) "bar" "likes_cats" (by decide)).2 (by decide)⟩

/-- C3. On a document that `Decode` accepts, the value bound to a `sect`/`key` pair holds the
content of the last literal that the document assigns to the pair: a string literal in a
`String` holder leaves the unquoted text `Token.Value()`, a boolean literal in a `Bool` holder
leaves that boolean, and a list of string literals in a `StringSlice` holder leaves exactly
their unquoted texts, in document order. -/
theorem decode_stores_literal (L : Lib) (s s' : List TField) (filename data : String)
    (root : List ObjectItem) (hparse : L.parseBytes data = .ok ⟨.objectList root⟩)
    (hdec : Decode L (.ptrStruct s) filename data = (.ptrStruct s', none))
    (sect key : String) (node : Node) (hlast : lastNode L sect key root = some node) :
    (∀ h0 tok, fieldAt s sect key = some (.holderString h0) → node = .literal tok →
      tok.type = .STRING →
      ∃ h', fieldAt s' sect key = some (.holderString h') ∧ tok.Value L = some h'.Value ∧
        h'.IsSet = true) ∧
    (∀ h0 tok b, fieldAt s sect key = some (.holderBool h0) → node = .literal tok →
      tok.type = .BOOL → tok.text = formatBool b →
      ∃ h', fieldAt s' sect key = some (.holderBool h') ∧ h'.Value = b ∧ h'.IsSet = true) ∧
    (∀ h0 lbrack (toks : List Token), fieldAt s sect key = some (.holderStrings h0) →
      node = .list lbrack (toks.map Node.literal) → (∀ t ∈ toks, t.type = .STRING) →
      ∃ h', fieldAt s' sect key = some (.holderStrings h') ∧
        toks.map (Token.Value L) = h'.Value.map some ∧ h'.Value.length = toks.length ∧
        h'.IsSet = true) := by
  have hloop := Decode_ok L s s' filename data root hparse hdec
  obtain ⟨v0, v', h0, hd, h'⟩ := decodeItems_last L sect key node root s s s' rfl hloop hlast
  refine ⟨?_, ?_, ?_⟩
  · intro hh tok hf hn hty
    rw [h0] at hf
    cases hf
    subst hn
    simp only [decodeInto, decodeString, hty] at hd
    split at hd
    · cases hd
    rename_i v hv
    split at hv
    · cases hv
    rename_i str hstr
    cases hv
    cases hd
    exact ⟨_, h', hstr, rfl⟩
  · intro hh tok b hf hn hty htext
    rw [h0] at hf
    cases hf
    subst hn
    have hpb : parseBool tok.text = some b := by
      rw [htext]
      cases b <;> decide
    simp only [decodeInto, decodeBool, hty, hpb] at hd
    simp at hd
    subst hd
    exact ⟨_, h', rfl, rfl⟩
  · intro hh lbrack toks hf hn hty
    rw [h0] at hf
    cases hf
    subst hn
    simp only [decodeInto, decodeStringSlice] at hd
    split at hd
    · cases hd
    rename_i out hout
    cases hd
    have hmap := decodeEntries_strings L key _ toks 0 out hty hout
    refine ⟨_, h', hmap, ?_, rfl⟩
    have := congrArg List.length hmap
    simpa using this.symm

/-- Witness of C3: `friends = ["alice", "bob"]` of `conf` decoded into `Foo.Friends`. -/
theorem decode_stores_literal_witness :
    ∃ h', fieldAt myConfDecoded "foo" "friends" = some (.holderStrings h') ∧
      [tokenAt .STRING 99 6 13 "\"alice\"", tokenAt .STRING 108 6 22 "\"bob\""].map
        (Token.Value testLib) = h'.Value.map some ∧
      h'.Value.length = 2 ∧ h'.IsSet = true :=
  (decode_stores_literal testLib myConf myConfDecoded "foo.conf" confText conf
    (by rfl) (by decide) "foo" "friends"
    (.list ⟨"", 98, 6, 12⟩ [.literal (tokenAt .STRING 99 6 13 "\"alice\""),
      .literal (tokenAt .STRING 108 6 22 "\"bob\"")]) (by rfl)).2.2
    (Holder.zero []) ⟨"", 98, 6, 12⟩
    [tokenAt .STRING 99 6 13 "\"alice\"", tokenAt .STRING 108 6 22 "\"bob\""]
    (by decide) (by rfl) (by decide)

/-! ## The editor: one round of each loop -/

/-- What a successful run of the inner loop of the editor did at the first item. -/
theorem editItems_cons_ok (L : Lib) (sn key : String) (setNode : Node) (item : ObjectItem)
    (rest items' : List ObjectItem) (found : Bool)
    (h : editItems L sn key setNode (item :: rest) = .ok (items', found)) :
    ∃ k kn, item.keys = [k] ∧ getKeyAsString L k = .ok kn ∧
      ((kn = key ∧ items' = { item with val := setNode } :: rest ∧ found = true) ∨
       (kn ≠ key ∧ ∃ rest', editItems L sn key setNode rest = .ok (rest', found) ∧
          items' = item :: rest')) := by
  simp only [editItems] at h
  split at h
  swap
  · cases h
  rename_i k hk
  split at h
  · cases h
  rename_i kn hkn
  refine ⟨k, kn, hk, hkn, ?_⟩
  split at h
  · rename_i heq
    cases h
    exact Or.inl ⟨heq, rfl, rfl⟩
  · rename_i hne
    split at h
    · cases h
    rename_i rest' kf hrest
    cases h
    exact Or.inr ⟨hne, rest', hrest, rfl⟩

theorem editItems_cons_match (L : Lib) (sn key : String) (setNode : Node) (item : ObjectItem)
    (rest : List ObjectItem) (k : ObjectKey) (hk : item.keys = [k])
    (hkn : getKeyAsString L k = .ok key) :
    editItems L sn key setNode (item :: rest) = .ok ({ item with val := setNode } :: rest, true) := by
  simp [editItems, hk, hkn]

theorem editItems_cons_skip (L : Lib) (sn key kn : String) (setNode : Node) (item : ObjectItem)
    (rest : List ObjectItem) (k : ObjectKey) (hk : item.keys = [k])
    (hkn : getKeyAsString L k = .ok kn) (hne : kn ≠ key) :
    editItems L sn key setNode (item :: rest) =
      match editItems L sn key setNode rest with
      | .error e => .error e
      | .ok (rest', keyFound) => .ok (item :: rest', keyFound) := by
  simp [editItems, hk, hkn, hne]

/-- The new item `key = setNode` is labelled `key`. -/
theorem keyNamed_buildSetObjItem (L : Lib) (key : String) (setNode : Node) :
    keyNamed L key (buildSetObjItem key setNode) = true := by
  simp [keyNamed, buildSetObjItem, getKeyAsString]

theorem keyNamed_of_key (L : Lib) (key kn : String) (item : ObjectItem) (k : ObjectKey)
    (hk : item.keys = [k]) (hkn : getKeyAsString L k = .ok kn) :
    keyNamed L key item = (kn == key) := by
  simp [keyNamed, hk, hkn]

/-- What a successful run of the outer loop of the editor did at the first item: it kept the
item, which is not a section named `sect`, or it edited the block of the item, which is a
section named `sect`. -/
theorem editSections_cons_ok (L : Lib) (sect key : String) (setNode : Node)
    (setObjItem item : ObjectItem) (rest root' : List ObjectItem) (found : Bool)
    (h : editSections L sect key setNode setObjItem (item :: rest) = .ok (root', found)) :
    (sectionNamed L sect item = false ∧
      (∀ r, editSections L sect key setNode setObjItem (item :: r) =
        keepItem item (editSections L sect key setNode setObjItem r)) ∧
      ∃ rest', editSections L sect key setNode setObjItem rest = .ok (rest', found) ∧
        root' = item :: rest') ∨
    (∃ k0 k1 lbrace items items' keyFound rest' f, item.keys = [k0, k1] ∧
      k0.token.text = "section" ∧ getKeyAsString L k1 = .ok sect ∧
      item.val = .object lbrace items ∧
      editItems L sect key setNode items = .ok (items', keyFound) ∧
      editSections L sect key setNode setObjItem rest = .ok (rest', f) ∧ found = true ∧
      root' = { item with
                val := .object lbrace (if keyFound then items' else items' ++ [setObjItem]) }
              :: rest') := by
  have hkeep : ∀ r, keepItem item r = .ok (root', found) →
      ∃ rest', r = .ok (rest', found) ∧ root' = item :: rest' := by
    intro r hr
    unfold keepItem at hr
    split at hr
    · cases hr
    · cases hr
      exact ⟨_, rfl, rfl⟩
  simp only [editSections] at h
  split at h
  · rename_i k0 k1 hk
    split at h
    · rename_i h0
      split at h
      · cases h
      rename_i name hname
      split at h
      · rename_i hne
        refine Or.inl ⟨by simp [sectionNamed, hk, hname, hne], fun r => ?_, hkeep _ h⟩
        simp [editSections, hk, h0, hname, hne]
      · rename_i heq
        simp only [ne_eq, Decidable.not_not] at heq
        subst heq
        split at h
        swap
        · cases h
        rename_i lbrace items hval
        split at h
        · cases h
        rename_i items' keyFound hitems
        split at h
        · cases h
        rename_i rest' f hrest
        cases h
        exact Or.inr ⟨k0, k1, lbrace, items, items', keyFound, rest', f, hk, h0, hname, hval,
          hitems, hrest, rfl, rfl⟩
    · rename_i h0
      refine Or.inl ⟨by simp [sectionNamed, hk, h0], fun r => ?_, hkeep _ h⟩
      simp [editSections, hk, h0]
  · rename_i hk
    refine Or.inl ⟨?_, fun r => ?_, hkeep _ h⟩
    · unfold sectionNamed
      split
      · rename_i k0 k1 hk'
        exact absurd hk' (hk k0 k1)
      · rfl
    · simp only [editSections]

theorem sectionNamed_of_keys (L : Lib) (sect : String) (item : ObjectItem) (k0 k1 : ObjectKey)
    (hk : item.keys = [k0, k1]) (h0 : k0.token.text = "section")
    (hname : getKeyAsString L k1 = .ok sect) : sectionNamed L sect item = true := by
  simp [sectionNamed, hk, h0, hname]

/-! ## The editor: what a successful edit returns -/

/-- The inner loop of the editor, when it succeeds, computes `replaceOrAppend`. -/
theorem editItems_replaceOrAppend (L : Lib) (sn key : String) (setNode : Node)
    (setObjItem : ObjectItem) (items items' : List ObjectItem) (found : Bool)
    (h : editItems L sn key setNode items = .ok (items', found)) :
    (if found then items' else items' ++ [setObjItem]) =
      replaceOrAppend L key setNode setObjItem items := by
  induction items generalizing items' found with
  | nil =>
    simp [editItems] at h
    obtain ⟨rfl, rfl⟩ := h
    rfl
  | cons item rest ih =>
    obtain ⟨k, kn, hk, hkn, h | h⟩ := editItems_cons_ok L sn key setNode item rest items' found h
    · obtain ⟨rfl, rfl, rfl⟩ := h
      simp [replaceOrAppend, keyNamed_of_key L kn kn item k hk hkn]
    · obtain ⟨hne, rest', hrest, rfl⟩ := h
      have := ih rest' found hrest
      simp only [replaceOrAppend, keyNamed_of_key L key kn item k hk hkn]
      simp only [beq_iff_eq, hne, if_false]
      rw [← this]
      cases found <;> simp

/-- What `replaceOrAppend` returns, spelled out. -/
theorem replaceOrAppend_spec (L : Lib) (key : String) (setNode : Node) (setObjItem : ObjectItem)
    (items : List ObjectItem) :
    (∃ a it b, items = a ++ it :: b ∧ (∀ x ∈ a, keyNamed L key x = false) ∧
      keyNamed L key it = true ∧
      replaceOrAppend L key setNode setObjItem items = a ++ { it with val := setNode } :: b) ∨
    ((∀ x ∈ items, keyNamed L key x = false) ∧
      replaceOrAppend L key setNode setObjItem items = items ++ [setObjItem]) := by
  induction items with
  | nil => exact Or.inr ⟨by simp, rfl⟩
  | cons item rest ih =>
    by_cases hn : keyNamed L key item = true
    · exact Or.inl ⟨[], item, rest, rfl, by simp, hn, by simp [replaceOrAppend, hn]⟩
    · simp only [Bool.not_eq_true] at hn
      rcases ih with ⟨a, it, b, h1, h2, h3, h4⟩ | ⟨h1, h2⟩
      · refine Or.inl ⟨item :: a, it, b, by simp [h1], ?_, h3, by simp [replaceOrAppend, hn, h4]⟩
        intro x hx
        simp only [List.mem_cons] at hx
        rcases hx with rfl | hx
        · exact hn
        · exact h2 x hx
      · refine Or.inr ⟨?_, by simp [replaceOrAppend, hn, h2]⟩
        intro x hx
        simp only [List.mem_cons] at hx
        rcases hx with rfl | hx
        · exact hn
        · exact h1 x hx

/-- The outer loop of the editor, when it succeeds, computes `editEvery`; it reports a section
as found exactly when some item is a section named `sect`, and every such item has a block. -/
theorem editSections_editEvery (L : Lib) (sect key : String) (setNode : Node)
    (setObjItem : ObjectItem) (root root' : List ObjectItem) (found : Bool)
    (h : editSections L sect key setNode setObjItem root = .ok (root', found)) :
    root' = editEvery L sect key setNode setObjItem root ∧
    found = root.any (sectionNamed L sect) ∧
    (∀ item ∈ root, sectionNamed L sect item = true → ∃ lbrace items, item.val = .object lbrace items)
    := by
  induction root generalizing root' found with
  | nil =>
    simp [editSections] at h
    obtain ⟨rfl, rfl⟩ := h
    exact ⟨rfl, rfl, by simp⟩
  | cons item rest ih =>
    rcases editSections_cons_ok L sect key setNode setObjItem item rest root' found h with
      ⟨hn, -, rest', hrest, rfl⟩ |
      ⟨k0, k1, lbrace, items, items', keyFound, rest', f, hk, h0, hname, hval, hitems, hrest,
        rfl, rfl⟩
    · obtain ⟨h1, h2, h3⟩ := ih rest' found hrest
      refine ⟨by rw [h1]; simp [editEvery, hn], by simp [hn, h2], ?_⟩
      intro x hx hx'
      simp only [List.mem_cons] at hx
      rcases hx with rfl | hx
      · rw [hn] at hx'
        cases hx'
      · exact h3 x hx hx'
    · obtain ⟨h1, h2, h3⟩ := ih rest' f hrest
      have hn := sectionNamed_of_keys L sect item k0 k1 hk h0 hname
      have hro := editItems_replaceOrAppend L sect key setNode setObjItem items items' keyFound
        hitems
      refine ⟨?_, by simp [hn], ?_⟩
      · simp only [editEvery, List.map_cons, hn, if_true, hval]
        rw [← hro, h1]
        rfl
      · intro x hx hx'
        simp only [List.mem_cons] at hx
        rcases hx with rfl | hx
        · exact ⟨lbrace, items, hval⟩
        · exact h3 x hx hx'

/-- What a successful edit of the tree returns. -/
theorem editTree_ok (L : Lib) (treePos : Option Pos) (root root' : List ObjectItem)
    (sect key : String) (value : Dyn) (h : editTree L treePos root sect key value = .ok root') :
    ∃ setNode, buildSetNode L value = some setNode ∧
      (∀ item ∈ root, sectionNamed L sect item = true →
        ∃ lbrace items, item.val = .object lbrace items) ∧
      root' = if root.any (sectionNamed L sect)
        then editEvery L sect key setNode (buildSetObjItem key setNode) root
        else root ++ [buildSetSection L sect (buildSetObjItem key setNode)] := by
  unfold editTree at h
  split at h
  · split at h <;> cases h
  rename_i setNode hset
  split at h
  · cases h
  rename_i r found hr
  obtain ⟨h1, h2, h3⟩ := editSections_editEvery L sect key setNode _ root r found hr
  refine ⟨setNode, hset, h3, ?_⟩
  rw [← h2]
  cases found with
  | true =>
    simp at h
    rw [← h, h1]
    simp
  | false =>
    simp at h
    rw [← h]
    have hnone : ∀ item ∈ root, sectionNamed L sect item = false := by
      intro item hi
      have := h2.symm
      rw [List.any_eq_false] at this
      simpa using this item hi
    have hid : editEvery L sect key setNode (buildSetObjItem key setNode) root = root := by
      unfold editEvery
      conv_rhs => rw [← List.map_id root]
      apply List.map_congr_left
      intro item hi
      simp [hnone item hi]
    simp [h1, hid]

/-! ## The edited value read back -/

theorem keyNamed_setVal (L : Lib) (key : String) (item : ObjectItem) (n : Node) :
    keyNamed L key { item with val := n } = keyNamed L key item := rfl

theorem sectionNamed_setVal (L : Lib) (sect : String) (item : ObjectItem) (n : Node) :
    sectionNamed L sect { item with val := n } = sectionNamed L sect item := rfl

/-- After `replaceOrAppend` on a block with at most one item labelled `key`, the last item
labelled `key` holds `setNode`. -/
theorem lastNodeIn_replaceOrAppend (L : Lib) (key : String) (setNode : Node)
    (items : List ObjectItem) (hc : (items.filter (keyNamed L key)).length ≤ 1) :
    lastNodeIn L key (replaceOrAppend L key setNode (buildSetObjItem key setNode) items) =
      some setNode := by
  induction items with
  | nil =>
    simp only [replaceOrAppend, lastNodeIn, keyNamed_buildSetObjItem, if_true]
    rfl
  | cons item rest ih =>
    by_cases hn : keyNamed L key item = true
    · simp only [replaceOrAppend, hn, if_true, lastNodeIn]
      have hrest : rest.any (keyNamed L key) = false := by
        simp only [List.filter_cons, hn, if_true, List.length_cons] at hc
        have h0 : (rest.filter (keyNamed L key)).length = 0 := by omega
        rw [List.length_eq_zero, List.filter_eq_nil_iff] at h0
        rw [List.any_eq_false]
        intro x hx
        simpa using h0 x hx
      rw [(lastNodeIn_none_iff L key rest).mpr hrest]
      simp [keyNamed_setVal, hn]
    · simp only [Bool.not_eq_true] at hn
      simp only [replaceOrAppend, hn, lastNodeIn]
      simp only [List.filter_cons, hn] at hc
      simp [ih hc]

/-- After `editEvery` on a document whose sections named `sect` have at most one item
labelled `key` each, the last assignment of `sect`/`key` is `setNode`. -/
theorem lastNode_editEvery (L : Lib) (sect key : String) (setNode : Node)
    (root : List ObjectItem)
    (hc : ∀ item ∈ root, sectionNamed L sect item = true → keyCount L key item ≤ 1)
    (hobj : ∀ item ∈ root, sectionNamed L sect item = true →
      ∃ lbrace items, item.val = .object lbrace items) :
    lastNode L sect key (editEvery L sect key setNode (buildSetObjItem key setNode) root) =
      if root.any (sectionNamed L sect) then some setNode else none := by
  induction root with
  | nil => rfl
  | cons item rest ih =>
    have ih' := ih (fun x hx => hc x (List.mem_cons_of_mem _ hx))
      (fun x hx => hobj x (List.mem_cons_of_mem _ hx))
    simp only [editEvery, List.map_cons] at ih' ⊢
    simp only [lastNode, ih', List.any_cons]
    by_cases hrest : rest.any (sectionNamed L sect) = true
    · simp [hrest]
    · simp only [hrest, if_false, Bool.not_eq_true] at hrest ⊢
      simp only [hrest, Bool.or_false]
      by_cases hn : sectionNamed L sect item = true
      · obtain ⟨lbrace, items, hval⟩ := hobj item (List.mem_cons_self _ _) hn
        have hcount := hc item (List.mem_cons_self _ _) hn
        simp only [keyCount, nestedItems, hval] at hcount
        simp only [hn, if_true, hval, sectionNamed_setVal, nestedItems]
        exact lastNodeIn_replaceOrAppend L key setNode items hcount
      · simp [hn]

theorem lastNode_append_single (L : Lib) (sect key : String) (root : List ObjectItem)
    (x : ObjectItem) (hroot : root.any (sectionNamed L sect) = false)
    (hx : sectionNamed L sect x = true) :
    lastNode L sect key (root ++ [x]) = lastNodeIn L key (nestedItems x) := by
  induction root with
  | nil =>
    simp only [List.nil_append, lastNode, hx, if_true]
  | cons item rest ih =>
    simp only [List.any_cons, Bool.or_eq_false_iff] at hroot
    have h := ih hroot.2
    show lastNode L sect key (item :: (rest ++ [x])) = _
    simp only [lastNode, h, hroot.1]
    cases lastNodeIn L key (nestedItems x) <;> simp

/-- The new section block is a section named `sect` when the library unquotes the quoted
name back. -/
theorem sectionNamed_buildSetSection (L : Lib) (sect : String) (setObjItem : ObjectItem)
    (hq : L.unquote false (L.quote sect) = some sect) :
    sectionNamed L sect (buildSetSection L sect setObjItem) = true := by
  simp [sectionNamed, buildSetSection, getKeyAsString, Token.Value, hq]

/-- After a successful edit of a document whose sections named `sect` have at most one item
labelled `key` each, the last assignment of `sect`/`key` is the node built from `value`. -/
theorem editTree_lastNode (L : Lib) (treePos : Option Pos) (root root' : List ObjectItem)
    (sect key : String) (value : Dyn) (h : editTree L treePos root sect key value = .ok root')
    (hq : root.any (sectionNamed L sect) = false → L.unquote false (L.quote sect) = some sect)
    (hc : ∀ item ∈ root, sectionNamed L sect item = true → keyCount L key item ≤ 1) :
    ∃ setNode, buildSetNode L value = some setNode ∧ lastNode L sect key root' = some setNode := by
  obtain ⟨setNode, hset, hobj, hroot⟩ := editTree_ok L treePos root root' sect key value h
  refine ⟨setNode, hset, ?_⟩
  cases hany : root.any (sectionNamed L sect) with
  | true =>
    rw [hroot, hany, if_pos rfl, lastNode_editEvery L sect key setNode root hc hobj, hany]
    rfl
  | false =>
    rw [hroot, hany]
    simp only [Bool.false_eq_true, if_false]
    rw [lastNode_append_single L sect key root _ hany
      (sectionNamed_buildSetSection L sect _ (hq hany))]
    simp only [buildSetSection, nestedItems, lastNodeIn, keyNamed_buildSetObjItem, if_true]
    rfl

theorem decodeEntries_quoted (L : Lib) (name : String) (pos : Pos) (i : Nat) (v : List String)
    (hq : ∀ ent ∈ v, L.unquote false (L.quote ent) = some ent) :
    decodeEntries L name pos i
      (v.map fun ent => Node.literal ⟨.STRING, Pos.zero, L.quote ent, false⟩) = .ok v := by
  induction v generalizing i with
  | nil => rfl
  | cons ent rest ih =>
    simp [decodeEntries, Token.Value, hq ent (List.mem_cons_self _ _),
      ih (i + 1) (fun x hx => hq x (List.mem_cons_of_mem _ hx))]

/-- The node the editor builds for `value`, decoded into a holder of the fitting type, gives
a holder that is set to `value`. -/
theorem buildSetNode_decodeInto (L : Lib) (name : String) (value : Dyn) (v0 : GoValue)
    (hq : L.readsBack value) (hfit : value.fits v0 = true) :
    ∃ setNode v', buildSetNode L value = some setNode ∧
      decodeInto L name setNode v0 = .ok v' ∧ value.storedIn v' = true := by
  cases value <;> cases v0 <;> simp [Dyn.fits] at hfit <;> simp only [Lib.readsBack] at hq
  · rename_i v ss
    refine ⟨_, .holderString ⟨Pos.zero, v, true⟩, rfl, ?_, ?_⟩
    · simp [decodeInto, decodeString, Token.Value, hq, Holder.SetValue, Holder.SetSource, Node.pos]
    · simp [Dyn.storedIn, Holder.IsSet, Holder.Value]
  · rename_i v is
    refine ⟨_, .holderInt64 ⟨Pos.zero, v, true⟩, rfl, ?_, ?_⟩
    · simp [decodeInto, decodeInt, hq, Holder.SetValue, Holder.SetSource, Node.pos]
    · simp [Dyn.storedIn, Holder.IsSet, Holder.Value]
  · rename_i v is
    refine ⟨_, .holderInt64 ⟨Pos.zero, v, true⟩, rfl, ?_, ?_⟩
    · simp [decodeInto, decodeInt, hq, Holder.SetValue, Holder.SetSource, Node.pos]
    · simp [Dyn.storedIn, Holder.IsSet, Holder.Value]
  · rename_i b bs
    refine ⟨_, .holderBool ⟨Pos.zero, b, true⟩, rfl, ?_, ?_⟩
    · cases b <;>
        simp [decodeInto, decodeBool, formatBool, parseBool, Holder.SetValue, Holder.SetSource,
          Node.pos]
    · simp [Dyn.storedIn, Holder.IsSet, Holder.Value]
  · rename_i v bs
    refine ⟨_, .holderStrings ⟨Pos.zero, v, true⟩, rfl, ?_, ?_⟩
    · simp [decodeInto, decodeStringSlice, Node.pos, decodeEntries_quoted L name Pos.zero 0 v hq,
        Holder.SetValue, Holder.SetSource]
    · simp [Dyn.storedIn, Holder.IsSet, Holder.Value]

/-! ## Claims on the editor -/

/-- C4, counterexample.  The document holds `screensize` twice in section `foo`.  The edit
`foo`/`screensize` := `"giant"` succeeds and replaces the first of the two items; decoding the
edited document succeeds and leaves `Foo.Screensize` with the value of the second item, not
`"giant"`. -/
theorem edit_redecode_counterexample :
    ∃ root' s' h,
      editTree testLib none dupKeyDoc "foo" "screensize" (.string "giant") = .ok root' ∧
      decodeItems testLib (fields myConf).1 (fields myConf).2 myConf root' = (s', none) ∧
      fieldAt s' "foo" "screensize" = some (.holderString h) ∧ h.Value = "b" ∧
      h.Value ≠ "giant" :=
  ⟨_, _, _, rfl, rfl, rfl, by decide, by decide⟩

/-- C4, amended.  For a value that the library reads back (`Token.Value()` unquotes what
`strconv.Quote` quoted, `ParseInt` parses what `%d` printed), decoding the node that the
editor builds for the value into the holder of the fitting type gives a holder set to that
value (a string in `String`, an `int64` or a widened `int32` in `Int64`, a bool in `Bool`, a
`[]string` in `StringSlice`, same elements in the same order).  So after a successful edit
of a document in which no section named `sect` has two items labelled `key`, a decode of the
edited document that is accepted leaves the holder bound to `sect`/`key` set to the value;
when the edit had to append a new section, the library has to unquote the quoted section
name back as well. -/
theorem edit_literal_inverse (L : Lib) (value : Dyn) (hq : L.readsBack value) :
    (∀ (name : String) (v0 : GoValue), value.fits v0 = true →
      ∃ setNode v', buildSetNode L value = some setNode ∧
        decodeInto L name setNode v0 = .ok v' ∧ value.storedIn v' = true) ∧
    (∀ (treePos : Option Pos) (root root' : List ObjectItem) (sect key : String)
      (s s' : List TField) (v0 : GoValue),
      editTree L treePos root sect key value = .ok root' →
      (root.any (sectionNamed L sect) = false → L.unquote false (L.quote sect) = some sect) →
      (∀ item ∈ root, sectionNamed L sect item = true → keyCount L key item ≤ 1) →
      decodeItems L (fields s).1 (fields s).2 s root' = (s', none) →
      fieldAt s sect key = some v0 → value.fits v0 = true →
      ∃ v', fieldAt s' sect key = some v' ∧ value.storedIn v' = true) := by
  refine ⟨fun name v0 hfit => buildSetNode_decodeInto L name value v0 hq hfit, ?_⟩
  intro treePos root root' sect key s s' v0 hedit hsect hc hdec hv0 hfit
  obtain ⟨setNode, hset, hlast⟩ := editTree_lastNode L treePos root root' sect key value hedit
    hsect hc
  obtain ⟨w0, w', hw0, hd, hw'⟩ := decodeItems_last L sect key setNode root' s s s' rfl hdec hlast
  rw [hv0] at hw0
  cases hw0
  obtain ⟨setNode', v', hset', hd', hst⟩ := buildSetNode_decodeInto L key value v0 hq hfit
  rw [hset] at hset'
  cases hset'
  rw [hd] at hd'
  cases hd'
  exact ⟨w', hw', hst⟩

/-- Witness of C4: `EditAndSave(path, "foo", "screensize", "giant")` on `conf`, then a decode
of the edited tree into `&myConf{}`. -/
theorem edit_literal_inverse_witness :
    ∃ root' s',
      editTree testLib none conf "foo" "screensize" (.string "giant") = .ok root' ∧
      decodeItems testLib (fields myConf).1 (fields myConf).2 myConf root' = (s', none) ∧
      ∃ v', fieldAt s' "foo" "screensize" = some v' ∧ (Dyn.string "giant").storedIn v' = true :=
  ⟨_, _, rfl, rfl,
    (edit_literal_inverse testLib (.string "giant")
      (show testLib.unquote false (testLib.quote "giant") = some "giant" by decide)).2 none conf _ "foo" "screensize"
      myConf _ (.holderString (Holder.zero "")) rfl (fun _ => by decide) (by decide) rfl
      (by decide) (by decide)⟩

theorem editEvery_not_named (L : Lib) (sect key : String) (setNode : Node)
    (setObjItem : ObjectItem) (l : List ObjectItem)
    (h : ∀ x ∈ l, sectionNamed L sect x = false) :
    editEvery L sect key setNode setObjItem l = l := by
  unfold editEvery
  conv_rhs => rw [← List.map_id l]
  apply List.map_congr_left
  intro item hi
  simp [h item hi]

theorem editEvery_getElem (L : Lib) (sect key : String) (setNode : Node)
    (setObjItem : ObjectItem) (l : List ObjectItem) (n : Nat) (x : ObjectItem)
    (hx : l[n]? = some x) :
    (sectionNamed L sect x = false → (editEvery L sect key setNode setObjItem l)[n]? = some x) ∧
    (∀ lbrace items, sectionNamed L sect x = true → x.val = .object lbrace items →
      (editEvery L sect key setNode setObjItem l)[n]? =
        some { x with val := .object lbrace (replaceOrAppend L key setNode setObjItem items) }) := by
  simp only [editEvery, List.getElem?_map, hx, Option.map_some']
  constructor
  · intro hn
    simp [hn]
  · intro lbrace items hn hval
    simp [hn, hval]

/-- C6.  When the first section named `sect` is `item`, a successful edit returns the items
before it unchanged, then `item` with the same labels and a block that is either the old
block with only the value of its first item labelled `key` replaced by the new node (same
labels, same place, same length) or, when no item is labelled `key`, the old block followed
by the one item `key = setNode`; after it as many items as before, every one that is not a
section named `sect` unchanged. -/
theorem edit_first_section (L : Lib) (treePos : Option Pos) (pre post : List ObjectItem)
    (item : ObjectItem) (root' : List ObjectItem) (sect key : String) (value : Dyn)
    (hpre : ∀ x ∈ pre, sectionNamed L sect x = false)
    (hitem : sectionNamed L sect item = true)
    (h : editTree L treePos (pre ++ item :: post) sect key value = .ok root') :
    ∃ setNode lbrace items items' post', buildSetNode L value = some setNode ∧
      item.val = .object lbrace items ∧
      root' = pre ++ { item with val := .object lbrace items' } :: post' ∧
      ((∃ a it b, items = a ++ it :: b ∧ (∀ x ∈ a, keyNamed L key x = false) ∧
          keyNamed L key it = true ∧ items' = a ++ { it with val := setNode } :: b) ∨
        ((∀ x ∈ items, keyNamed L key x = false) ∧
          items' = items ++ [buildSetObjItem key setNode])) ∧
      post'.length = post.length ∧
      (∀ (n : Nat) (x : ObjectItem), post[n]? = some x → sectionNamed L sect x = false →
        post'[n]? = some x) := by
  obtain ⟨setNode, hset, hobj, hroot⟩ := editTree_ok L treePos _ root' sect key value h
  obtain ⟨lbrace, items, hval⟩ := hobj item (by simp) hitem
  have hany : (pre ++ item :: post).any (sectionNamed L sect) = true := by
    simp [hitem]
  rw [hany, if_pos rfl] at hroot
  refine ⟨setNode, lbrace, items,
    replaceOrAppend L key setNode (buildSetObjItem key setNode) items,
    editEvery L sect key setNode (buildSetObjItem key setNode) post, hset, hval, ?_,
    replaceOrAppend_spec L key setNode _ items, by simp [editEvery], ?_⟩
  · rw [hroot]
    have hp := editEvery_not_named L sect key setNode (buildSetObjItem key setNode) pre hpre
    simp only [editEvery, List.map_append, List.map_cons] at hp ⊢
    rw [hp]
    simp [hitem, hval]
  · intro n x hx hn
    exact (editEvery_getElem L sect key setNode _ post n x hx).1 hn

/-- Witness of C6: `EditAndSave(path, "foo", "screensize", "giant")` on `conf`
(`TestEditInplace`). -/
theorem edit_first_section_witness :
    ∃ root', editTree testLib none ([] ++ confFoo :: []) "foo" "screensize" (.string "giant") =
        .ok root' ∧
      ∃ setNode lbrace items items' post', buildSetNode testLib (.string "giant") = some setNode ∧
        confFoo.val = .object lbrace items ∧
        root' = [] ++ { confFoo with val := .object lbrace items' } :: post' ∧
        ((∃ a it b, items = a ++ it :: b ∧ (∀ x ∈ a, keyNamed testLib "screensize" x = false) ∧
            keyNamed testLib "screensize" it = true ∧
            items' = a ++ { it with val := setNode } :: b) ∨
          ((∀ x ∈ items, keyNamed testLib "screensize" x = false) ∧
            items' = items ++ [buildSetObjItem "screensize" setNode])) ∧
        post'.length = ([] : List ObjectItem).length ∧
        (∀ (n : Nat) (x : ObjectItem), ([] : List ObjectItem)[n]? = some x →
          sectionNamed testLib "foo" x = false → post'[n]? = some x) :=
  ⟨_, rfl, edit_first_section testLib none [] [] confFoo _ "foo" "screensize" (.string "giant")
    (by simp) (by decide) rfl⟩

/-- C7, counterexample.  The document has two sections named `foo`, each with one item
`screensize`.  The edit `foo`/`screensize` := `"giant"` succeeds, and the block of the second
section is not what it was: its item `screensize` holds the new literal. -/
theorem edit_later_section_counterexample :
    ∃ root' later later',
      editTree testLib none dupSectionDoc "foo" "screensize" (.string "giant") = .ok root' ∧
      dupSectionDoc[1]? = some later ∧ root'[1]? = some later' ∧
      sectionNamed testLib "foo" later = true ∧
      (nestedItems later').map valueText = [some "\"giant\""] ∧
      nestedItems later' ≠ nestedItems later :=
  ⟨_, _, _, rfl, rfl, rfl, by decide, by decide,
    fun h => absurd (congrArg (List.map valueText) h) (by decide)⟩

/-- C7, amended.  A successful edit edits every section named `sect`, the first and the later
ones alike: each item of the root that is a section named `sect` has a block, and stands at
the same place afterwards with that block edited by `replaceOrAppend` (the value of its first
item labelled `key` replaced, or `key = setNode` appended); every item that is not a section
named `sect` stands at the same place unchanged. -/
theorem edit_every_section (L : Lib) (treePos : Option Pos) (root root' : List ObjectItem)
    (sect key : String) (value : Dyn)
    (h : editTree L treePos root sect key value = .ok root') :
    ∃ setNode, buildSetNode L value = some setNode ∧
      ∀ (n : Nat) (item : ObjectItem), root[n]? = some item →
        (sectionNamed L sect item = true →
          ∃ lbrace items, item.val = .object lbrace items ∧
            root'[n]? = some { item with
              val := .object lbrace
                (replaceOrAppend L key setNode (buildSetObjItem key setNode) items) }) ∧
        (sectionNamed L sect item = false → root'[n]? = some item) := by
  obtain ⟨setNode, hset, hobj, hroot⟩ := editTree_ok L treePos root root' sect key value h
  refine ⟨setNode, hset, fun n item hn => ?_⟩
  have hmem : item ∈ root := List.getElem?_mem hn
  by_cases hany : root.any (sectionNamed L sect) = true
  · rw [hany, if_pos rfl] at hroot
    rw [hroot]
    have hg := editEvery_getElem L sect key setNode (buildSetObjItem key setNode) root n item hn
    refine ⟨fun hnamed => ?_, hg.1⟩
    obtain ⟨lbrace, items, hval⟩ := hobj item hmem hnamed
    exact ⟨lbrace, items, hval, hg.2 lbrace items hnamed hval⟩
  · simp only [Bool.not_eq_true] at hany
    rw [hany] at hroot
    simp only [Bool.false_eq_true, if_false] at hroot
    have hlt : n < root.length := by
      rw [List.getElem?_eq_some_iff] at hn
      exact hn.1
    refine ⟨fun hnamed => ?_, fun _ => ?_⟩
    · rw [List.any_eq_false] at hany
      exact absurd hnamed (hany item hmem)
    · rw [hroot, List.getElem?_append_left hlt]
      exact hn

/-- Witness of C7 as amended: the edit of the document with two sections named `foo`. -/
theorem edit_every_section_witness :
    ∃ root', editTree testLib none dupSectionDoc "foo" "screensize" (.string "giant") = .ok root' ∧
      ∃ setNode, buildSetNode testLib (.string "giant") = some setNode ∧
        ∀ (n : Nat) (item : ObjectItem), dupSectionDoc[n]? = some item →
          (sectionNamed testLib "foo" item = true →
            ∃ lbrace items, item.val = .object lbrace items ∧
              root'[n]? = some { item with
                val := .object lbrace
                  (replaceOrAppend testLib "screensize" setNode
                    (buildSetObjItem "screensize" setNode) items) }) ∧
          (sectionNamed testLib "foo" item = false → root'[n]? = some item) :=
  ⟨_, rfl, edit_every_section testLib none dupSectionDoc _ "foo" "screensize" (.string "giant")
    rfl⟩

/-! ## The editor run twice -/

theorem editItems_idem (L : Lib) (sn key : String) (setNode : Node)
    (items items' : List ObjectItem) (found : Bool)
    (h : editItems L sn key setNode items = .ok (items', found)) :
    editItems L sn key setNode
        (if found then items' else items' ++ [buildSetObjItem key setNode]) =
      .ok ((if found then items' else items' ++ [buildSetObjItem key setNode]), true) := by
  induction items generalizing items' found with
  | nil =>
    simp [editItems] at h
    obtain ⟨rfl, rfl⟩ := h
    simp [editItems, buildSetObjItem, getKeyAsString]
  | cons item rest ih =>
    obtain ⟨k, kn, hk, hkn, h | h⟩ := editItems_cons_ok L sn key setNode item rest items' found h
    · obtain ⟨rfl, rfl, rfl⟩ := h
      simp only [if_true]
      exact editItems_cons_match L sn kn setNode { item with val := setNode } rest k hk hkn
    · obtain ⟨hne, rest', hrest, rfl⟩ := h
      have := ih rest' found hrest
      have hshape : (if found = true then item :: rest'
          else item :: rest' ++ [buildSetObjItem key setNode]) =
          item :: (if found = true then rest' else rest' ++ [buildSetObjItem key setNode]) := by
        cases found <;> rfl
      rw [hshape, editItems_cons_skip L sn key kn setNode item _ k hk hkn hne, this]

/-- The outer loop of the editor, run on its own result, returns that result. -/
theorem editSections_idem (L : Lib) (sect key : String) (setNode : Node)
    (root root' : List ObjectItem) (found : Bool)
    (h : editSections L sect key setNode (buildSetObjItem key setNode) root = .ok (root', found)) :
    editSections L sect key setNode (buildSetObjItem key setNode) root' = .ok (root', found) := by
  induction root generalizing root' found with
  | nil =>
    simp [editSections] at h
    obtain ⟨rfl, rfl⟩ := h
    rfl
  | cons item rest ih =>
    rcases editSections_cons_ok L sect key setNode _ item rest root' found h with
      ⟨-, hkeep, rest', hrest, rfl⟩ |
      ⟨k0, k1, lbrace, items, items', keyFound, rest', f, hk, h0, hname, hval, hitems, hrest,
        rfl, rfl⟩
    · rw [hkeep rest', ih rest' found hrest]
      rfl
    · have hin := editItems_idem L sect key setNode items items' keyFound hitems
      have hout := ih rest' f hrest
      simp only [editSections, hk, h0, hname, if_true, ne_eq, not_true_eq_false, if_false, hin,
        hout]

/-- Appending a section block that the loop leaves as it is and reports as found. -/
theorem editSections_append_single (L : Lib) (sect key : String) (setNode : Node)
    (setObjItem x : ObjectItem) (root : List ObjectItem)
    (h : editSections L sect key setNode setObjItem root = .ok (root, false))
    (hx : editSections L sect key setNode setObjItem [x] = .ok ([x], true)) :
    editSections L sect key setNode setObjItem (root ++ [x]) = .ok (root ++ [x], true) := by
  induction root with
  | nil => exact hx
  | cons item rest ih =>
    rcases editSections_cons_ok L sect key setNode _ item rest _ false h with
      ⟨-, hkeep, rest', hrest, hroot⟩ | ⟨_, _, _, _, _, _, _, _, _, _, _, _, _, _, hf, _⟩
    · simp only [List.cons.injEq, true_and] at hroot
      subst hroot
      rw [List.cons_append, hkeep, ih hrest]
      rfl
    · cases hf

theorem editSections_buildSetSection (L : Lib) (sect key : String) (setNode : Node)
    (hq : L.unquote false (L.quote sect) = some sect) :
    editSections L sect key setNode (buildSetObjItem key setNode)
        [buildSetSection L sect (buildSetObjItem key setNode)] =
      .ok ([buildSetSection L sect (buildSetObjItem key setNode)], true) := by
  simp [editSections, buildSetSection, getKeyAsString, Token.Value, hq, editItems,
    buildSetObjItem]

/-- Where the library reads the quoted section name back, a successful edit run again on its
own result returns that result, whether the first run replaced a value, appended a key or
appended a new section.  The round trip is needed in the last case only, when no item of the
root is a section named `sect`: the second run must read the new block as the section
`sect`. -/
theorem edit_idempotent (L : Lib) (treePos treePos' : Option Pos) (root root' : List ObjectItem)
    (sect key : String) (value : Dyn)
    (hq : root.any (sectionNamed L sect) = false → L.unquote false (L.quote sect) = some sect)
    (h : editTree L treePos root sect key value = .ok root') :
    editTree L treePos' root' sect key value = .ok root' := by
  unfold editTree at h ⊢
  split at h
  · split at h <;> cases h
  rename_i setNode hset
  split at h
  · cases h
  rename_i r found hr
  have hidem := editSections_idem L sect key setNode root r found hr
  have hfound := (editSections_editEvery L sect key setNode _ root r found hr).2.1
  cases found with
  | true =>
    simp only [if_true, Except.ok.injEq] at h
    subst h
    simp [hidem]
  | false =>
    simp only [Bool.false_eq_true, if_false, Except.ok.injEq] at h
    subst h
    rw [editSections_append_single L sect key setNode _ _ r hidem
      (editSections_buildSetSection L sect key setNode (hq hfound.symm))]
    rfl

/-- The edit of `TestEditNewSection`, which appends the section `bar`, run twice. -/
theorem edit_idempotent_witness :
    ∃ root', editTree testLib none conf "bar" "screensize" (.string "giant") = .ok root' ∧
      editTree testLib none root' "bar" "screensize" (.string "giant") = .ok root' :=
  ⟨_, rfl, edit_idempotent testLib none none conf _ "bar" "screensize" (.string "giant")
    (fun _ => by decide) rfl⟩

/-! ## The accessors -/

theorem setVal_getElem_ne {V : Type} (fs : List (FieldOf V)) (i j : Nat) (v : V) (h : i ≠ j) :
    (setVal fs i v)[j]? = fs[j]? := by
  induction fs generalizing i j with
  | nil => rfl
  | cons f fs ih =>
    cases i with
    | zero =>
      cases j with
      | zero => exact absurd rfl h
      | succ j => simp [setVal]
    | succ i =>
      cases j with
      | zero => simp [setVal]
      | succ j => simpa [setVal] using ih i j (by omega)

theorem setVal_getElem_same {V : Type} (fs : List (FieldOf V)) (i : Nat) (v : V) :
    (setVal fs i v)[i]? = fs[i]?.map fun f => { f with val := v } := by
  induction fs generalizing i with
  | nil => rfl
  | cons f fs ih =>
    cases i with
    | zero => simp [setVal]
    | succ i => simpa [setVal] using ih i

/-- What a successful `Set` resolved and wrote. -/
theorem Set_ok (L : Lib) (s : List TField) (t' : Target) (sect key : String) (value : Dyn)
    (h : Set L (.ptrStruct s) sect key value = (t', none)) :
    ∃ i fs j v v', (fields s).1 sect = some i ∧ valAt s i = some (.struct fs) ∧
      sectionFields fs key = some j ∧ valAt fs j = some v ∧
      setValue L sect key value v = .ok v' ∧
      t' = .ptrStruct (setVal s i (.struct (setVal fs j v'))) := by
  simp only [Set] at h
  split at h
  · simp at h
  rename_i i hi
  split at h
  · simp at h
  rename_i sectionValue hsv
  split at h
  · simp at h
  rename_i fs hfs
  split at h
  · simp at h
  rename_i j hj
  split at h
  · simp at h
  rename_i v hv
  split at h
  · simp at h
  rename_i v' hv'
  simp only [Prod.mk.injEq, and_true] at h
  cases sectionValue with
  | struct fs0 =>
    simp only [TopValue.structFields, Option.some.injEq] at hfs
    subst hfs
    exact ⟨i, fs0, j, v, v', hi, hsv, hj, hv, hv', h.symm⟩
  | leaf w =>
    have : fs = [] := by
      cases w <;> simp [TopValue.structFields] at hfs <;> exact hfs
    subst this
    simp [valAt] at hv

/-- What the type switch of `Set` stores when it succeeds. -/
theorem setValue_ok (L : Lib) (sect key : String) (value : Dyn) (v v' : GoValue)
    (h : setValue L sect key value v = .ok v') :
    v.isHolder = true ∧ v'.IsSet = some true ∧ v'.Source = v.Source ∧
      (value.fits v' = true → value.storedIn v' = true) ∧
      (∀ x bs, value = .string x → v' = .holderBool bs → x = formatBool bs.Value) ∧
      (∀ x bs, value = .string x → v' = .holderStrings bs →
        L.unmarshalStrings x = some bs.Value) := by
  cases value <;> cases v <;> simp only [setValue] at h <;> try cases h
  all_goals first
    | (refine ⟨rfl, rfl, rfl, ?_, ?_, ?_⟩ <;>
        simp [Dyn.fits, Dyn.storedIn, Holder.SetValue, Holder.IsSet, Holder.Value])
    | skip
  · rename_i x bs
    split at h
    · rename_i hx
      cases h
      refine ⟨rfl, rfl, rfl, ?_, ?_, ?_⟩ <;>
        simp [Dyn.fits, Dyn.storedIn, Holder.SetValue, Holder.IsSet, Holder.Value, hx, formatBool]
    · split at h
      · rename_i hx
        cases h
        refine ⟨rfl, rfl, rfl, ?_, ?_, ?_⟩ <;>
          simp [Dyn.fits, Dyn.storedIn, Holder.SetValue, Holder.IsSet, Holder.Value, hx,
            formatBool]
      · cases h
  · rename_i x bs
    split at h
    · cases h
    rename_i l hl
    cases h
    refine ⟨rfl, rfl, rfl, ?_, ?_, ?_⟩ <;>
      simp [Dyn.fits, Dyn.storedIn, Holder.SetValue, Holder.IsSet, Holder.Value, hl]

theorem setValue_zeroOf (L : Lib) (sect key : String) (value : Dyn) (v v' : GoValue)
    (h : setValue L sect key value v = .ok v') : v'.zeroOf = v.zeroOf := by
  cases value <;> cases v <;> simp only [setValue] at h <;> try cases h
  all_goals first
    | rfl
    | (split at h <;> first | (cases h; rfl) | skip)
  all_goals first
    | cases h
    | (split at h <;> first | (cases h; rfl) | cases h)

/-- C9.  A successful `Set` writes one holder, the one bound to `sect`/`key`: that field of
the section struct keeps its declaration and its type, ends set and keeps its recorded
source; every other field of that section struct, and every other field of the destination
(the other sections, also of the same shape, and the top-level fields) is the same as
before, with its value, set flag and source; the bindings are the same as before.  `Set`
takes no document and no file: its result is a function of the destination, the two names
and the value. -/
theorem set_changes_one_holder (L : Lib) (s : List TField) (t' : Target) (sect key : String)
    (value : Dyn) (h : Set L (.ptrStruct s) sect key value = (t', none)) :
    ∃ s' i j fs fs' v v', t' = .ptrStruct s' ∧
      (fields s).1 sect = some i ∧ valAt s i = some (.struct fs) ∧
      sectionFields fs key = some j ∧ valAt fs j = some v ∧
      valAt s' i = some (.struct fs') ∧ valAt fs' j = some v' ∧
      v.isHolder = true ∧ v'.IsSet = some true ∧ v'.Source = v.Source ∧ v'.zeroOf = v.zeroOf ∧
      fs'[j]? = fs[j]?.map (fun f => { f with val := v' }) ∧
      (∀ j', j' ≠ j → fs'[j']? = fs[j']?) ∧
      s'[i]? = s[i]?.map (fun f => { f with val := .struct fs' }) ∧
      (∀ i', i' ≠ i → s'[i']? = s[i']?) ∧
      fields s' = fields s ∧ sectionFields fs' = sectionFields fs := by
  obtain ⟨i, fs, j, v, v', hi, hsv, hj, hv, hset, rfl⟩ := Set_ok L s t' sect key value h
  obtain ⟨h1, h2, h3, -, -, -⟩ := setValue_ok L sect key value v v' hset
  exact ⟨_, i, j, fs, setVal fs j v', v, v', rfl, hi, hsv, hj, hv,
    valAt_setVal_same _ _ _ _ hsv, valAt_setVal_same _ _ _ _ hv, h1, h2, h3,
    setValue_zeroOf L sect key value v v' hset, setVal_getElem_same _ _ _,
    fun j' hj' => setVal_getElem_ne _ _ _ _ (Ne.symm hj'), setVal_getElem_same _ _ _,
    fun i' hi' => setVal_getElem_ne _ _ _ _ (Ne.symm hi'), fields_setVal _ _ _,
    sectionFields_setVal _ _ _⟩

/-- Witness of C9: `Set(c, "foo", "screensize", "sunset")` of `TestEditNewSection`. -/
theorem set_changes_one_holder_witness :
    Set testLib (.ptrStruct myConfDecoded) "foo" "screensize" (.string "sunset") =
      (.ptrStruct myConfSunset, none) ∧
    ∃ s' i j fs fs' v v', Target.ptrStruct myConfSunset = .ptrStruct s' ∧
      (fields myConfDecoded).1 "foo" = some i ∧ valAt myConfDecoded i = some (.struct fs) ∧
      sectionFields fs "screensize" = some j ∧ valAt fs j = some v ∧
      valAt s' i = some (.struct fs') ∧ valAt fs' j = some v' ∧
      v.isHolder = true ∧ v'.IsSet = some true ∧ v'.Source = v.Source ∧ v'.zeroOf = v.zeroOf ∧
      fs'[j]? = fs[j]?.map (fun f => { f with val := v' }) ∧
      (∀ j', j' ≠ j → fs'[j']? = fs[j']?) ∧
      s'[i]? = myConfDecoded[i]?.map (fun f => { f with val := .struct fs' }) ∧
      (∀ i', i' ≠ i → s'[i']? = myConfDecoded[i']?) ∧
      fields s' = fields myConfDecoded ∧ sectionFields fs' = sectionFields fs :=
  ⟨by decide,
    set_changes_one_holder testLib myConfDecoded (.ptrStruct myConfSunset) "foo" "screensize"
      (.string "sunset") (by decide)⟩

/-- C10.  After a successful `Set`, `Get` with the same section and key succeeds and returns
the reference that it returns before the `Set` (the holder that `Set` assigned) with the
same position; the holder is set, and its value is the value set: the string in a `String`
holder, the integer in an `Int64` holder, the boolean in a `Bool` holder, the strings in a
`StringSlice` holder; for a string set on a `Bool` holder the boolean that the string spells,
for a string set on a `StringSlice` holder the list that `json.Unmarshal` read from it. -/
theorem set_get_roundtrip (L : Lib) (s : List TField) (t' : Target) (sect key : String)
    (value : Dyn) (h : Set L (.ptrStruct s) sect key value = (t', none)) :
    ∃ r v v' pos, Get (.ptrStruct s) sect key = .ok (r, v, pos) ∧
      Get t' sect key = .ok (r, v', pos) ∧ v'.isHolder = true ∧ v'.IsSet = some true ∧
      (value.fits v' = true → value.storedIn v' = true) ∧
      (∀ x bs, value = .string x → v' = .holderBool bs → x = formatBool bs.Value) ∧
      (∀ x bs, value = .string x → v' = .holderStrings bs →
        L.unmarshalStrings x = some bs.Value) := by
  obtain ⟨i, fs, j, v, v', hi, hsv, hj, hv, hset, rfl⟩ := Set_ok L s t' sect key value h
  obtain ⟨h1, h2, h3, h4, h5, h6⟩ := setValue_ok L sect key value v v' hset
  have hpos : ∃ pos, v.Source = some pos := by
    cases v <;> simp [GoValue.isHolder, GoValue.IsSet] at h1 <;> exact ⟨_, rfl⟩
  obtain ⟨pos, hpos⟩ := hpos
  have hh : v'.isHolder = true := by simp [GoValue.isHolder, h2]
  refine ⟨⟨i, j⟩, v, v', pos, ?_, ?_, hh, h2, h4, h5, h6⟩
  · simp [Get, hi, hsv, TopValue.structFields, hj, hv, hpos]
  · simp [Get, fields_setVal, hi, valAt_setVal_same _ _ _ _ hsv, TopValue.structFields,
      sectionFields_setVal, hj, valAt_setVal_same _ _ _ _ hv, h3, hpos]

/-- Witness of C10: `Set(c, "foo", "screensize", "sunset")` of `TestEditNewSection`, then
`Get(c, "foo", "screensize")`. -/
theorem set_get_roundtrip_witness :
    ∃ r v v' pos, Get (.ptrStruct myConfDecoded) "foo" "screensize" = .ok (r, v, pos) ∧
      Get (.ptrStruct myConfSunset) "foo" "screensize" = .ok (r, v', pos) ∧
      v'.isHolder = true ∧ v'.IsSet = some true ∧
      ((Dyn.string "sunset").fits v' = true → (Dyn.string "sunset").storedIn v' = true) ∧
      (∀ x bs, Dyn.string "sunset" = .string x → v' = .holderBool bs →
        x = formatBool bs.Value) ∧
      (∀ x bs, Dyn.string "sunset" = .string x → v' = .holderStrings bs →
        testLib.unmarshalStrings x = some bs.Value) :=
  set_get_roundtrip testLib myConfDecoded (.ptrStruct myConfSunset) "foo" "screensize"
    (.string "sunset") (by decide)

/-! ## When `Set` succeeds -/

/-- The fields that `Get` and `Set` resolve for a bound `sect`/`key` pair. -/
theorem fieldAt_resolve (s : List TField) (sect key : String) (v : GoValue)
    (h : fieldAt s sect key = some v) :
    ∃ i fs j, (fields s).1 sect = some i ∧ valAt s i = some (.struct fs) ∧
      sectionFields fs key = some j ∧ valAt fs j = some v := by
  rw [fieldAt_eq] at h
  cases h1 : (fields s).1 sect with
  | none => simp [h1] at h
  | some i =>
    cases h2 : valAt s i with
    | none => simp [h1, h2] at h
    | some tv =>
      cases tv with
      | leaf w =>
        have := leaf_no_key w key
        simp [h1, h2, this] at h
      | struct fs =>
        simp only [h1, h2, Option.bind, TopValue.structFields] at h
        cases h4 : sectionFields fs key with
        | none => simp [h4] at h
        | some j =>
          simp only [h4] at h
          exact ⟨i, fs, j, rfl, h2, h4, h⟩

/-- On a bound pair `Set` is its type switch applied to the bound field. -/
theorem Set_bound (L : Lib) (s : List TField) (sect key : String) (value : Dyn) (i j : Nat)
    (fs : List SField) (v : GoValue) (hi : (fields s).1 sect = some i)
    (hfs : valAt s i = some (.struct fs)) (hj : sectionFields fs key = some j)
    (hv : valAt fs j = some v) :
    Set L (.ptrStruct s) sect key value =
      match setValue L sect key value v with
      | .error e => (.ptrStruct s, some e)
      | .ok v' => (.ptrStruct (setVal s i (.struct (setVal fs j v'))), none) := by
  simp only [Set, hi, hfs, TopValue.structFields, hj, hv]
  cases setValue L sect key value v <;> rfl

/-- The type switch of `Set` succeeds exactly in the accepted cases. -/
theorem setValue_accepted (L : Lib) (sect key : String) (value : Dyn) (v : GoValue) :
    (∃ v', setValue L sect key value v = .ok v') ↔ value.accepted L v = true := by
  cases value <;> cases v <;> simp [setValue, Dyn.accepted]
  · rename_i x bs
    by_cases h1 : x = "true"
    · simp [h1]
    · by_cases h2 : x = "false"
      · simp [h2]
      · simp [h1, h2]
  · rename_i x bs
    cases L.unmarshalStrings x <;> simp

/-- C11.  On a bound `sect`/`key` pair whose field is `v`, `Set` succeeds exactly in the
accepted cases (`Dyn.accepted`): a string on a `String` holder, a string that is exactly
`true` or `false` on a `Bool` holder, an `int32` or `int64` on an `Int64` holder, a bool on a
`Bool` holder, a `[]string` on a `StringSlice` holder (and a string on a `StringSlice` holder
when `json.Unmarshal` reads it as a list).  In every other case it fails, and on a failure
the destination is what it was.  On success the bound holder is set to the value: a string
on a `String` holder is stored as it is, a string on a `Bool` holder as the boolean it
spells.  So a string on an `Int64` holder, a string other than `true` and `false` on a `Bool`
holder, and a value of any other dynamic type all fail. -/
theorem set_succeeds_exactly (L : Lib) (s : List TField) (sect key : String) (value : Dyn)
    (v : GoValue) (hv : fieldAt s sect key = some v) :
    ((Set L (.ptrStruct s) sect key value).2 = none ↔ value.accepted L v = true) ∧
    ((Set L (.ptrStruct s) sect key value).2 ≠ none →
      (Set L (.ptrStruct s) sect key value).1 = .ptrStruct s) ∧
    (∀ s', Set L (.ptrStruct s) sect key value = (.ptrStruct s', none) →
      ∃ v', fieldAt s' sect key = some v' ∧ v'.IsSet = some true ∧
        (value.fits v' = true → value.storedIn v' = true) ∧
        (∀ x bs, value = .string x → v' = .holderBool bs → x = formatBool bs.Value)) ∧
    (∀ x is, value = .string x → v = .holderInt64 is →
      (Set L (.ptrStruct s) sect key value).2 ≠ none) ∧
    (∀ x bs, value = .string x → v = .holderBool bs → x ≠ "true" → x ≠ "false" →
      (Set L (.ptrStruct s) sect key value).2 ≠ none) ∧
    (∀ typeName, value = .other typeName → (Set L (.ptrStruct s) sect key value).2 ≠ none) := by
  obtain ⟨i, fs, j, hi, hfs, hj, hvj⟩ := fieldAt_resolve s sect key v hv
  have hset := Set_bound L s sect key value i j fs v hi hfs hj hvj
  have hacc := setValue_accepted L sect key value v
  have hiff : (Set L (.ptrStruct s) sect key value).2 = none ↔ value.accepted L v = true := by
    rw [hset, ← hacc]
    cases hsv : setValue L sect key value v <;> simp
  have hfail : ∀ (_ : value.accepted L v = false),
      (Set L (.ptrStruct s) sect key value).2 ≠ none := by
    intro hf hc
    rw [hiff, hf] at hc
    cases hc
  refine ⟨hiff, ?_, ?_, ?_, ?_, ?_⟩
  · intro hne
    rw [hset] at hne ⊢
    cases hsv : setValue L sect key value v with
    | error e => rfl
    | ok v' => simp [hsv] at hne
  · intro s' hs'
    rw [hset] at hs'
    cases hsv : setValue L sect key value v with
    | error e => simp [hsv] at hs'
    | ok v' =>
      simp only [hsv, Prod.mk.injEq, Target.ptrStruct.injEq, and_true] at hs'
      subst hs'
      obtain ⟨-, h2, -, h4, h5, -⟩ := setValue_ok L sect key value v v' hsv
      refine ⟨v', ?_, h2, h4, h5⟩
      rw [fieldAt_some _ sect key i j (.struct (setVal fs j v')) (setVal fs j v')
        (by rw [fields_setVal]; exact hi) (valAt_setVal_same _ _ _ _ hfs) rfl
        (by rw [sectionFields_setVal]; exact hj)]
      exact valAt_setVal_same _ _ _ _ hvj
  · rintro x is rfl rfl
    exact hfail rfl
  · rintro x bs rfl rfl h1 h2
    exact hfail (by simp [Dyn.accepted, h1, h2])
  · rintro typeName rfl
    exact hfail (by cases v <;> rfl)

/-- Witness of C11: on the decoded `myConf`, the string `true` on the `Bool` holder
`Foo.LikesDogs`. -/
theorem set_succeeds_exactly_witness :
    ((Set testLib (.ptrStruct myConfDecoded) "foo" "likes_dogs" (.string "true")).2 = none ↔
      (Dyn.string "true").accepted testLib (.holderBool ⟨⟨"", 81, 5, 15⟩, false, true⟩) = true) ∧
    (Set testLib (.ptrStruct myConfDecoded) "foo" "likes_dogs" (.string "true")).2 = none :=
  have h := set_succeeds_exactly testLib myConfDecoded "foo" "likes_dogs" (.string "true")
    (.holderBool ⟨⟨"", 81, 5, 15⟩, false, true⟩) (by decide)
  ⟨h.1, h.1.mpr (by decide)⟩

/-! ## The loops end at the first error -/

theorem sectionItems_append (L : Lib) (sn : String) (vf : String → Option Nat)
    (a b : List ObjectItem) (out : List SField) :
    sectionItems L sn vf out (a ++ b) =
      match sectionItems L sn vf out a with
      | (out', none) => sectionItems L sn vf out' b
      | (out', some e) => (out', some e) := by
  induction a generalizing out with
  | nil => rfl
  | cons item rest ih =>
    simp only [List.cons_append, sectionItems]
    generalize sectionItem L sn vf out item = r
    obtain ⟨o, e⟩ := r
    cases e with
    | none => exact ih o
    | some e => rfl

theorem decodeItems_append (L : Lib) (sf vf : String → Option Nat)
    (a b : List ObjectItem) (out : List TField) :
    decodeItems L sf vf out (a ++ b) =
      match decodeItems L sf vf out a with
      | (out', none) => decodeItems L sf vf out' b
      | (out', some e) => (out', some e) := by
  induction a generalizing out with
  | nil => rfl
  | cons item rest ih =>
    simp only [List.cons_append, decodeItems]
    generalize decodeItem L sf vf out item = r
    obtain ⟨o, e⟩ := r
    cases e with
    | none => exact ih o
    | some e => rfl

/-- The loop of `decode` on a document whose first part decodes without error and whose next
item fails: the destination is what the item left, the error is the error of the item. -/
theorem decodeItems_first_error (L : Lib) (sf vf : String → Option Nat)
    (pre post : List ObjectItem) (item : ObjectItem) (s s1 s2 : List TField) (e : Err)
    (hpre : decodeItems L sf vf s pre = (s1, none))
    (hitem : decodeItem L sf vf s1 item = (s2, some e)) :
    decodeItems L sf vf s (pre ++ item :: post) = (s2, some e) := by
  rw [decodeItems_append, hpre]
  simp only [decodeItems, hitem]

theorem sectionItems_first_error (L : Lib) (sn : String) (vf : String → Option Nat)
    (pre post : List ObjectItem) (item : ObjectItem) (out out1 out2 : List SField) (e : Err)
    (hpre : sectionItems L sn vf out pre = (out1, none))
    (hitem : sectionItem L sn vf out1 item = (out2, some e)) :
    sectionItems L sn vf out (pre ++ item :: post) = (out2, some e) := by
  rw [sectionItems_append, hpre]
  simp only [sectionItems, hitem]

/-- A field of the destination that holds a struct holds a struct with the same bindings after
one round of the document loop. -/
theorem decodeItem_structAt (L : Lib) (sf vf : String → Option Nat) (s s1 : List TField)
    (item : ObjectItem) (e : Option Err) (i : Nat) (fs : List SField)
    (h : decodeItem L sf vf s item = (s1, e)) (hfs : valAt s i = some (.struct fs)) :
    ∃ fs1, valAt s1 i = some (.struct fs1) ∧ sectionFields fs1 = sectionFields fs := by
  rcases decodeItem_cases L sf vf s s1 item e h with h | ⟨k, i', v, v', -, -, hv, -, h, -⟩ |
    ⟨k0, k1, name, i', tv, hk, h0, hname, hi, htv, h, -⟩
  · subst h
    exact ⟨fs, hfs, rfl⟩
  · subst h
    have hne : i' ≠ i := by
      rintro rfl
      rw [hfs] at hv
      cases hv
    exact ⟨fs, by rw [valAt_setVal_ne _ _ _ _ hne]; exact hfs, rfl⟩
  · subst h
    by_cases hii : i' = i
    · subst hii
      rw [hfs] at htv
      cases htv
      rw [valAt_setVal_same _ _ _ _ hfs, handleSection_eq L _ item k0 k1 name hk hname]
      simp only [TopValue.structFields]
      cases hval : item.val with
      | literal tok => exact ⟨fs, rfl, rfl⟩
      | list lb elems => exact ⟨fs, rfl, rfl⟩
      | object lb items =>
        dsimp only
        generalize hr : sectionItems L name (sectionFields fs) fs items = r
        obtain ⟨fs', e'⟩ := r
        exact ⟨fs', rfl, sectionItems_fields _ _ _ _ _ _ _ hr⟩
    · exact ⟨fs, by rw [valAt_setVal_ne _ _ _ _ hii]; exact hfs, rfl⟩

theorem decodeItems_structAt (L : Lib) (sf vf : String → Option Nat) (root : List ObjectItem)
    (s s1 : List TField) (e : Option Err) (i : Nat) (fs : List SField)
    (h : decodeItems L sf vf s root = (s1, e)) (hfs : valAt s i = some (.struct fs)) :
    ∃ fs1, valAt s1 i = some (.struct fs1) ∧ sectionFields fs1 = sectionFields fs := by
  induction root generalizing s fs with
  | nil =>
    simp [decodeItems] at h
    rw [← h.1]
    exact ⟨fs, hfs, rfl⟩
  | cons item rest ih =>
    simp only [decodeItems] at h
    split at h
    · rename_i s2 h2
      obtain ⟨fs2, hfs2, hsf2⟩ := decodeItem_structAt L sf vf s s2 item none i fs h2 hfs
      obtain ⟨fs1, hfs1, hsf1⟩ := ih s2 fs2 h hfs2
      exact ⟨fs1, hfs1, by rw [hsf1, hsf2]⟩
    · rename_i s2 e2 h2
      simp at h
      rw [← h.1]
      exact decodeItem_structAt L sf vf s s2 item _ i fs h2 hfs

/-! ## Unknown sections and keys -/

theorem Decode_of_error (L : Lib) (s s' : List TField) (filename data : String)
    (root : List ObjectItem) (e : Err) (hparse : L.parseBytes data = .ok ⟨.objectList root⟩)
    (h : decodeItems L (fields s).1 (fields s).2 s root = (s', some e)) :
    Decode L (.ptrStruct s) filename data = (.ptrStruct s', some (fillFilename filename e)) := by
  rw [Decode_eq L s filename data root hparse, h]
  rfl

/-- A document whose first part fails, or whose next item fails, is not accepted. -/
theorem decodeItems_fails (L : Lib) (sf vf : String → Option Nat)
    (pre post : List ObjectItem) (item : ObjectItem) (s s1 : List TField) (e1 : Option Err)
    (hpre : decodeItems L sf vf s pre = (s1, e1))
    (hitem : (decodeItem L sf vf s1 item).2 ≠ none) :
    (decodeItems L sf vf s (pre ++ item :: post)).2 ≠ none := by
  rw [decodeItems_append, hpre]
  cases e1 with
  | some e => simp
  | none =>
    simp only [decodeItems]
    generalize hr : decodeItem L sf vf s1 item = r at hitem
    obtain ⟨s2, e2⟩ := r
    cases e2 with
    | none => exact absurd rfl hitem
    | some e => simp

theorem Decode_fails (L : Lib) (s : List TField) (filename data : String)
    (root : List ObjectItem) (hparse : L.parseBytes data = .ok ⟨.objectList root⟩)
    (h : (decodeItems L (fields s).1 (fields s).2 s root).2 ≠ none) :
    (Decode L (.ptrStruct s) filename data).2 ≠ none := by
  rw [Decode_eq L s filename data root hparse]
  generalize decodeItems L (fields s).1 (fields s).2 s root = r at h
  obtain ⟨s', e⟩ := r
  cases e with
  | none => exact absurd rfl h
  | some e => simp

/-- C12.  Let the document be `pre ++ item :: post` and let the loop of `decode` leave `s1`
and `e1` on `pre`.  When `item` is a section item whose name has no section-tag binding,
when it is a top-level key without value-tag binding, or when it is a bound section whose
block holds a key without value-tag binding in the section struct, `Decode` returns an
error: the item is never skipped.  When everything before the item decodes without error,
the error is the unknown-section error at the name, respectively the unknown-key error at
the key, with the filename filled in, and the destination is what the items before left. -/
theorem decode_unknown_fails (L : Lib) (s s1 : List TField) (filename data : String)
    (pre post : List ObjectItem) (item : ObjectItem) (e1 : Option Err)
    (hparse : L.parseBytes data = .ok ⟨.objectList (pre ++ item :: post)⟩)
    (hpre : decodeItems L (fields s).1 (fields s).2 s pre = (s1, e1)) :
    (∀ k0 k1 name, item.keys = [k0, k1] → k0.token.text = "section" →
      getKeyAsString L k1 = .ok name → (fields s).1 name = none →
      (Decode L (.ptrStruct s) filename data).2 ≠ none ∧
      (e1 = none → Decode L (.ptrStruct s) filename data =
        (.ptrStruct s1, some (fillFilename filename (.posError k1.pos (.unknownSection name)))))) ∧
    (∀ k, item.keys = [k] → (fields s).2 k.token.text = none →
      (Decode L (.ptrStruct s) filename data).2 ≠ none ∧
      (e1 = none → Decode L (.ptrStruct s) filename data =
        (.ptrStruct s1,
          some (fillFilename filename (.posError k.pos (.unknownKey k.token.text)))))) ∧
    (∀ k0 k1 name i fs0 lbrace ipre it ipost k key, item.keys = [k0, k1] →
      k0.token.text = "section" → getKeyAsString L k1 = .ok name →
      (fields s).1 name = some i → valAt s i = some (.struct fs0) →
      item.val = .object lbrace (ipre ++ it :: ipost) → it.keys = [k] →
      getKeyAsString L k = .ok key → sectionFields fs0 key = none →
      (Decode L (.ptrStruct s) filename data).2 ≠ none ∧
      (∀ fs fs1, e1 = none → valAt s1 i = some (.struct fs) →
        sectionItems L name (sectionFields fs) fs ipre = (fs1, none) →
        Decode L (.ptrStruct s) filename data =
          (.ptrStruct (setVal s1 i (.struct fs1)),
            some (fillFilename filename (.posError k.pos (.unknownSectionKey name key)))))) := by
  refine ⟨?_, ?_, ?_⟩
  · intro k0 k1 name hk h0 hname hnone
    have hitem : decodeItem L (fields s).1 (fields s).2 s1 item =
        (s1, some (.posError k1.pos (.unknownSection name))) := by
      rw [decodeItem_section L _ _ s1 item k0 k1 name hk h0 hname, hnone]
    refine ⟨Decode_fails L s filename data _ hparse
      (decodeItems_fails L _ _ pre post item s s1 e1 hpre (by rw [hitem]; simp)), ?_⟩
    rintro rfl
    exact Decode_of_error L s s1 filename data _ _ hparse
      (decodeItems_first_error L _ _ pre post item s s1 s1 _ hpre hitem)
  · intro k hk hnone
    have hitem : decodeItem L (fields s).1 (fields s).2 s1 item =
        (s1, some (.posError k.pos (.unknownKey k.token.text))) := by
      simp only [decodeItem, hk, hnone]
    refine ⟨Decode_fails L s filename data _ hparse
      (decodeItems_fails L _ _ pre post item s s1 e1 hpre (by rw [hitem]; simp)), ?_⟩
    rintro rfl
    exact Decode_of_error L s s1 filename data _ _ hparse
      (decodeItems_first_error L _ _ pre post item s s1 s1 _ hpre hitem)
  · intro k0 k1 name i fs0 lbrace ipre it ipost k key hk h0 hname hi hfs0 hval hkit hkey hnone
    obtain ⟨fs, hfs, hsf⟩ := decodeItems_structAt L _ _ pre s s1 e1 i fs0 hpre hfs0
    have hit : ∀ out, sectionItem L name (sectionFields fs) out it =
        (out, some (.posError k.pos (.unknownSectionKey name key))) := by
      intro out
      simp only [sectionItem, hkit, hkey, hsf, hnone]
    have hstep : decodeItem L (fields s).1 (fields s).2 s1 item =
        (setVal s1 i (.struct (sectionItems L name (sectionFields fs) fs
            (ipre ++ it :: ipost)).1),
          (sectionItems L name (sectionFields fs) fs (ipre ++ it :: ipost)).2) := by
      rw [decodeItem_section L _ _ s1 item k0 k1 name hk h0 hname, hi]
      simp only [hfs, handleSection_eq L _ item k0 k1 name hk hname, TopValue.structFields, hval,
        TopValue.withFields]
    constructor
    · refine Decode_fails L s filename data _ hparse
        (decodeItems_fails L _ _ pre post item s s1 e1 hpre ?_)
      rw [hstep]
      dsimp only
      rw [sectionItems_append]
      generalize sectionItems L name (sectionFields fs) fs ipre = r
      obtain ⟨o, e2⟩ := r
      cases e2 with
      | some e => simp
      | none => simp [sectionItems, hit]
    · rintro fs' fs1 rfl hfs' hin
      rw [hfs] at hfs'
      cases hfs'
      have hsec := sectionItems_first_error L name (sectionFields fs) ipre ipost it fs fs1 fs1 _
        hin (hit fs1)
      rw [hsec] at hstep
      exact Decode_of_error L s _ filename data _ _ hparse
        (decodeItems_first_error L _ _ pre post item s s1 _ _ hpre hstep)

/-- Witness of C12: `partialDoc` decoded into `&myConf{}`; the section `foo` is bound, its key
`bogus` is not. -/
theorem decode_unknown_fails_witness :
    (Decode caseLib (.ptrStruct myConf) "foo.conf" partialDocText).2 ≠ none ∧
    Decode caseLib (.ptrStruct myConf) "foo.conf" partialDocText =
      (.ptrStruct myConfPartial,
        some (.posError ⟨"foo.conf", 38, 3, 3⟩ (.unknownSectionKey "foo" "bogus"))) :=
  have h := (decode_unknown_fails caseLib myConf myConf "foo.conf" partialDocText [] []
    partialFoo none (by rfl) (by rfl)).2.2 ⟨tokenAt .IDENT 0 1 1 "section"⟩
    ⟨tokenAt .STRING 8 1 9 "\"foo\""⟩ "foo" 1 fooZero ⟨"", 14, 1, 15⟩ [partialCats] partialBogus
    [partialDogs] ⟨tokenAt .IDENT 38 3 3 "bogus"⟩ "bogus" rfl rfl rfl (by decide)
    (by decide) rfl rfl rfl (by decide)
  ⟨h.1, h.2 fooZero _ rfl (by decide) rfl⟩

/-! ## Fail-fast without rollback -/

/-- A loop of `handleSection` that ended with an error decoded the items before some item
without error, and that item failed and left the fields as they were. -/
theorem sectionItems_error_split (L : Lib) (sn : String) (vf : String → Option Nat)
    (items : List ObjectItem) (out out' : List SField) (e : Err)
    (h : sectionItems L sn vf out items = (out', some e)) :
    ∃ ipre it ipost, items = ipre ++ it :: ipost ∧
      sectionItems L sn vf out ipre = (out', none) ∧
      sectionItem L sn vf out' it = (out', some e) := by
  induction items generalizing out with
  | nil => simp [sectionItems] at h
  | cons item rest ih =>
    simp only [sectionItems] at h
    split at h
    · rename_i out1 h1
      obtain ⟨ipre, it, ipost, hitems, hpre, hit⟩ := ih out1 h
      refine ⟨item :: ipre, it, ipost, by simp [hitems], ?_, hit⟩
      simp only [sectionItems, h1, hpre]
    · rename_i out1 e1 h1
      simp only [Prod.mk.injEq, Option.some.injEq] at h
      obtain ⟨rfl, rfl⟩ := h
      have := sectionItem_err _ _ _ _ _ _ _ h1
      subst this
      exact ⟨[], item, rest, rfl, rfl, h1⟩

/-- A loop of `decode` that ended with an error decoded the items before some item without
error, and that item failed. -/
theorem decodeItems_error_split (L : Lib) (sf vf : String → Option Nat)
    (root : List ObjectItem) (s s' : List TField) (e : Err)
    (h : decodeItems L sf vf s root = (s', some e)) :
    ∃ pre item post s1, root = pre ++ item :: post ∧
      decodeItems L sf vf s pre = (s1, none) ∧ decodeItem L sf vf s1 item = (s', some e) := by
  induction root generalizing s with
  | nil => simp [decodeItems] at h
  | cons item rest ih =>
    simp only [decodeItems] at h
    split at h
    · rename_i s2 h2
      obtain ⟨pre, it, post, s1, hroot, hpre, hit⟩ := ih s2 h
      refine ⟨item :: pre, it, post, s1, by simp [hroot], ?_, hit⟩
      simp only [decodeItems, h2, hpre]
    · rename_i s2 e2 h2
      simp only [Prod.mk.injEq, Option.some.injEq] at h
      obtain ⟨rfl, rfl⟩ := h
      exact ⟨[], item, rest, s, rfl, rfl, h2⟩

/-- C13.  When `Decode` returns an error on a document, the document is `pre ++ item :: post`
with one of the following.  Either the items `pre` decode without error into the very
destination that `Decode` leaves, and `item` fails there and assigns nothing.  Or `item` is
a section block `ipre ++ it :: ipost`, the document truncated just before `it` (the items
`pre` and the section with the block `ipre`) decodes without error into the very
destination that `Decode` leaves, and `it` fails there and assigns nothing.  In both cases
the error of `Decode` is the error of the failing item with the filename filled in; no
item after the failing one is decoded, and nothing decoded before it is rolled back. -/
theorem decode_fail_fast (L : Lib) (s s' : List TField) (filename data : String)
    (root : List ObjectItem) (e : Err) (hparse : L.parseBytes data = .ok ⟨.objectList root⟩)
    (hdec : Decode L (.ptrStruct s) filename data = (.ptrStruct s', some e)) :
    (∃ pre item post e0, root = pre ++ item :: post ∧ e = fillFilename filename e0 ∧
      decodeItems L (fields s).1 (fields s).2 s pre = (s', none) ∧
      decodeItem L (fields s).1 (fields s).2 s' item = (s', some e0)) ∨
    (∃ pre item post lbrace ipre it ipost name i fs1 e0, root = pre ++ item :: post ∧
      item.val = .object lbrace (ipre ++ it :: ipost) ∧ e = fillFilename filename e0 ∧
      decodeItems L (fields s).1 (fields s).2 s
        (pre ++ [{ item with val := .object lbrace ipre }]) = (s', none) ∧
      sectionNamed L name item = true ∧ (fields s).1 name = some i ∧
      valAt s' i = some (.struct fs1) ∧
      sectionItem L name (sectionFields fs1) fs1 it = (fs1, some e0)) := by
  rw [Decode_eq L s filename data root hparse] at hdec
  generalize hr : decodeItems L (fields s).1 (fields s).2 s root = r at hdec
  obtain ⟨s2, e2⟩ := r
  cases e2 with
  | none => simp at hdec
  | some e0 =>
    simp only [Option.map_some', Prod.mk.injEq, Target.ptrStruct.injEq,
      Option.some.injEq] at hdec
    obtain ⟨rfl, rfl⟩ := hdec
    obtain ⟨pre, item, post, s1, hroot, hpre, hitem⟩ := decodeItems_error_split L _ _ root s s2 e0 hr
    rcases decodeItem_cases L _ _ s1 s2 item _ hitem with h | ⟨_, _, _, _, _, _, _, _, _, h⟩ |
      ⟨k0, k1, name, i, tv, hk, h0, hname, hi, htv, hs2, he⟩
    · subst h
      exact Or.inl ⟨pre, item, post, e0, hroot, rfl, hpre, hitem⟩
    · cases h
    · have hsame : s2 = s1 →
          (∃ pre item post e1, root = pre ++ item :: post ∧
            fillFilename filename e0 = fillFilename filename e1 ∧
            decodeItems L (fields s).1 (fields s).2 s pre = (s2, none) ∧
            decodeItem L (fields s).1 (fields s).2 s2 item = (s2, some e1)) := fun h => by
        subst h
        exact ⟨pre, item, post, e0, hroot, rfl, hpre, hitem⟩
      rw [handleSection_eq L tv item k0 k1 name hk hname] at hs2 he
      cases hfs : tv.structFields with
      | none =>
        simp only [hfs] at hs2
        exact Or.inl (hsame (by rw [hs2, setVal_same _ _ _ htv]))
      | some fs =>
        cases hval : item.val with
        | literal tok =>
          simp only [hfs, hval] at hs2
          exact Or.inl (hsame (by rw [hs2, setVal_same _ _ _ htv]))
        | list lb elems =>
          simp only [hfs, hval] at hs2
          exact Or.inl (hsame (by rw [hs2, setVal_same _ _ _ htv]))
        | object lbrace items =>
          simp only [hfs, hval] at hs2 he
          generalize hsec : sectionItems L name (sectionFields fs) fs items = r at hs2 he
          obtain ⟨fs', e'⟩ := r
          simp only at hs2 he
          subst he
          obtain ⟨ipre, it, ipost, hitems, hipre, hit⟩ :=
            sectionItems_error_split L name _ items fs fs' e0 hsec
          cases tv with
          | leaf w =>
            have hnil : fs = [] := by
              cases w <;> simp [TopValue.structFields] at hfs <;> exact hfs
            exact Or.inl (hsame (by rw [hs2]; exact setVal_same _ _ _ htv))
          | struct fs0 =>
            simp only [TopValue.structFields, Option.some.injEq] at hfs
            subst hfs
            simp only [TopValue.withFields] at hs2
            have hsf : sectionFields fs' = sectionFields fs0 :=
              sectionItems_fields _ _ _ _ _ _ _ hsec
            refine Or.inr ⟨pre, item, post, lbrace, ipre, it, ipost, name, i, fs', e0, hroot,
              by rw [hval, hitems], rfl, ?_, sectionNamed_of_keys L name item k0 k1 hk h0 hname,
              hi, by rw [hs2]; exact valAt_setVal_same _ _ _ _ htv, by rw [hsf]; exact hit⟩
            rw [decodeItems_append, hpre]
            simp only [decodeItems]
            have hcut := decodeItem_section L (fields s).1 (fields s).2 s1
              { item with val := .object lbrace ipre } k0 k1 name hk h0 hname
            rw [hi] at hcut
            simp only [htv, handleSection_eq L (.struct fs0)
              { item with val := .object lbrace ipre } k0 k1 name hk hname,
              TopValue.structFields, TopValue.withFields, hipre] at hcut
            rw [hcut, hs2]

/-- The document `partialDocText` fails at its second nested item `bogus = 1`: the destination
is left as the document cut before that item leaves it, `likes_cats` assigned and
`likes_dogs` not. -/
theorem decode_fail_fast_witness :
    Decode caseLib (.ptrStruct myConf) "foo.conf" partialDocText =
      (.ptrStruct myConfPartial,
        some (.posError ⟨"foo.conf", 38, 3, 3⟩ (.unknownSectionKey "foo" "bogus"))) ∧
    decodeItems caseLib (fields myConf).1 (fields myConf).2 myConf partialDocCut =
      (myConfPartial, none) ∧
    ((∃ pre item post e0, partialDoc = pre ++ item :: post ∧
      Err.posError ⟨"foo.conf", 38, 3, 3⟩ (.unknownSectionKey "foo" "bogus") =
        fillFilename "foo.conf" e0 ∧
      decodeItems caseLib (fields myConf).1 (fields myConf).2 myConf pre =
        (myConfPartial, none) ∧
      decodeItem caseLib (fields myConf).1 (fields myConf).2 myConfPartial item =
        (myConfPartial, some e0)) ∨
    (∃ pre item post lbrace ipre it ipost name i fs1 e0, partialDoc = pre ++ item :: post ∧
      item.val = .object lbrace (ipre ++ it :: ipost) ∧
      Err.posError ⟨"foo.conf", 38, 3, 3⟩ (.unknownSectionKey "foo" "bogus") =
        fillFilename "foo.conf" e0 ∧
      decodeItems caseLib (fields myConf).1 (fields myConf).2 myConf
        (pre ++ [{ item with val := .object lbrace ipre }]) = (myConfPartial, none) ∧
      sectionNamed caseLib name item = true ∧ (fields myConf).1 name = some i ∧
      valAt myConfPartial i = some (.struct fs1) ∧
      sectionItem caseLib name (sectionFields fs1) fs1 it = (fs1, some e0))) :=
  ⟨rfl, rfl, decode_fail_fast caseLib myConf myConfPartial "foo.conf" partialDocText partialDoc
    _ rfl rfl⟩

/-! ## Literals the decoder does not take -/

/-- C14.  The document `section "foo" { likes_cats = "true" }` decoded into `&myConf{}`:
`Decode` fails with the error of `strconv.ParseBool` on the quoted text `"true"` and leaves
the `Bool` holder `likes_cats` unassigned; a plain `bool` destination fails in the same way,
while the boolean literal `true` is stored.  For every library, `decodeBool` hands the raw
text of a `STRING` token to `ParseBool` and never reads its value; `decodeInt` on the other
hand reads the string literal `"5"` through `Token.Value()`. -/
theorem decode_string_bool_fails :
    Decode caseLib (.ptrStruct myConf) "foo.conf" stringBoolDocText =
      (.ptrStruct myConf, some (.plain (.strconvSyntax "ParseBool" "\"true\""))) ∧
    decodeInto caseLib "likes_cats" (.literal (tokenAt .STRING 31 2 16 "\"true\""))
      (.bool false) = .error (.plain (.strconvSyntax "ParseBool" "\"true\"")) ∧
    decodeInto caseLib "likes_cats" (.literal (tokenAt .BOOL 31 2 16 "true"))
      (.bool false) = .ok (.bool true) ∧
    (∀ (L : Lib) (name : String) (pos : Pos) (text : String) (json : Bool),
      decodeBool L name (.literal ⟨.STRING, pos, text, json⟩) =
        match parseBool text with
        | none => .error (.plain (.strconvSyntax "ParseBool" text))
        | some v => .ok v) ∧
    decodeInt caseLib "count" (.literal (tokenAt .STRING 8 1 9 "\"5\"")) = .ok 5 := by
  refine ⟨rfl, rfl, rfl, ?_, rfl⟩
  intro L name pos text json
  simp [decodeBool]

/-- C15.  The documents `limit = 5` and `names = ["a", "b"]` decoded into a struct with the
fields `Limit int64` and `Names []string`: `Decode` fails with the error
`unknown kind to decode into` and stores nothing.  For every library and node, `decodeInto`
rejects a destination of kind `int64` or slice in this way; a destination of kind `int`
panics in `reflect.Value.Set`; the `Int64` holder takes the same literal `5`. -/
theorem decode_plain_kinds_rejected :
    Decode caseLib (.ptrStruct extraConf) "x.conf" limitDocText =
      (.ptrStruct extraConf,
        some (.posError ⟨"x.conf", 8, 1, 9⟩ (.unknownKind "limit" "int64"))) ∧
    Decode caseLib (.ptrStruct extraConf) "x.conf" namesDocText =
      (.ptrStruct extraConf,
        some (.posError ⟨"x.conf", 8, 1, 9⟩ (.unknownKind "names" "slice"))) ∧
    (∀ (L : Lib) (name : String) (node : Node) (v : Int),
      decodeInto L name node (.int64 v) =
        .error (.posError node.pos (.unknownKind name "int64"))) ∧
    (∀ (L : Lib) (name : String) (node : Node) (v : List String),
      decodeInto L name node (.strings v) =
        .error (.posError node.pos (.unknownKind name "slice"))) ∧
    decodeInto caseLib "limit" (.literal (tokenAt .NUMBER 8 1 9 "5")) (.int 0) =
      .error .runtimePanic ∧
    decodeInto caseLib "count" (.literal (tokenAt .NUMBER 8 1 9 "5"))
      (.holderInt64 (Holder.zero 0)) = .ok (.holderInt64 ⟨⟨"", 8, 1, 9⟩, 5, true⟩) := by
  refine ⟨rfl, rfl, ?_, ?_, rfl, rfl⟩
  · intro L name node v
    simp [decodeInto]
  · intro L name node v
    simp [decodeInto]

/-- C16.  The document `inner = "x"` decoded into a struct whose field `Inner` is a struct
without any setter: `Decode` returns no error and leaves the destination as it was.  For
every library, name and node, `decodeInto` on a struct without setters succeeds and stores
nothing. -/
theorem decode_plain_struct_succeeds :
    Decode caseLib (.ptrStruct extraConf) "x.conf" innerDocText =
      (.ptrStruct extraConf, none) ∧
    (∀ (L : Lib) (name : String) (node : Node),
      decodeInto L name node .plainStruct = .ok .plainStruct) := by
  refine ⟨rfl, ?_⟩
  intro L name node
  simp [decodeInto]

/-- C17.  The document `count = 99999999999999999999` decoded into a struct with the `Int64`
holder `Count`: `Decode` fails with the error of `strconv.ParseInt` as it is, which holds
neither the position of the node nor the filename; the string literal `"abc"` fails in the
same way, and so does the string literal `"true"` on a `Bool` holder.  A literal of the wrong
type on the same holder fails with an error at the position of the node. -/
theorem decode_strconv_error_no_position :
    Decode caseLib (.ptrStruct extraConf) "x.conf" bigCountDocText =
      (.ptrStruct extraConf,
        some (.plain (.strconvSyntax "ParseInt" "99999999999999999999"))) ∧
    decodeInto caseLib "count" (.literal (tokenAt .STRING 8 1 9 "\"abc\""))
      (.holderInt64 (Holder.zero 0)) = .error (.plain (.strconvSyntax "ParseInt" "abc")) ∧
    decodeInto caseLib "likes_cats" (.literal (tokenAt .STRING 31 2 16 "\"true\""))
      (.holderBool (Holder.zero false)) =
        .error (.plain (.strconvSyntax "ParseBool" "\"true\"")) ∧
    decodeInto caseLib "count" (.literal (tokenAt .BOOL 8 1 9 "true"))
      (.holderInt64 (Holder.zero 0)) =
        .error (.posError ⟨"", 8, 1, 9⟩ (.unknownType "count")) ∧
    fillFilename "x.conf" (.plain (.strconvSyntax "ParseInt" "99999999999999999999")) =
      .plain (.strconvSyntax "ParseInt" "99999999999999999999") := by
  refine ⟨rfl, rfl, rfl, rfl, rfl⟩

/-! ## The second label of a two-label item -/

/-- Counterexample to C18: the document `section foo { likes_cats = true }`, whose section
name is a bare identifier, is accepted by `Decode` and decoded as the section `foo`: the
holder `Foo.LikesCats` of `&myConf{}` is assigned. -/
theorem bare_section_name_counterexample :
    Decode caseLib (.ptrStruct myConf) "foo.conf" bareSectionDocText =
      (.ptrStruct (setVal myConf 1
        (.struct (setVal fooZero 1 (.holderBool ⟨⟨"", 29, 2, 16⟩, true, true⟩)))), none) ∧
    fieldAt (setVal myConf 1
        (.struct (setVal fooZero 1 (.holderBool ⟨⟨"", 29, 2, 16⟩, true, true⟩))))
      "foo" "likes_cats" = some (.holderBool ⟨⟨"", 29, 2, 16⟩, true, true⟩) :=
  ⟨rfl, rfl⟩

/-- C18 (amended).  In a document `pre ++ item :: post` whose items `pre` decode without
error, let `item` be a two-label item with first label `section` and second label `k1`.
When `k1` is a bare identifier or a number, `getKeyAsString` returns its text, the item is a
section of that name, and `Decode` treats it as such: it fails with `unknown section` when no
field binds the name, and otherwise decodes the block into the struct bound to the name (the
loop over `pre` and the item leaves the outcome of `sectionItems` on that struct).  When `k1`
is a string or a heredoc, its value is the name in the same way.  Only a label of another
token type is rejected: `Decode` then fails with `expected string type` at the position of
the label and the filename filled in.  The second label of a `when` item is never
examined. -/
theorem section_label_accepted (L : Lib) (s s1 : List TField) (filename data : String)
    (pre post : List ObjectItem) (item : ObjectItem) (k0 k1 : ObjectKey)
    (hparse : L.parseBytes data = .ok ⟨.objectList (pre ++ item :: post)⟩)
    (hpre : decodeItems L (fields s).1 (fields s).2 s pre = (s1, none))
    (hk : item.keys = [k0, k1]) (h0 : k0.token.text = "section") :
    ((k1.token.type = .IDENT ∨ k1.token.type = .NUMBER) →
      getKeyAsString L k1 = .ok k1.token.text ∧
      sectionNamed L k1.token.text item = true ∧
      ((fields s).1 k1.token.text = none →
        Decode L (.ptrStruct s) filename data =
          (.ptrStruct s1, some (fillFilename filename
            (.posError k1.pos (.unknownSection k1.token.text))))) ∧
      (∀ i fs lbrace items, (fields s).1 k1.token.text = some i →
        valAt s1 i = some (.struct fs) → item.val = .object lbrace items →
        decodeItems L (fields s).1 (fields s).2 s (pre ++ [item]) =
          (setVal s1 i (.struct (sectionItems L k1.token.text (sectionFields fs) fs items).1),
            (sectionItems L k1.token.text (sectionFields fs) fs items).2))) ∧
    (∀ name, k1.token.type = .STRING → L.unquote k1.token.json k1.token.text = some name →
      getKeyAsString L k1 = .ok name ∧ sectionNamed L name item = true) ∧
    (∀ name, k1.token.type = .HEREDOC → L.heredoc k1.token.text = some name →
      getKeyAsString L k1 = .ok name ∧ sectionNamed L name item = true) ∧
    (k1.token.type ≠ .IDENT → k1.token.type ≠ .NUMBER → k1.token.type ≠ .STRING →
      k1.token.type ≠ .HEREDOC →
      Decode L (.ptrStruct s) filename data =
        (.ptrStruct s1, some (fillFilename filename
          (.posError k1.pos (.expectedStringType k1.token.type))))) ∧
    (∀ (out : List TField) (w : ObjectItem) (w0 w1 : ObjectKey), w.keys = [w0, w1] →
      w0.token.text = "when" →
      decodeItem L (fields s).1 (fields s).2 out w = (out, none)) := by
  have hdec : ∀ r, decodeItem L (fields s).1 (fields s).2 s1 item = (s1, some r) →
      Decode L (.ptrStruct s) filename data = (.ptrStruct s1, some (fillFilename filename r)) := by
    intro r hr
    rw [Decode_eq L s filename data _ hparse, decodeItems_append, hpre]
    simp only [decodeItems, hr, Option.map_some']
  refine ⟨?_, ?_, ?_, ?_, ?_⟩
  · intro hty
    have hname : getKeyAsString L k1 = .ok k1.token.text := by
      rcases hty with h | h <;> simp [getKeyAsString, h]
    refine ⟨hname, sectionNamed_of_keys L _ item k0 k1 hk h0 hname, ?_, ?_⟩
    · intro hnone
      apply hdec
      rw [decodeItem_section L _ _ s1 item k0 k1 _ hk h0 hname, hnone]
    · intro i fs lbrace items hi htv hval
      rw [decodeItems_append, hpre]
      simp only [decodeItems]
      rw [decodeItem_section L _ _ s1 item k0 k1 _ hk h0 hname, hi]
      simp only [htv, handleSection_eq L _ item k0 k1 _ hk hname, TopValue.structFields, hval,
        TopValue.withFields]
      generalize sectionItems L k1.token.text (sectionFields fs) fs items = r
      obtain ⟨fs', e⟩ := r
      cases e <;> rfl
  · intro name hty hun
    have hname : getKeyAsString L k1 = .ok name := by
      simp [getKeyAsString, hty, Token.Value, hun]
    exact ⟨hname, sectionNamed_of_keys L _ item k0 k1 hk h0 hname⟩
  · intro name hty hun
    have hname : getKeyAsString L k1 = .ok name := by
      simp [getKeyAsString, hty, Token.Value, hun]
    exact ⟨hname, sectionNamed_of_keys L _ item k0 k1 hk h0 hname⟩
  · intro h1 h2 h3 h4
    apply hdec
    have hname : getKeyAsString L k1 =
        .error (.posError k1.pos (.expectedStringType k1.token.type)) := by
      unfold getKeyAsString
      split <;> simp_all
    simp only [decodeItem, hk, h0, hname, if_true]
  · intro out w w0 w1 hw hw0
    simp [decodeItem, hw, hw0, handleWhen]

/-- Witness of C18 (amended): the section item of `section foo { likes_cats = true }`, with
the bare identifier `foo` as its second label, is decoded into the struct `Foo` of
`&myConf{}`. -/
theorem section_label_accepted_witness :
    getKeyAsString caseLib ⟨tokenAt .IDENT 8 1 9 "foo"⟩ = .ok "foo" ∧
    decodeItems caseLib (fields myConf).1 (fields myConf).2 myConf ([] ++ [bareSectionFoo]) =
      (setVal myConf 1 (.struct (sectionItems caseLib "foo" (sectionFields fooZero) fooZero
          [{ keys := [⟨tokenAt .IDENT 16 2 3 "likes_cats"⟩],
             assign := ⟨"", 27, 2, 14⟩,
             val := .literal (tokenAt .BOOL 29 2 16 "true") }]).1),
        (sectionItems caseLib "foo" (sectionFields fooZero) fooZero
          [{ keys := [⟨tokenAt .IDENT 16 2 3 "likes_cats"⟩],
             assign := ⟨"", 27, 2, 14⟩,
             val := .literal (tokenAt .BOOL 29 2 16 "true") }]).2) :=
  have h := (section_label_accepted caseLib myConf myConf "foo.conf" bareSectionDocText [] []
    bareSectionFoo ⟨tokenAt .IDENT 0 1 1 "section"⟩ ⟨tokenAt .IDENT 8 1 9 "foo"⟩
    rfl rfl rfl rfl).1 (Or.inl rfl)
  ⟨h.1, h.2.2.2 1 fooZero ⟨"", 12, 1, 13⟩ _ rfl rfl rfl⟩

/-! ## `when` blocks -/

/-- The round of the document loop on a `when` item does nothing. -/
theorem decodeItem_when (L : Lib) (sf vf : String → Option Nat) (out : List TField)
    (item : ObjectItem) (h : isWhen item = true) : decodeItem L sf vf out item = (out, none) := by
  unfold isWhen at h
  split at h
  · rename_i k0 k1 hk
    have h0 : k0.token.text = "when" := by simpa using h
    simp [decodeItem, hk, h0, handleWhen]
  · simp at h

/-- The document loop gives the same outcome on the document without its `when` items. -/
theorem decodeItems_withoutWhen (L : Lib) (sf vf : String → Option Nat)
    (root : List ObjectItem) (out : List TField) :
    decodeItems L sf vf out (withoutWhen root) = decodeItems L sf vf out root := by
  induction root generalizing out with
  | nil => rfl
  | cons item rest ih =>
    unfold withoutWhen at ih ⊢
    cases hw : isWhen item with
    | true =>
      simp only [List.filter, hw, Bool.not_true, decodeItems, decodeItem_when L sf vf out item hw]
      exact ih out
    | false =>
      simp only [List.filter, hw, Bool.not_false, decodeItems]
      split
      · rename_i out1 h1
        exact ih out1
      · rfl

/-- C19.  For every document and every destination, `Decode` returns the same error or
success, and leaves the destination in the same state, on the document and on the document
with all top-level `when` items removed, whatever the second label and the block of the
`when` items hold. -/
theorem when_never_affects (L : Lib) (out : Target) (filename data data' : String)
    (root : List ObjectItem) (hparse : L.parseBytes data = .ok ⟨.objectList root⟩)
    (hparse' : L.parseBytes data' = .ok ⟨.objectList (withoutWhen root)⟩) :
    Decode L out filename data = Decode L out filename data' := by
  cases out with
  | notPtr => simp only [Decode, decode, hparse, hparse']
  | ptrStruct s =>
    rw [Decode_eq L s filename data root hparse,
      Decode_eq L s filename data' (withoutWhen root) hparse', decodeItems_withoutWhen]

/-- Witness of C19: the document `whenDoc`, whose `when` block holds the unbound key `bogus`,
decodes into `&myConf{}` as the document without the block does. -/
theorem when_never_affects_witness :
    withoutWhen whenDoc = whenDocBlank ∧
    Decode caseLib (.ptrStruct myConf) "foo.conf" whenDocText =
      Decode caseLib (.ptrStruct myConf) "foo.conf" whenDocBlankText ∧
    Decode caseLib (.ptrStruct myConf) "foo.conf" whenDocText =
      (.ptrStruct (setVal myConf 1
        (.struct (setVal fooZero 1 (.holderBool ⟨⟨"", 56, 5, 16⟩, true, true⟩)))), none) :=
  ⟨rfl, when_never_affects caseLib (.ptrStruct myConf) "foo.conf" whenDocText whenDocBlankText
    whenDoc rfl rfl, rfl⟩

/-! ## The source position that `Get` returns -/

/-- The position that `Get` returns is the recorded source of the value it resolves, or the
zero position when the value records none. -/
theorem sourceAt_eq (s : List TField) (sect key : String) :
    sourceAt s sect key = (fieldAt s sect key).map fun v => v.Source.getD Pos.zero := by
  simp only [sourceAt, fieldAt, Get]
  cases h1 : (fields s).1 sect with
  | none => simp
  | some i =>
    dsimp only
    cases h2 : valAt s i with
    | none => simp
    | some tv =>
      dsimp only
      cases h3 : tv.structFields with
      | none => simp
      | some fs =>
        dsimp only
        cases h4 : sectionFields fs key with
        | none => simp
        | some j =>
          dsimp only
          cases h5 : valAt fs j with
          | none => simp
          | some v =>
            dsimp only
            cases h6 : v.Source <;> simp [h6]

/-- After `decodeInto` a holder records the position of the node. -/
theorem decodeInto_source (L : Lib) (name : String) (node : Node) (v v' : GoValue)
    (h : decodeInto L name node v = .ok v') (hv : v.isHolder = true) :
    v'.Source = some node.pos := by
  cases v <;> simp [GoValue.isHolder, GoValue.IsSet] at hv <;> simp only [decodeInto] at h <;>
    split at h <;> cases h <;> rfl

/-- Counterexample to C20: `conf2` of `hconf_test.go`, which assigns `likes_cats` only, is
decoded without error into the struct that holds the decoded `conf`; `Get` for
`foo`/`screensize`, which `conf2` never assigns, returns the position `3:18` recorded by the
earlier decode, not the zero position. -/
theorem get_unassigned_position_counterexample :
    Decode testLib (.ptrStruct myConfDecoded) "foo.conf" conf2Text =
      (.ptrStruct (setVal myConfDecoded 1
        (.struct (setVal fooDecoded 1 (.holderBool ⟨⟨"", 31, 3, 15⟩, true, true⟩)))), none) ∧
    occurs testLib "foo" "screensize" conf2 = false ∧
    Get (.ptrStruct (setVal myConfDecoded 1
        (.struct (setVal fooDecoded 1 (.holderBool ⟨⟨"", 31, 3, 15⟩, true, true⟩)))))
      "foo" "screensize" =
      .ok (⟨1, 0⟩, .holderString ⟨⟨"", 34, 3, 18⟩, "hello world", true⟩, ⟨"", 34, 3, 18⟩) ∧
    (⟨"", 34, 3, 18⟩ : Pos) ≠ Pos.zero :=
  ⟨rfl, rfl, rfl, by decide⟩

/-- C20 (amended).  After a successful `Decode`, for a `sect`/`key` pair bound to a holder:
when the document assigns the pair, `Get` returns the position of the value node of the last
item that assigns it; when the document never assigns the pair, `Get` resolves the value
and returns the position that it did before `Decode`, which is the zero position when the
destination was zero-initialised. -/
theorem get_source_position (L : Lib) (s s' : List TField) (filename data : String)
    (root : List ObjectItem) (hparse : L.parseBytes data = .ok ⟨.objectList root⟩)
    (hdec : Decode L (.ptrStruct s) filename data = (.ptrStruct s', none))
    (sect key : String) :
    (∀ node, lastNode L sect key root = some node →
      ∃ v0, fieldAt s sect key = some v0 ∧
        (v0.isHolder = true → sourceAt s' sect key = some node.pos)) ∧
    (occurs L sect key root = false →
      fieldAt s' sect key = fieldAt s sect key ∧
      sourceAt s' sect key = sourceAt s sect key ∧
      (zeroStruct s = s → ∀ p, sourceAt s' sect key = some p → p = Pos.zero)) := by
  have hloop := Decode_ok L s s' filename data root hparse hdec
  refine ⟨?_, ?_⟩
  · intro node hlast
    obtain ⟨v0, v', h0, hd, h'⟩ := decodeItems_last L sect key node root s s s' rfl hloop hlast
    refine ⟨v0, h0, fun hv => ?_⟩
    rw [sourceAt_eq, h', Option.map_some', decodeInto_source L key node v0 v' hd hv]
    rfl
  · intro hocc
    have hfr : fieldAt s' sect key = fieldAt s sect key :=
      decodeItems_frame L sect key root s s s' none rfl hloop
        ((lastNode_none_iff L sect key root).mpr hocc)
    have hsrc : sourceAt s' sect key = sourceAt s sect key := by
      rw [sourceAt_eq, sourceAt_eq, hfr]
    refine ⟨hfr, hsrc, fun hz p hp => ?_⟩
    · rw [hsrc, sourceAt_eq] at hp
      cases hv : fieldAt s sect key with
      | none => simp [hv] at hp
      | some v =>
        simp only [hv, Option.map_some', Option.some.injEq] at hp
        have hzero := fieldAt_zeroStruct s sect key v hz hv
        rw [← hp, hzero]
        cases v <;> rfl

/-- Witness of C20 (amended): after `conf` of `hconf_test.go` is decoded into `&myConf{}`,
`Get` returns the position `5:15` of the literal `false` for `foo`/`likes_dogs`, and the zero
position for `bar`/`likes_dogs`, which `conf` does not assign. -/
theorem get_source_position_witness :
    sourceAt myConfDecoded "foo" "likes_dogs" = some ⟨"", 81, 5, 15⟩ ∧
    ∀ p, sourceAt myConfDecoded "bar" "likes_dogs" = some p → p = Pos.zero := by
  have h := get_source_position testLib myConf myConfDecoded "foo.conf" confText conf
    (by rfl) (by decide)
  refine ⟨?_, ((h "bar" "likes_dogs").2 (by decide)).2.2 (by decide)⟩
  obtain ⟨v0, h0, hs⟩ := (h "foo" "likes_dogs").1 (.literal (tokenAt .BOOL 81 5 15 "false")) rfl
  have hv : some (GoValue.holderBool (Holder.zero false)) = some v0 := h0
  cases hv
  exact hs rfl

/-! ## The editor on a missing file -/

/-- The type switch of `Set` returns neither the unknown-section nor the unknown-key error. -/
theorem setValue_error (L : Lib) (sect key : String) (value : Dyn) (v : GoValue) (e : Err)
    (h : setValue L sect key value v = .error e) :
    (∀ n, e ≠ .plain (.setUnknownSection n)) ∧ (∀ k n, e ≠ .plain (.setUnknownKey k n)) := by
  unfold setValue at h
  repeat' split at h
  all_goals cases h
  all_goals exact ⟨fun _ hc => (by cases hc), fun _ _ hc => (by cases hc)⟩

/-- How `Set` and `Get` end, by the two lookups. -/
theorem Set_Get_lookup (L : Lib) (s : List TField) (sect key : String) (value : Dyn) :
    ((fields s).1 sect = none ∧
      Set L (.ptrStruct s) sect key value =
        (.ptrStruct s, some (.plain (.setUnknownSection sect))) ∧
      Get (.ptrStruct s) sect key = .error (.plain (.setUnknownSection sect))) ∨
    (∃ i tv fs, (fields s).1 sect = some i ∧ valAt s i = some tv ∧
      tv.structFields = some fs ∧ sectionFields fs key = none ∧
      Set L (.ptrStruct s) sect key value =
        (.ptrStruct s, some (.plain (.setUnknownKey key sect))) ∧
      Get (.ptrStruct s) sect key = .error (.plain (.setUnknownKey key sect))) ∨
    ((∃ i, (fields s).1 sect = some i) ∧
      (∀ n, (Set L (.ptrStruct s) sect key value).2 ≠ some (.plain (.setUnknownSection n)) ∧
        Get (.ptrStruct s) sect key ≠ .error (.plain (.setUnknownSection n))) ∧
      (∀ k n, (Set L (.ptrStruct s) sect key value).2 ≠ some (.plain (.setUnknownKey k n)) ∧
        Get (.ptrStruct s) sect key ≠ .error (.plain (.setUnknownKey k n)))) := by
  cases h1 : (fields s).1 sect with
  | none =>
    refine Or.inl ⟨rfl, ?_, ?_⟩
    · simp only [Set, h1]
    · simp only [Get, h1]
  | some i =>
    refine Or.inr ?_
    cases h2 : valAt s i with
    | none =>
      refine Or.inr ⟨⟨i, rfl⟩, fun n => ?_, fun k n => ?_⟩ <;>
        simp [Set, Get, h1, h2]
    | some tv =>
      cases h3 : tv.structFields with
      | none =>
        refine Or.inr ⟨⟨i, rfl⟩, fun n => ?_, fun k n => ?_⟩ <;>
          simp [Set, Get, h1, h2, h3]
      | some fs =>
        cases h4 : sectionFields fs key with
        | none =>
          refine Or.inl ⟨i, tv, fs, rfl, h2, h3, h4, ?_, ?_⟩
          · simp only [Set, h1, h2, h3, h4]
          · simp only [Get, h1, h2, h3, h4]
        | some j =>
          refine Or.inr ⟨⟨i, rfl⟩, ?_⟩
          cases h5 : valAt fs j with
          | none =>
            refine ⟨fun n => ?_, fun k n => ?_⟩ <;>
              simp [Set, Get, h1, h2, h3, h4, h5]
          | some v =>
            have hget : ∀ e, Get (.ptrStruct s) sect key ≠ .error e := by
              intro e
              simp only [Get, h1, h2, h3, h4, h5]
              cases v.Source <;> simp
            cases h6 : setValue L sect key value v with
            | ok v' =>
              refine ⟨fun n => ⟨?_, hget _⟩, fun k n => ⟨?_, hget _⟩⟩ <;>
                simp [Set, h1, h2, h3, h4, h5, h6]
            | error e =>
              have he := setValue_error L sect key value v e h6
              refine ⟨fun n => ⟨?_, hget _⟩, fun k n => ⟨?_, hget _⟩⟩
              · simp only [Set, h1, h2, h3, h4, h5, h6]
                exact fun hc => he.1 n (Option.some.inj hc)
              · simp only [Set, h1, h2, h3, h4, h5, h6]
                exact fun hc => he.2 k n (Option.some.inj hc)

/-- C22.  `Set` and `Get` look the section up first and the key second.  Each returns the
unknown-section error, for `sect`, exactly when no section tag of the target is `sect`,
whatever `key` is; each returns the unknown-key error, for `key` and `sect`, exactly when a
section tag binds `sect` to a struct and no value tag of that struct is `key`.  In both
cases `Set` leaves the target as it was (`Get` never writes). -/
theorem accessor_resolution (L : Lib) (s : List TField) (sect key : String) (value : Dyn) :
    ((fields s).1 sect = none →
      Set L (.ptrStruct s) sect key value =
        (.ptrStruct s, some (.plain (.setUnknownSection sect))) ∧
      Get (.ptrStruct s) sect key = .error (.plain (.setUnknownSection sect))) ∧
    (∀ n, ((Set L (.ptrStruct s) sect key value).2 = some (.plain (.setUnknownSection n)) ∨
        Get (.ptrStruct s) sect key = .error (.plain (.setUnknownSection n))) →
      n = sect ∧ (fields s).1 sect = none) ∧
    (∀ i tv fs, (fields s).1 sect = some i → valAt s i = some tv →
      tv.structFields = some fs → sectionFields fs key = none →
      Set L (.ptrStruct s) sect key value =
        (.ptrStruct s, some (.plain (.setUnknownKey key sect))) ∧
      Get (.ptrStruct s) sect key = .error (.plain (.setUnknownKey key sect))) ∧
    (∀ k n, ((Set L (.ptrStruct s) sect key value).2 = some (.plain (.setUnknownKey k n)) ∨
        Get (.ptrStruct s) sect key = .error (.plain (.setUnknownKey k n))) →
      k = key ∧ n = sect ∧ ∃ i tv fs, (fields s).1 sect = some i ∧ valAt s i = some tv ∧
        tv.structFields = some fs ∧ sectionFields fs key = none) := by
  rcases Set_Get_lookup L s sect key value with ⟨h1, hs, hg⟩ | ⟨i, tv, fs, h1, h2, h3, h4, hs, hg⟩ |
    ⟨⟨i, h1⟩, hsec, hkey⟩
  · refine ⟨fun _ => ⟨hs, hg⟩, fun n hn => ?_, fun i tv fs hi => ?_, fun k n hn => ?_⟩
    · rw [hs, hg] at hn
      rcases hn with hn | hn <;> simp at hn <;> exact ⟨hn.symm, h1⟩
    · rw [h1] at hi
      cases hi
    · rw [hs, hg] at hn
      rcases hn with hn | hn <;> simp at hn
  · refine ⟨fun hn => ?_, fun n hn => ?_, fun _ _ _ _ _ _ _ => ⟨hs, hg⟩, fun k n hn => ?_⟩
    · rw [h1] at hn
      cases hn
    · rw [hs, hg] at hn
      rcases hn with hn | hn <;> simp at hn
    · rw [hs, hg] at hn
      rcases hn with hn | hn <;> simp at hn <;>
        exact ⟨hn.1.symm, hn.2.symm, i, tv, fs, h1, h2, h3, h4⟩
  · refine ⟨fun hn => ?_, fun n hn => ?_, fun j tv fs hj htv hfs hk => ?_, fun k n hn => ?_⟩
    · rw [h1] at hn
      cases hn
    · rcases hn with hn | hn
      · exact absurd hn (hsec n).1
      · exact absurd hn (hsec n).2
    · exact absurd (by
        rcases Set_Get_lookup L s sect key value with ⟨h, _, _⟩ | ⟨_, _, _, _, _, _, _, _, hg⟩ | h
        · rw [hj] at h
          cases h
        · exact hg
        · rw [hj] at h1
          cases h1
          simp only [Get, hj, htv, hfs, hk]) (hkey key sect).2
    · rcases hn with hn | hn
      · exact absurd hn (hkey k n).1
      · exact absurd hn (hkey k n).2

/-- Witness of C22: on the decoded `myConf`, the section `nope` is unknown whatever the key
is, and the key `nope` is unknown in the section `foo`; the struct is left as it was. -/
theorem accessor_resolution_witness :
    Set testLib (.ptrStruct myConfDecoded) "nope" "screensize" (.string "sunset") =
      (.ptrStruct myConfDecoded, some (.plain (.setUnknownSection "nope"))) ∧
    Get (.ptrStruct myConfDecoded) "nope" "screensize" =
      .error (.plain (.setUnknownSection "nope")) ∧
    Set testLib (.ptrStruct myConfDecoded) "foo" "nope" (.string "sunset") =
      (.ptrStruct myConfDecoded, some (.plain (.setUnknownKey "nope" "foo"))) ∧
    Get (.ptrStruct myConfDecoded) "foo" "nope" = .error (.plain (.setUnknownKey "nope" "foo")) :=
  ⟨((accessor_resolution testLib myConfDecoded "nope" "screensize" (.string "sunset")).1
      (by decide)).1,
    ((accessor_resolution testLib myConfDecoded "nope" "screensize" (.string "sunset")).1
      (by decide)).2,
    ((accessor_resolution testLib myConfDecoded "foo" "nope" (.string "sunset")).2.2.1
      1 (.struct fooDecoded) fooDecoded (by decide) (by decide) rfl (by decide)).1,
    ((accessor_resolution testLib myConfDecoded "foo" "nope" (.string "sunset")).2.2.1
      1 (.struct fooDecoded) fooDecoded (by decide) (by decide) rfl (by decide)).2⟩

/-! ## The editor and a value of an unsupported type -/

/-- With a value whose dynamic type is none of `string`, `int32`, `int64`, `bool` and
`[]string`, `EditAndSave` never returns bytes to write, whatever reading the file returned,
and the edit of the tree returns no tree.  When the file was read (or does not exist, which
gives the empty input) and parses to a list of items, the error is the `invalid set` error at
the position `tree.Pos()`, with the filename filled in; if `tree.Pos()` panics, the call ends
with that panic. -/
theorem edit_unsupported_type (L : Lib) (filename : String) (read : ReadResult)
    (sect key typeName : String) :
    (∀ bytes, EditAndSave L filename read sect key (.other typeName) ≠ .ok bytes) ∧
    (∀ treePos root root', editTree L treePos root sect key (.other typeName) ≠ .ok root') ∧
    (∀ data root, (read = .data data ∨ (read = .notExist ∧ data = "")) →
      L.parseBytes data = .ok ⟨.objectList root⟩ →
      (∀ pos, L.filePos ⟨.objectList root⟩ = some pos →
        EditAndSave L filename read sect key (.other typeName) =
          .error (fillFilename filename (.posError pos (.invalidSet key sect)))) ∧
      (L.filePos ⟨.objectList root⟩ = none →
        EditAndSave L filename read sect key (.other typeName) = .error .runtimePanic)) := by
  have htree : ∀ treePos root root',
      editTree L treePos root sect key (.other typeName) ≠ .ok root' := by
    intro treePos root root' h
    simp only [editTree, buildSetNode] at h
    cases treePos <;> cases h
  refine ⟨?_, htree, ?_⟩
  · intro bytes h
    simp only [EditAndSave] at h
    split at h
    · cases h
    rename_i b hb
    simp only [editAndSave] at hb
    split at hb
    · cases hb
    split at hb
    · cases hb
    rename_i tree htree'
    split at hb
    · split at hb <;> cases hb
    rename_i root hroot
    split at hb
    · cases hb
    rename_i root' hroot'
    exact htree _ _ _ hroot'
  · intro data root hread hparse
    have hp : L.parseBytes (match read with | .data bytes => bytes | _ => "") =
        .ok ⟨.objectList root⟩ := by
      rcases hread with h | ⟨h, hd⟩
      · subst h
        exact hparse
      · subst h
        subst hd
        exact hparse
    have hne : ∀ err, read ≠ .failed err := by
      intro err h
      rcases hread with h' | ⟨h', _⟩ <;> rw [h] at h' <;> cases h'
    constructor
    · intro pos hpos
      cases read with
      | failed err => exact absurd rfl (hne err)
      | data b => simp only [EditAndSave, editAndSave, hp, editTree, buildSetNode, hpos]
      | notExist => simp only [EditAndSave, editAndSave, hp, editTree, buildSetNode, hpos]
    · intro hpos
      cases read with
      | failed err => exact absurd rfl (hne err)
      | data b =>
        simp only [EditAndSave, editAndSave, hp, editTree, buildSetNode, hpos, fillFilename]
      | notExist =>
        simp only [EditAndSave, editAndSave, hp, editTree, buildSetNode, hpos, fillFilename]

/-- The call `EditAndSave(tpath, "foo", "screensize", 42)` with a plain `int` on the document
`conf` of `hconf_test.go`. -/
theorem edit_unsupported_type_witness :
    EditAndSave testLib "t.conf" (.data confText) "foo" "screensize" (.other "int") =
      .error (.posError ⟨"t.conf", 1, 2, 1⟩ (.invalidSet "screensize" "foo")) :=
  ((edit_unsupported_type testLib "t.conf" (.data confText) "foo" "screensize" "int").2.2
    confText conf (Or.inl rfl) rfl).1 ⟨"", 1, 2, 1⟩ rfl

/-! ## Several sections with the same name -/

/-- The last node of a document is the last node of a suffix that has one. -/
theorem lastNode_append_some (L : Lib) (sect key : String) (l1 l2 : List ObjectItem)
    (n : Node) (h : lastNode L sect key l2 = some n) :
    lastNode L sect key (l1 ++ l2) = some n := by
  induction l1 with
  | nil => exact h
  | cons item rest ih =>
    show lastNode L sect key (item :: (rest ++ l2)) = _
    simp only [lastNode, ih]

/-- C24.  In a document `pre ++ b :: post` that `Decode` accepts, let `b` be a section named
`sect`, one of any number of sections with that name, such that no section named `sect`
after `b` assigns `key`.  When `b` assigns `key`, the value bound to `sect`/`key` ends as
what `decodeInto` makes of the value node of the last item labelled `key` in `b`, whatever
the sections before `b` assigned to it, and a holder records the position of that node and
is set; this is so whether or not sections named `sect` follow `b`, so a key assigned only
in an earlier occurrence keeps the value of that occurrence.  When `b` does not assign `key`,
the value ends as the items before `b` left it. -/
theorem decode_duplicate_sections (L : Lib) (s s' : List TField) (filename data : String)
    (pre post : List ObjectItem) (b : ObjectItem) (sect key : String)
    (hparse : L.parseBytes data = .ok ⟨.objectList (pre ++ b :: post)⟩)
    (hdec : Decode L (.ptrStruct s) filename data = (.ptrStruct s', none))
    (hb : sectionNamed L sect b = true) (hpost : occurs L sect key post = false) :
    (∀ node, lastNodeIn L key (nestedItems b) = some node →
      ∃ v0 v', fieldAt s sect key = some v0 ∧ decodeInto L key node v0 = .ok v' ∧
        fieldAt s' sect key = some v' ∧
        (v0.isHolder = true →
          v'.IsSet = some true ∧ v'.Source = some node.pos ∧
          sourceAt s' sect key = some node.pos)) ∧
    (lastNodeIn L key (nestedItems b) = none →
      ∃ s1, decodeItems L (fields s).1 (fields s).2 s pre = (s1, none) ∧
        fieldAt s' sect key = fieldAt s1 sect key ∧
        sourceAt s' sect key = sourceAt s1 sect key) := by
  have hloop := Decode_ok L s s' filename data _ hparse hdec
  have hpostn : lastNode L sect key post = none := (lastNode_none_iff L sect key post).mpr hpost
  refine ⟨?_, ?_⟩
  · intro node hnode
    have hlast : lastNode L sect key (pre ++ b :: post) = some node := by
      apply lastNode_append_some
      simp only [lastNode, hpostn, hb, if_true, hnode]
    obtain ⟨v0, v', h0, hd, h'⟩ := decodeItems_last L sect key node _ s s s' rfl hloop hlast
    refine ⟨v0, v', h0, hd, h', fun hv => ?_⟩
    have hsrc := decodeInto_source L key node v0 v' hd hv
    refine ⟨(decodeInto_isSet L key node v0 v' hd hv).2, hsrc, ?_⟩
    rw [sourceAt_eq, h', Option.map_some', hsrc]
    rfl
  · intro hnone
    rw [decodeItems_append] at hloop
    generalize hr : decodeItems L (fields s).1 (fields s).2 s pre = r at hloop
    obtain ⟨s1, e1⟩ := r
    cases e1 with
    | some e => simp at hloop
    | none =>
      simp only at hloop
      have hs1 : fields s1 = fields s := decodeItems_fields L _ _ pre s s1 none hr
      have hfr : fieldAt s' sect key = fieldAt s1 sect key :=
        decodeItems_frame L sect key (b :: post) s s1 s' none hs1 hloop
          (by simp only [lastNode, hpostn, hb, if_true, hnone])
      exact ⟨s1, rfl, hfr, by rw [sourceAt_eq, sourceAt_eq, hfr]⟩

/-- Witness of C24: `twoFooDoc` decoded into `&myConf{}`.  The key `screensize`, assigned in
both sections `foo`, ends with the value and position of the second; the key `likes_cats`,
assigned in the first only, keeps the value and position of the first. -/
theorem decode_duplicate_sections_witness :
    Decode printLib (.ptrStruct myConf) "foo.conf" twoFooDocText =
      (.ptrStruct myConfTwoFoo, none) ∧
    (∃ v0 v', fieldAt myConf "foo" "screensize" = some v0 ∧
      decodeInto printLib "screensize" (.literal (tokenAt .STRING 88 6 16 "\"b\"")) v0 =
        .ok v' ∧
      fieldAt myConfTwoFoo "foo" "screensize" = some v' ∧
      (v0.isHolder = true →
        v'.IsSet = some true ∧ v'.Source = some ⟨"", 88, 6, 16⟩ ∧
        sourceAt myConfTwoFoo "foo" "screensize" = some ⟨"", 88, 6, 16⟩)) ∧
    (∃ v0 v', fieldAt myConf "foo" "likes_cats" = some v0 ∧
      decodeInto printLib "likes_cats" (.literal (tokenAt .BOOL 50 3 16 "true")) v0 = .ok v' ∧
      fieldAt myConfTwoFoo "foo" "likes_cats" = some v' ∧
      (v0.isHolder = true →
        v'.IsSet = some true ∧ v'.Source = some ⟨"", 50, 3, 16⟩ ∧
        sourceAt myConfTwoFoo "foo" "likes_cats" = some ⟨"", 50, 3, 16⟩)) ∧
    fieldAt myConfTwoFoo "foo" "screensize" =
      some (.holderString ⟨⟨"", 88, 6, 16⟩, "b", true⟩) ∧
    fieldAt myConfTwoFoo "foo" "likes_cats" =
      some (.holderBool ⟨⟨"", 50, 3, 16⟩, true, true⟩) :=
  ⟨by decide,
    (decode_duplicate_sections printLib myConf myConfTwoFoo "foo.conf" twoFooDocText
      [twoFooFirst] [] twoFooSecond "foo" "screensize" rfl (by decide) (by decide)
      (by decide)).1 (.literal (tokenAt .STRING 88 6 16 "\"b\"")) rfl,
    (decode_duplicate_sections printLib myConf myConfTwoFoo "foo.conf" twoFooDocText
      [] [twoFooSecond] twoFooFirst "foo" "likes_cats" rfl (by decide) (by decide)
      (by decide)).1 (.literal (tokenAt .BOOL 50 3 16 "true")) rfl,
    by decide, by decide⟩

/-! ## The predicates `eq` and `neq` -/

/-- C25.  For all strings `x` and `y`, `eq` on the mapper `local_Exec(x)` and the constant
`y` returns a predicate, without error, that is true on every `HC` exactly when `x` equals
`y`; `neq` on the same arguments returns the negation of that predicate, so it is true
exactly when `x` differs from `y`. -/
theorem eq_localExec (x y : String) :
    ∃ p q, eq (.toString (localExec x)) (.string y) = .ok p ∧
      neq (.toString (localExec x)) (.string y) = .ok q ∧
      ∀ c : HC, (p c = true ↔ x = y) ∧ q c = !p c ∧ (q c = true ↔ x ≠ y) := by
  refine ⟨fun c => localExec x c == y, not fun c => localExec x c == y, rfl, rfl, fun c => ?_⟩
  simp [not, localExec]

/-- Witness of C25: the predicate of `local_Exec("test") == "test"` (`TestBasicSection`) is
true, and the predicate of `local_Exec("test") != "test"` is false. -/
theorem eq_localExec_witness :
    ∃ p q, eq (.toString (localExec "test")) (.string "test") = .ok p ∧
      neq (.toString (localExec "test")) (.string "test") = .ok q ∧
      ∀ c : HC, (p c = true ↔ "test" = "test") ∧ q c = !p c ∧ (q c = true ↔ "test" ≠ "test") :=
  eq_localExec "test" "test"

/-! ## Key labels at the two levels -/

/-- C26.  Let `k` be a label written as a quoted string, a `STRING` token whose text differs
from the string `t` that `Token.Value()` unquotes it to.  Inside a section, `getKeyAsString`
reads `k` as `t`: an item labelled `k` is an item labelled `t`, it fails with the unknown-key
error for `t` when no value tag of the section struct is `t`, and otherwise is decoded into
the field that the tag `t` binds.  At the top level the label is looked up by its raw text:
the item is not a key `t`, the field that the value tag `t` binds is not the one looked up
and is left as it was, and `Decode` fails with the unknown-key error for the raw text, at the
position of the label, when no value tag is that raw text. -/
theorem key_label_levels (L : Lib) (k : ObjectKey) (t : String)
    (hty : k.token.type = .STRING) (hun : L.unquote k.token.json k.token.text = some t)
    (hne : k.token.text ≠ t) :
    getKeyAsString L k = .ok t ∧
    (∀ (sn : String) (vf : String → Option Nat) (out : List SField) (item : ObjectItem),
      item.keys = [k] →
      keyNamed L t item = true ∧
      (vf t = none →
        sectionItem L sn vf out item = (out, some (.posError k.pos (.unknownSectionKey sn t)))) ∧
      (∀ i v, vf t = some i → valAt out i = some v →
        sectionItem L sn vf out item =
          match decodeInto L t item.val v with
          | .error e => (out, some e)
          | .ok v' => (setVal out i v', none))) ∧
    (∀ (s s1 : List TField) (filename data : String) (pre post : List ObjectItem)
      (item : ObjectItem),
      L.parseBytes data = .ok ⟨.objectList (pre ++ item :: post)⟩ →
      decodeItems L (fields s).1 (fields s).2 s pre = (s1, none) → item.keys = [k] →
      topKeyNamed t item = false ∧
      (∀ i, (fields s).2 t = some i → (fields s).2 k.token.text ≠ some i) ∧
      (∀ s2 e, decodeItem L (fields s).1 (fields s).2 s1 item = (s2, e) →
        topFieldAt s2 t = topFieldAt s1 t) ∧
      ((fields s).2 k.token.text = none →
        Decode L (.ptrStruct s) filename data =
          (.ptrStruct s1,
            some (fillFilename filename (.posError k.pos (.unknownKey k.token.text)))))) := by
  have hname : getKeyAsString L k = .ok t := by
    simp [getKeyAsString, hty, Token.Value, hun]
  refine ⟨hname, ?_, ?_⟩
  · intro sn vf out item hk
    refine ⟨by simp [keyNamed, hk, hname], fun hnone => ?_, fun i v hi hv => ?_⟩
    · simp only [sectionItem, hk, hname, hnone]
    · simp only [sectionItem, hk, hname, hi, hv]
  · intro s s1 filename data pre post item hparse hpre hk
    have hs1 : fields s1 = fields s := decodeItems_fields L _ _ pre s s1 none hpre
    have htop : topKeyNamed t item = false := by
      simp [topKeyNamed, hk, hne]
    refine ⟨htop, fun i hi hc => hne (fields_value_inj s _ _ i hc hi), fun s2 e h2 => ?_,
      fun hnone => ?_⟩
    · rw [← hs1] at h2
      exact (decodeItem_top L t s1 s2 item e h2).2 htop
    · have hitem : decodeItem L (fields s).1 (fields s).2 s1 item =
          (s1, some (.posError k.pos (.unknownKey k.token.text))) := by
        simp only [decodeItem, hk, hnone]
      exact Decode_of_error L s s1 filename data _ _ hparse
        (decodeItems_first_error L _ _ pre post item s s1 s1 _ hpre hitem)

/-- Witness of C26: in the section `foo` the quoted key `"likes_cats"` is decoded into the
holder bound to the tag `likes_cats`; at the top level the quoted key `"version"` is an
unknown key, while the bare key `version` is decoded into the field `Version`. -/
theorem key_label_levels_witness :
    Decode printLib (.ptrStruct myConf) "foo.conf" quotedKeyDocText =
      (.ptrStruct (setVal myConf 1
        (.struct (setVal fooZero 1 (.holderBool ⟨⟨"", 33, 2, 18⟩, true, true⟩)))), none) ∧
    Decode printLib (.ptrStruct myConf) "foo.conf" quotedTopDocText =
      (.ptrStruct myConf,
        some (.posError ⟨"foo.conf", 0, 1, 1⟩ (.unknownKey "\"version\""))) ∧
    Decode printLib (.ptrStruct myConf) "foo.conf" plainTopDocText =
      (.ptrStruct (setVal myConf 0 (.leaf (.string "1"))), none) :=
  ⟨by decide,
    ((key_label_levels printLib ⟨tokenAt .STRING 0 1 1 "\"version\""⟩ "version" rfl
      (by decide) (by decide)).2.2 myConf myConf "foo.conf" quotedTopDocText [] []
      quotedTopItem rfl rfl rfl).2.2.2 (by decide),
    by decide⟩

/-! ## The editor: a name that is not read back, and an empty document -/

/-- C8.  The call `EditAndSave(path, "a${b", "k", "v")` on a file that does not exist, and
then the same edit on the document of the first.  The first edit succeeds and appends a
section whose label is `strconv.Quote` of the name, `"a${b"`.  `Token.Value()` does not read
that label back, because the interpolation `${` is not closed; the second edit looks for the
section through `getKeyAsString`, so it ends with the panic of `Token.Value()` and does not
return the document of the first.  With the name `foo` the second edit returns the document
of the first. -/
theorem edit_twice_unreadable_name :
    EditAndSave interpLib "t.conf" .notExist "a$\x7bb" "k" (.string "v") =
      .ok "section \"a$\x7bb\" \x7b\n  k = \"v\"\n\x7d\n" ∧
    editTree interpLib none [] "a$\x7bb" "k" (.string "v") =
      .ok [buildSetSection interpLib "a$\x7bb"
        (buildSetObjItem "k" (.literal ⟨.STRING, Pos.zero, "\"v\"", false⟩))] ∧
    interpLib.quote "a$\x7bb" = "\"a$\x7bb\"" ∧
    Token.Value interpLib ⟨.STRING, Pos.zero, "\"a$\x7bb\"", false⟩ = none ∧
    editTree interpLib none
      [buildSetSection interpLib "a$\x7bb"
        (buildSetObjItem "k" (.literal ⟨.STRING, Pos.zero, "\"v\"", false⟩))]
      "a$\x7bb" "k" (.string "v") = .error .runtimePanic ∧
    editTree interpLib none [] "foo" "k" (.string "v") =
      .ok [buildSetSection interpLib "foo"
        (buildSetObjItem "k" (.literal ⟨.STRING, Pos.zero, "\"v\"", false⟩))] ∧
    editTree interpLib none
      [buildSetSection interpLib "foo"
        (buildSetObjItem "k" (.literal ⟨.STRING, Pos.zero, "\"v\"", false⟩))]
      "foo" "k" (.string "v") =
      .ok [buildSetSection interpLib "foo"
        (buildSetObjItem "k" (.literal ⟨.STRING, Pos.zero, "\"v\"", false⟩))] :=
  ⟨rfl, rfl, by decide, by decide, rfl, rfl, rfl⟩

/-- C23.  The call `EditAndSave(tpath, "foo", "screensize", 42)` with a plain `int` on a file
that does not exist.  The empty input parses to a tree without items, the default case of the
type switch asks for `tree.Pos()`, which reads the first item of the tree and panics, and the
call ends with that panic: it returns no `invalid set` error.  The same call with the string
`giant` succeeds, and on the document `conf` the `int` gives the `invalid set` error at the
position of the first item. -/
theorem edit_unsupported_type_panics :
    printLib.parseBytes "" = .ok ⟨.objectList []⟩ ∧
    printLib.filePos ⟨.objectList []⟩ = none ∧
    editTree printLib (printLib.filePos ⟨.objectList []⟩) [] "foo" "screensize" (.other "int") =
      .error .runtimePanic ∧
    EditAndSave printLib "t.conf" .notExist "foo" "screensize" (.other "int") =
      .error .runtimePanic ∧
    EditAndSave printLib "t.conf" .notExist "foo" "screensize" (.string "giant") =
      .ok "section \"foo\" \x7b\n  screensize = \"giant\"\n\x7d\n" ∧
    EditAndSave printLib "t.conf" (.data confText) "foo" "screensize" (.other "int") =
      .error (.posError ⟨"t.conf", 1, 2, 1⟩ (.invalidSet "screensize" "foo")) :=
  ⟨rfl, rfl, rfl, rfl, rfl, rfl⟩

end Hconf
